import Mathlib

/-!
Verification of the graph/canvas engine of the NodesIn.Space visual node editor
(`js/workflow-canvas.js`, `js/workflow-execution.js`).

The JavaScript sources are shallowly embedded below:

* JS `Map` objects (insertion-ordered, unique keys) are modelled as association
  lists with `mapGet` / `mapSet` / `mapDelete`; `mapSet` replaces the first
  occurrence of the key in place (preserving insertion order) and otherwise
  appends, exactly like `Map.prototype.set`.  JS `Set` objects are modelled as
  duplicate-free lists.
* JS numbers are modelled as rationals (`Rat`); all arithmetic appearing in the
  modelled code paths (additions, subtractions, multiplications, divisions,
  `Math.max` / `Math.min`) is exact on the inputs considered.
* DOM-related statements (element creation, CSS classes, SVG paths, logger
  output) have no effect on the graph state and are omitted; where an operation
  emits a warning through `window.logger.warn`, the embedded operation returns
  an additional `Bool` that is `true` exactly when the warning is emitted.
-/

namespace NodeEditor

/-! ### Association-list model of JS `Map` -/

/-- Lookup, like `Map.prototype.get` (returns the first binding of the key;
JS maps never hold a key twice, so this is exact). -/
def mapGet {α β : Type} [DecidableEq α] (m : List (α × β)) (k : α) : Option β :=
  match m with
  | [] => none
  | p :: rest => if p.1 = k then some p.2 else mapGet rest k

/-- Update, like `Map.prototype.set`: replaces the value at the first
occurrence of the key keeping its position, otherwise appends the binding. -/
def mapSet {α β : Type} [DecidableEq α] (m : List (α × β)) (k : α) (v : β) :
    List (α × β) :=
  match m with
  | [] => [(k, v)]
  | p :: rest => if p.1 = k then (k, v) :: rest else p :: mapSet rest k v

/-- Removal, like `Map.prototype.delete` (removes the first binding). -/
def mapDelete {α β : Type} [DecidableEq α] (m : List (α × β)) (k : α) :
    List (α × β) :=
  match m with
  | [] => []
  | p :: rest => if p.1 = k then rest else p :: mapDelete rest k

/-- Membership test, like `Map.prototype.has`. -/
def mapHas {α β : Type} [DecidableEq α] (m : List (α × β)) (k : α) : Bool :=
  (mapGet m k).isSome

/-! ### CoordinateSystem (`workflow-canvas.js`)

`this.worldSize = 100000`, `this.useFixedWorld = true` (constructor, lines
12-13), `clampToWorld` (lines 1559-1568), `viewportToCanvas` (lines
1551-1556) and the zoom part of `handleWheel` (lines 1441-1467). -/

/-- `this.worldSize = 100000` — the fixed square world extent. -/
def worldSize : Rat := 100000

/-- `this.useFixedWorld = true`. -/
def useFixedWorld : Bool := true

/-- `clampToWorld(x, y, width = 0, height = 0)`:
clamps a candidate top-left position to the fixed world bounds. -/
def clampToWorld (x y width height : Rat) : Rat × Rat :=
  if useFixedWorld = false then (x, y)
  else
    let s := worldSize
    let maxX := max 0 (s - width)
    let maxY := max 0 (s - height)
    (max 0 (min x maxX), max 0 (min y maxY))

/-- The pan/zoom transform `this.canvasTransform = { x, y, scale }`. -/
structure CanvasTransform where
  x : Rat
  y : Rat
  scale : Rat
deriving DecidableEq, Repr

/-- The canvas bounding rectangle (`this.canvas.getBoundingClientRect()`). -/
structure ClientRect where
  left : Rat
  top : Rat
  width : Rat
  height : Rat
deriving DecidableEq, Repr

/-- `viewportToCanvas(x, y)`: inverse-affine map from viewport (client)
coordinates to world coordinates using the current translate/scale. -/
def viewportToCanvas (t : CanvasTransform) (rect : ClientRect) (x y : Rat) :
    Rat × Rat :=
  ((x - rect.left - t.x) / t.scale, (y - rect.top - t.y) / t.scale)

/-- `handleWheel(e)` restricted to its effect on `this.canvasTransform`:
computes the clamped new scale, anchors the zoom at the viewport centre,
and recomputes the translation so that the world point previously under the
anchor stays under it.  `e.deltaY` is the only event field read. -/
def handleWheel (t : CanvasTransform) (rect : ClientRect) (deltaY : Rat) :
    CanvasTransform :=
  let scaleSpeed : Rat := 1/10
  let prevScale := t.scale
  let scaleDelta := if 0 < deltaY then -scaleSpeed else scaleSpeed
  let newScale := max (1/10) (min 3 (prevScale + scaleDelta))
  if newScale = prevScale then t
  else
    let centerClientX := rect.left + rect.width / 2
    let centerClientY := rect.top + rect.height / 2
    let centerWorld := viewportToCanvas t rect centerClientX centerClientY
    { x := (centerClientX - rect.left) - centerWorld.1 * newScale
      y := (centerClientY - rect.top) - centerWorld.2 * newScale
      scale := newScale }

/-! ### GraphStore (`workflow-canvas.js`)

State of a `WorkflowCanvas` instance restricted to the graph model: the node
and connection collections (`this.nodes`, `this.connections`, JS `Map`s keyed
by id), the connection index (`this.connectionIndex.incoming/outgoing`), the
selected-node set and the two id counters.  JS ids are the strings
`node_${++this.nodeCounter}` and `connection_${++this.connectionCounter}`;
since the two prefixes never collide and the numeric suffix determines the
string, ids are modelled by the counter value (a `Nat`) per kind. -/

/-- One endpoint of a connection: `{ nodeId, name }` (the `element` field is
rendering-only and omitted). -/
structure Endpoint where
  nodeId : Nat
  name : String
deriving DecidableEq, Repr

/-- The part of a `connectionData` object that the connection index ever
reads back (`id`, `source`, `target`); the index stores the connection object
itself, but `id`, `source.nodeId/name` and `target.nodeId/name` are the only
fields read through it and they are never mutated after creation. -/
structure ConnRef where
  id : Nat
  source : Endpoint
  target : Endpoint
deriving DecidableEq, Repr

/-- A `connectionData` record: id, canonicalized source (output side), target
(input side) and the derived color (`connectionData.color`). -/
structure Connection where
  id : Nat
  source : Endpoint
  target : Endpoint
  color : Option String
deriving DecidableEq, Repr

/-- A node definition as supplied by the palette, restricted to the port
name lists (`definition.inputs[].name`, `definition.outputs[].name`), which
determine which connection points `generateNodeHTML` creates. -/
structure NodeDef where
  inputs : List String
  outputs : List String
deriving DecidableEq, Repr

/-- A `nodeData` record restricted to the fields the modelled operations
read or write: id, port name lists (via the stored definition), clamped
position, `locked` and `color`. -/
structure NodeData where
  id : Nat
  inputs : List String
  outputs : List String
  position : Rat × Rat
  locked : Bool
  color : Option String
deriving DecidableEq, Repr

/-- The role of a connection point, `data-connection-type`:
`'input'` or `'output'`. -/
inductive PortRole where
  | input : PortRole
  | output : PortRole
deriving DecidableEq, Repr

/-- A connection-point reference as passed to `createConnection`:
`{ nodeId, type, name }` (again minus the DOM element). -/
structure PortSel where
  nodeId : Nat
  role : PortRole
  name : String
deriving DecidableEq, Repr

/-- Result shape of `getInputBinding`:
`{ connectionId, fromNodeId, fromPort }`. -/
structure Binding where
  connectionId : Nat
  fromNodeId : Nat
  fromPort : String
deriving DecidableEq, Repr

/-- Result shape of `getIncomingConnections` entries:
`{ connectionId, inputName, fromNodeId, fromPort }`. -/
structure IncomingEntry where
  connectionId : Nat
  inputName : String
  fromNodeId : Nat
  fromPort : String
deriving DecidableEq, Repr

/-- Result shape of `getOutgoingConnections` entries:
`{ connectionId, outputName, toNodeId, toPort }`. -/
structure OutgoingEntry where
  connectionId : Nat
  outputName : String
  toNodeId : Nat
  toPort : String
deriving DecidableEq, Repr

/-- The graph-model state of a `WorkflowCanvas` instance. -/
structure CanvasState where
  nodes : List (Nat × NodeData)
  connections : List (Nat × Connection)
  /-- `connectionIndex.incoming : nodeId → Map<inputName, connection>`. -/
  incoming : List (Nat × List (String × ConnRef))
  /-- `connectionIndex.outgoing : nodeId → Map<outputName, Set<connectionId>>`. -/
  outgoing : List (Nat × List (String × List Nat))
  selectedNodes : List Nat
  nodeCounter : Nat
  connectionCounter : Nat
deriving DecidableEq, Repr

/-- The state right after the constructor: empty collections, counters 0. -/
def initialState : CanvasState :=
  { nodes := []
    connections := []
    incoming := []
    outgoing := []
    selectedNodes := []
    nodeCounter := 0
    connectionCounter := 0 }

/-- `createNode(definition, x, y)` (lines 444-497): allocates
`node_${++this.nodeCounter}`, clamps the position to the world using the
node's on-screen size (supplied here as `w`/`h`, the DOM `offsetWidth` /
`offsetHeight`), and stores the node record (`locked: false`, `color: null`).
Returns the new id together with the new state. -/
def createNode (s : CanvasState) (defn : NodeDef) (x y w h : Rat) :
    Nat × CanvasState :=
  let nodeId := s.nodeCounter + 1
  let pos := clampToWorld x y w h
  let nd : NodeData :=
    { id := nodeId
      inputs := defn.inputs
      outputs := defn.outputs
      position := pos
      locked := false
      color := none }
  (nodeId,
    { s with
      nodes := mapSet s.nodes nodeId nd
      nodeCounter := nodeId })

/-- `getInputBinding(nodeId, inputName)` (lines 1379-1389). -/
def getInputBinding (s : CanvasState) (nodeId : Nat) (inputName : String) :
    Option Binding :=
  match mapGet s.incoming nodeId with
  | none => none
  | some incomingMap =>
    match mapGet incomingMap inputName with
    | none => none
    | some conn =>
      some { connectionId := conn.id
             fromNodeId := conn.source.nodeId
             fromPort := conn.source.name }

/-- `getIncomingConnections(nodeId)` (lines 1344-1357): projects the incoming
index entries of a node, in map insertion order. -/
def getIncomingConnections (s : CanvasState) (nodeId : Nat) :
    List IncomingEntry :=
  match mapGet s.incoming nodeId with
  | none => []
  | some incomingMap =>
    incomingMap.map fun p =>
      { connectionId := p.2.id
        inputName := p.1
        fromNodeId := p.2.source.nodeId
        fromPort := p.2.source.name }

/-- `getOutgoingConnections(nodeId)` (lines 1359-1377): for every indexed
outgoing connection id, looks the connection up in the collection and emits
an entry when it is present. -/
def getOutgoingConnections (s : CanvasState) (nodeId : Nat) :
    List OutgoingEntry :=
  match mapGet s.outgoing nodeId with
  | none => []
  | some outgoingMap =>
    outgoingMap.flatMap fun p =>
      p.2.filterMap fun connectionId =>
        match mapGet s.connections connectionId with
        | none => none
        | some conn =>
          some { connectionId := connectionId
                 outputName := p.1
                 toNodeId := conn.target.nodeId
                 toPort := conn.target.name }

/-- `_registerConnectionInIndex(connection)` (lines 1301-1313): the incoming
side binds `(target.nodeId, target.name)` to the connection (last one wins);
the outgoing side adds the id to the `Set` at `(source.nodeId, source.name)`
(a JS `Set`, so the id is appended only when absent). -/
def registerConnectionInIndex (s : CanvasState) (c : ConnRef) : CanvasState :=
  let incomingMap := (mapGet s.incoming c.target.nodeId).getD []
  let incoming := mapSet s.incoming c.target.nodeId
    (mapSet incomingMap c.target.name c)
  let outgoingMap := (mapGet s.outgoing c.source.nodeId).getD []
  let ids := (mapGet outgoingMap c.source.name).getD []
  let ids := if c.id ∈ ids then ids else ids ++ [c.id]
  let outgoing := mapSet s.outgoing c.source.nodeId
    (mapSet outgoingMap c.source.name ids)
  { s with incoming := incoming, outgoing := outgoing }

/-- `_unregisterConnectionFromIndex(connection)` (lines 1315-1342).  The
incoming entry at `(target.nodeId, target.name)` is removed exactly when the
stored connection has the same id (the source's `else if` re-checks the same
condition and is collapsed here); empty inner maps are dropped.  The outgoing
`Set` at `(source.nodeId, source.name)` has the id removed, with the same
empty-map cleanup. -/
def unregisterConnectionFromIndex (s : CanvasState) (c : ConnRef) :
    CanvasState :=
  let incoming :=
    match mapGet s.incoming c.target.nodeId with
    | none => s.incoming
    | some incomingMap =>
      match mapGet incomingMap c.target.name with
      | none => s.incoming
      | some stored =>
        if stored.id = c.id then
          let inner := mapDelete incomingMap c.target.name
          if inner.isEmpty then mapDelete s.incoming c.target.nodeId
          else mapSet s.incoming c.target.nodeId inner
        else s.incoming
  let outgoing :=
    match mapGet s.outgoing c.source.nodeId with
    | none => s.outgoing
    | some outgoingMap =>
      match mapGet outgoingMap c.source.name with
      | none => s.outgoing
      | some ids =>
        let ids := ids.erase c.id
        let inner :=
          if ids.isEmpty then mapDelete outgoingMap c.source.name
          else mapSet outgoingMap c.source.name ids
        if inner.isEmpty then mapDelete s.outgoing c.source.nodeId
        else mapSet s.outgoing c.source.nodeId inner
  { s with incoming := incoming, outgoing := outgoing }

/-- `!!(node && node.locked)`: whether a node id refers to an existing,
locked node. -/
def nodeLocked (s : CanvasState) (nodeId : Nat) : Bool :=
  match mapGet s.nodes nodeId with
  | some n => n.locked
  | none => false

/-- `deleteConnection(connectionId)` (lines 1243-1284): no-op on an unknown
id; blocked (with a logger warning, the returned `Bool`) when **both**
endpoint nodes exist and are locked; otherwise unregisters the connection
from the index and removes it from the collection. -/
def deleteConnection (s : CanvasState) (connectionId : Nat) :
    CanvasState × Bool :=
  match mapGet s.connections connectionId with
  | none => (s, false)
  | some connection =>
    let sourceLocked := nodeLocked s connection.source.nodeId
    let targetLocked := nodeLocked s connection.target.nodeId
    if sourceLocked && targetLocked then (s, true)
    else
      let s1 := unregisterConnectionFromIndex s
        { id := connection.id
          source := connection.source
          target := connection.target }
      ({ s1 with connections := mapDelete s1.connections connectionId }, false)

/-- `deleteNode(nodeId)` (lines 1216-1241): no-op on an unknown id; blocked
with a warning when the node is locked; otherwise deletes every connection
whose source or target is the node (in collection order) and then removes
the node. -/
def deleteNode (s : CanvasState) (nodeId : Nat) : CanvasState × Bool :=
  match mapGet s.nodes nodeId with
  | none => (s, false)
  | some node =>
    if node.locked then (s, true)
    else
      let connectionsToRemove :=
        (s.connections.filter fun p =>
          p.2.source.nodeId = nodeId ∨ p.2.target.nodeId = nodeId).map
          Prod.fst
      let s1 := connectionsToRemove.foldl
        (fun acc connectionId => (deleteConnection acc connectionId).1) s
      ({ s1 with nodes := mapDelete s1.nodes nodeId }, false)

/-- `createConnection(source, target)` (lines 860-928): rejects self
connections and same-role pairs; swaps the endpoints so the source is the
output side; requires both nodes and both connection-point elements to exist
(`generateNodeHTML` creates exactly one point per definition port, so the
element lookup succeeds iff the port name is listed in the definition);
deletes any existing binding of the target input (replacement semantics —
note `deleteConnection` may refuse); then allocates
`connection_${++this.connectionCounter}`, stores the connection, indexes it,
and derives its color (source node's color, else target node's, else none). -/
def createConnection (s : CanvasState) (source target : PortSel) :
    Option Nat × CanvasState :=
  if source.nodeId = target.nodeId then (none, s)
  else if source.role = target.role then (none, s)
  else
    let src := if source.role = PortRole.input then target else source
    let tgt := if source.role = PortRole.input then source else target
    match mapGet s.nodes src.nodeId, mapGet s.nodes tgt.nodeId with
    | some sourceNode, some targetNode =>
      if src.name ∈ sourceNode.outputs ∧ tgt.name ∈ targetNode.inputs then
        let s1 :=
          match getInputBinding s tgt.nodeId tgt.name with
          | some existingBinding =>
            (deleteConnection s existingBinding.connectionId).1
          | none => s
        let connectionId := s1.connectionCounter + 1
        let srcNodeColor := match mapGet s1.nodes src.nodeId with
          | some n => n.color
          | none => none
        let dstNodeColor := match mapGet s1.nodes tgt.nodeId with
          | some n => n.color
          | none => none
        let color := match srcNodeColor with
          | some c => some c
          | none => dstNodeColor
        let connection : Connection :=
          { id := connectionId
            source := { nodeId := src.nodeId, name := src.name }
            target := { nodeId := tgt.nodeId, name := tgt.name }
            color := color }
        let s2 := registerConnectionInIndex
          { s1 with
            connections := mapSet s1.connections connectionId connection
            connectionCounter := connectionId }
          { id := connectionId
            source := connection.source
            target := connection.target }
        (some connectionId, s2)
      else (none, s)
    | _, _ => (none, s)

/-- `clearCanvas(showConfirm)` (lines 1493-1510), confirmed path: empties the
node and connection collections, resets both index sides, and clears the
selection.  The id counters are **not** reset. -/
def clearCanvas (s : CanvasState) : CanvasState :=
  { s with
    nodes := []
    connections := []
    incoming := []
    outgoing := []
    selectedNodes := [] }

/-- Helper for `setSelectedNodesColor`: the body of the per-connection
`forEach` callbacks — re-color one indexed connection when it is present in
the collection. -/
def recolorConnection (s : CanvasState) (color : String)
    (connectionId : Nat) : CanvasState :=
  match mapGet s.connections connectionId with
  | none => s
  | some conn =>
    { s with connections :=
        mapSet s.connections connectionId { conn with color := some color } }

/-- The incoming `forEach` of `setSelectedNodesColor` (lines 177-183):
re-color every indexed incoming connection of the node. -/
def recolorIncoming (color : String) (s : CanvasState) (nodeId : Nat) :
    CanvasState :=
  (getIncomingConnections s nodeId).foldl
    (fun acc e => recolorConnection acc color e.connectionId) s

/-- The outgoing `forEach` of `setSelectedNodesColor` (lines 184-190):
re-color every indexed outgoing connection of the node. -/
def recolorOutgoing (color : String) (s : CanvasState) (nodeId : Nat) :
    CanvasState :=
  (getOutgoingConnections s nodeId).foldl
    (fun acc e => recolorConnection acc color e.connectionId) s

/-- Helper for `setSelectedNodesColor`: the body of the per-node `forEach`
(lines 171-191): skip missing nodes; set the node's color; then set the color
of every incoming and outgoing indexed connection to the same color. -/
def setNodeColorStep (color : String) (s : CanvasState) (nodeId : Nat) :
    CanvasState :=
  match mapGet s.nodes nodeId with
  | none => s
  | some node =>
    let s1 :=
      { s with nodes := mapSet s.nodes nodeId { node with color := some color } }
    recolorOutgoing color (recolorIncoming color s1 nodeId) nodeId

/-- `setSelectedNodesColor(color)` (lines 169-192): no-op on a falsy color
(the empty string); otherwise applies `setNodeColorStep` to every selected
node id. -/
def setSelectedNodesColor (s : CanvasState) (color : String) : CanvasState :=
  if color.isEmpty then s
  else s.selectedNodes.foldl (setNodeColorStep color) s

/-- The `'lock'` context-menu action (lines 332-341): sets `locked := true`
on every selected node that exists and is not already locked. -/
def lockSelectedNodes (s : CanvasState) : CanvasState :=
  s.selectedNodes.foldl
    (fun acc nodeId =>
      match mapGet acc.nodes nodeId with
      | none => acc
      | some n =>
        if n.locked = false then
          { acc with nodes := mapSet acc.nodes nodeId { n with locked := true } }
        else acc)
    s

/-! ### Index soundness

The structural relationship between `this.connectionIndex` and
`this.connections` that the code maintains: every indexed entry points back
to a live connection with matching endpoints, keys are unique, and outgoing
id sets are duplicate-free.  (`exportWorkflow`-style reads rely on it.) -/

/-- Soundness of the connection index with respect to the collections:
unique keys everywhere, stored ids match map keys, every incoming entry sits
at its connection's target and points back to a live connection, and every
outgoing id set sits at its connections' source and lists only live
connection ids. -/
structure IndexSound (s : CanvasState) : Prop where
  nodesNodup : (s.nodes.map Prod.fst).Nodup
  connsNodup : (s.connections.map Prod.fst).Nodup
  connsId : ∀ r ∈ s.connections, r.2.id = r.1
  incomingOuterNodup : (s.incoming.map Prod.fst).Nodup
  incomingInnerNodup : ∀ p ∈ s.incoming, (p.2.map Prod.fst).Nodup
  incomingSound : ∀ p ∈ s.incoming, ∀ q ∈ p.2,
    q.2.target.nodeId = p.1 ∧ q.2.target.name = q.1 ∧
    ∃ r ∈ s.connections, r.1 = q.2.id ∧ r.2.id = q.2.id ∧
      r.2.source = q.2.source ∧ r.2.target = q.2.target
  outgoingOuterNodup : (s.outgoing.map Prod.fst).Nodup
  outgoingInnerNodup : ∀ p ∈ s.outgoing, (p.2.map Prod.fst).Nodup
  outgoingSetsNodup : ∀ p ∈ s.outgoing, ∀ q ∈ p.2, q.2.Nodup
  outgoingSound : ∀ p ∈ s.outgoing, ∀ q ∈ p.2, ∀ cid ∈ q.2,
    ∃ r ∈ s.connections, r.1 = cid ∧ r.2.id = cid ∧
      r.2.source.nodeId = p.1 ∧ r.2.source.name = q.1

/-! ### Operation traces

The public mutating operations on the graph, used to state lifetime-global
facts (id freshness).  Each applied operation also yields the list of ids it
returned to its caller; node and connection ids live in the two summands of
`Sum Nat Nat`, mirroring the disjoint JS id prefixes `node_`/`connection_`. -/

/-- One public graph mutation. -/
inductive Op where
  | createNode (defn : NodeDef) (x y w h : Rat) : Op
  | createConnection (source target : PortSel) : Op
  | deleteNode (nodeId : Nat) : Op
  | deleteConnection (connectionId : Nat) : Op
  | clearCanvas : Op

/-- Apply one operation; also return the ids handed back to the caller
(`Sum.inl` a node id, `Sum.inr` a connection id). -/
def applyOp (s : CanvasState) : Op → CanvasState × List (Sum Nat Nat)
  | Op.createNode defn x y w h =>
    let r := createNode s defn x y w h
    (r.2, [Sum.inl r.1])
  | Op.createConnection source target =>
    let r := createConnection s source target
    (r.2, match r.1 with
          | some connectionId => [Sum.inr connectionId]
          | none => [])
  | Op.deleteNode nodeId => ((deleteNode s nodeId).1, [])
  | Op.deleteConnection connectionId =>
    ((deleteConnection s connectionId).1, [])
  | Op.clearCanvas => (clearCanvas s, [])

/-- Run a list of operations, collecting every returned id in order. -/
def runOps (s : CanvasState) : List Op → CanvasState × List (Sum Nat Nat)
  | [] => (s, [])
  | op :: rest =>
    let r := applyOp s op
    let r2 := runOps r.1 rest
    (r2.1, r.2 ++ r2.2)

/-! ### Concrete scenarios -/

/-- The state reached by creating three nodes (1: one output `out`; 2: one
input `in`; 3: one output `out`), connecting `1.out → 2.in` (connection 1),
selecting nodes 1 and 2 and locking them through the `'lock'` context-menu
action.  Written as the resulting literal state (the clamped drop positions
are `(0, 0)`). -/
def lockedScenarioBase : CanvasState :=
  { nodes :=
      [(1, ⟨1, [], ["out"], (0, 0), true, none⟩),
       (2, ⟨2, ["in"], [], (0, 0), true, none⟩),
       (3, ⟨3, [], ["out"], (0, 0), false, none⟩)]
    connections := [(1, ⟨1, ⟨1, "out"⟩, ⟨2, "in"⟩, none⟩)]
    incoming := [(2, [("in", ⟨1, ⟨1, "out"⟩, ⟨2, "in"⟩⟩)])]
    outgoing := [(1, [("out", [1])])]
    selectedNodes := [1, 2]
    nodeCounter := 3
    connectionCounter := 1 }

/-- `lockedScenarioBase` followed by a second connection `3.out → 2.in`
targeting the already-bound (and lock-protected) input. -/
def lockedReplacementScenario : CanvasState :=
  (createConnection lockedScenarioBase ⟨3, PortRole.output, "out"⟩
    ⟨2, PortRole.input, "in"⟩).2

/-- The state reached by creating nodes 1 (`out`), 2 (`in`/`out`), 3 (`in`),
connecting `1.out → 2.in` (connection 1) and `2.out → 3.in` (connection 2),
then selecting node 1 and coloring it green through `setSelectedNodesColor`
(which also colors its incident connection 1 green).  Written as the
resulting literal state. -/
def colorScenarioBase : CanvasState :=
  { nodes :=
      [(1, ⟨1, [], ["out"], (0, 0), false, some "#00ff00"⟩),
       (2, ⟨2, ["in"], ["out"], (0, 0), false, none⟩),
       (3, ⟨3, ["in"], [], (0, 0), false, none⟩)]
    connections :=
      [(1, ⟨1, ⟨1, "out"⟩, ⟨2, "in"⟩, some "#00ff00"⟩),
       (2, ⟨2, ⟨2, "out"⟩, ⟨3, "in"⟩, none⟩)]
    incoming :=
      [(2, [("in", ⟨1, ⟨1, "out"⟩, ⟨2, "in"⟩⟩)]),
       (3, [("in", ⟨2, ⟨2, "out"⟩, ⟨3, "in"⟩⟩)])]
    outgoing :=
      [(1, [("out", [1])]),
       (2, [("out", [2])])]
    selectedNodes := [1]
    nodeCounter := 3
    connectionCounter := 2 }

/-- `colorScenarioBase` with node 2 selected and colored red. -/
def colorScenarioResult : CanvasState :=
  setSelectedNodesColor { colorScenarioBase with selectedNodes := [2] }
    "#ff0000"

/-- The spec's color-propagation scenario: node 2 (one incoming connection 1
from node 1, one outgoing connection 2 to node 3, no endpoint colored) is
selected; no node carries a color yet. -/
def colorWitnessBase : CanvasState :=
  { nodes :=
      [(1, ⟨1, [], ["out"], (0, 0), false, none⟩),
       (2, ⟨2, ["in"], ["out"], (0, 0), false, none⟩),
       (3, ⟨3, ["in"], [], (0, 0), false, none⟩)]
    connections :=
      [(1, ⟨1, ⟨1, "out"⟩, ⟨2, "in"⟩, none⟩),
       (2, ⟨2, ⟨2, "out"⟩, ⟨3, "in"⟩, none⟩)]
    incoming :=
      [(2, [("in", ⟨1, ⟨1, "out"⟩, ⟨2, "in"⟩⟩)]),
       (3, [("in", ⟨2, ⟨2, "out"⟩, ⟨3, "in"⟩⟩)])]
    outgoing :=
      [(1, [("out", [1])]),
       (2, [("out", [2])])]
    selectedNodes := [2]
    nodeCounter := 3
    connectionCounter := 2 }

/-- The connection (if present) carries the given color. -/
def ConnColored (s : CanvasState) (color : String) (connectionId : Nat) :
    Prop :=
  ∀ c, mapGet s.connections connectionId = some c → c.color = some color

/-- The node is present and carries the given color. -/
def NodeColored (s : CanvasState) (color : String) (nodeId : Nat) : Prop :=
  ∃ nd, mapGet s.nodes nodeId = some nd ∧ nd.color = some color

/-! ### Topological sort and cycle detection

`computeExecutionOrder` (workflow-canvas.js:1814-1849),
`hasCircularDependencies` (workflow-execution.js:337-371),
`validateWorkflow` (workflow-execution.js:246-332) and the guard section of
`executeWorkflow` (workflow-execution.js:23-43). -/

/-- The graph snapshot those functions read: the node ids
(`workflowData.nodes.map(n => n.id)`) and each connection reduced to its
`(source.nodeId, target.nodeId)` pair — the only fields they consult. -/
structure WorkflowData where
  nodes : List Nat
  connections : List (Nat × Nat)
  deriving DecidableEq

/-- `new Map(pairs)`: the constructor inserts the pairs in order; a later
pair overwrites an earlier key in place, exactly as `mapSet` does. -/
def buildMap {α : Type} (pairs : List (Nat × α)) : List (Nat × α) :=
  pairs.foldl (fun m p => mapSet m p.1 p.2) []

/-- One step of the `workflowData.connections.forEach` loop of
`computeExecutionOrder`: ensure the source has an adjacency entry
(`if (!adj.has(u)) adj.set(u, [])`), push the target onto it
(`adj.get(u).push(v)`), and bump the target's in-degree
(`indegree.set(v, (indegree.get(v) || 0) + 1)`). -/
def addConnDeg (st : List (Nat × Int) × List (Nat × List Nat))
    (c : Nat × Nat) : List (Nat × Int) × List (Nat × List Nat) :=
  let adj0 := if mapHas st.2 c.1 then st.2 else mapSet st.2 c.1 []
  let adj1 := mapSet adj0 c.1 (((mapGet adj0 c.1).getD []) ++ [c.2])
  let ind1 := mapSet st.1 c.2 (((mapGet st.1 c.2).getD 0) + 1)
  (ind1, adj1)

/-- Sum of the positive parts of the in-degree values; together with the
queue length this bounds the number of loop iterations left. -/
def posSum (m : List (Nat × Int)) : Nat :=
  (m.map (fun p => p.2.toNat)).sum

/-- The `neighbors.forEach` body of the main loop: decrement each
neighbour's in-degree in turn and collect, in order, the neighbours whose
in-degree reaches exactly zero (those are pushed onto the queue).  The
`.getD 0` can differ from the source's unguarded `indegree.get(v)` only
when `v` has no in-degree entry, which never happens on a reachable state:
every adjacency target was given an entry by the `forEach` over
connections. -/
def processNeighbors (ind : List (Nat × Int)) (vs : List Nat) :
    List (Nat × Int) × List Nat :=
  match vs with
  | [] => (ind, [])
  | v :: rest =>
    let d := ((mapGet ind v).getD 0) - 1
    let pr := processNeighbors (mapSet ind v d) rest
    (pr.1, (if d = 0 then [v] else []) ++ pr.2)

/-- The `while (idx < queue.length)` loop of `computeExecutionOrder`, with
the unprocessed suffix of the queue (`pending`) as explicit state.  The
fuel argument bounds the number of iterations; `kahnLoopF_isSome` proves
the chosen fuel suffices, so the `none` escape is never taken. -/
def kahnLoopF (adj : List (Nat × List Nat)) :
    Nat → List (Nat × Int) → List Nat → List Nat → Option (List Nat)
  | 0, _, pending, order => if pending.isEmpty then some order else none
  | fuel + 1, ind, pending, order =>
    match pending with
    | [] => some order
    | u :: rest =>
      let ns := (mapGet adj u).getD []
      let pr := processNeighbors ind ns
      kahnLoopF adj fuel pr.1 (rest ++ pr.2) (order ++ [u])

/-- `computeExecutionOrder` (workflow-canvas.js:1814-1849), Kahn's
algorithm: build the per-node in-degree and adjacency maps, seed the queue
with the zero in-degree entries in map order, and run the queue to
exhaustion.  Each iteration consumes one queue entry and every new queue
entry consumes one unit of positive in-degree, so
`posSum ind + queue.length` iterations always suffice. -/
def computeExecutionOrder (w : WorkflowData) : List Nat :=
  let indegree0 := buildMap (w.nodes.map (fun id => (id, (0 : Int))))
  let adj0 := buildMap (w.nodes.map (fun id => (id, ([] : List Nat))))
  let built := w.connections.foldl addConnDeg (indegree0, adj0)
  let queue := built.1.filterMap (fun p => if p.2 = 0 then some p.1 else none)
  (kahnLoopF built.2 (posSum built.1 + queue.length) built.1 queue []).getD []

/-- The recursion of `hasCycle` (workflow-execution.js:341-362) as an
explicit stack machine, one source-level step per fuel unit.  A frame holds
the node under exploration and its not-yet-followed outgoing connections;
the recursion stack is exactly the frames' node ids, `visited` persists.
An exhausted frame pops (`recursionStack.delete(nodeId); return false`);
following a connection whose target is on the recursion stack returns
`true` through every frame; an already visited target is skipped; an
unvisited target is marked visited and pushed with its own outgoing
connections (`connections.filter(c => c.source.nodeId === nodeId)`).
`dfsRun_isSome` proves the fuel passed in is sufficient, so the `none`
escape is never taken. -/
def dfsRun (E : List (Nat × Nat)) :
    Nat → List (Nat × List (Nat × Nat)) → List Nat → Option (Bool × List Nat)
  | 0, _, _ => none
  | _ + 1, [], visited => some (false, visited)
  | fuel + 1, (u, cs) :: stack, visited =>
    match cs with
    | [] => dfsRun E fuel stack visited
    | c :: cs2 =>
      if c.2 ∈ ((u, cs) :: stack).map Prod.fst then some (true, visited)
      else if c.2 ∈ visited then dfsRun E fuel ((u, cs2) :: stack) visited
      else
        dfsRun E fuel
          ((c.2, E.filter (fun e => decide (e.1 = c.2))) :: (u, cs2) :: stack)
          (c.2 :: visited)

/-- The `for (const node of workflowData.nodes)` driver of
`hasCircularDependencies`: each node id runs through `hasCycle` against the
shared `visited` set (an id already visited returns `false` at once, since
the recursion stack is empty between top-level calls). -/
def hcdLoop (E : List (Nat × Nat)) (fuel : Nat) :
    List Nat → List Nat → Option Bool
  | _, [] => some false
  | visited, n :: ns =>
    if n ∈ visited then hcdLoop E fuel visited ns
    else
      match dfsRun E fuel [(n, E.filter (fun e => decide (e.1 = n)))]
          (n :: visited) with
      | none => none
      | some (true, _) => some true
      | some (false, vis2) => hcdLoop E fuel vis2 ns

/-- `hasCircularDependencies` (workflow-execution.js:337-371).  The fuel
covers any possible run: every push takes a fresh id from the finite
universe `nodes ++ connection targets`, and between pushes a frame takes at
most one step per outgoing connection plus one to pop. -/
def hasCircularDependencies (w : WorkflowData) : Bool :=
  let uni := w.nodes ++ w.connections.map Prod.snd
  let fuel :=
    uni.length * (w.connections.length + 1) + w.connections.length + 2
  (hcdLoop w.connections fuel [] w.nodes).getD false

/-- An input port descriptor of a node definition; the `optional` and
`required` fields may be absent (`none`). -/
structure InputDefV where
  name : String
  optional : Option Bool
  required : Option Bool

/-- `inputDef.optional === true || inputDef.required === false`. -/
def isOptionalInput (i : InputDefV) : Bool :=
  decide (i.optional = some true) || decide (i.required = some false)

/-- The slice of a node definition `validateWorkflow` reads: the property
requirements (`(name, truthiness of propDef.required)` in entry order) and
the declared inputs. -/
structure NodeDefinitionV where
  properties : List (String × Bool)
  inputs : List InputDefV

/-- The slice of a live canvas node `validateWorkflow` reads: its
definition (possibly absent) and its current property values.  A key absent
from `properties` models `undefined`, a stored `none` models `null`, and
the empty string is an ordinary stored value; all three fail the
required-property check identically. -/
structure CanvasNodeV where
  definition : Option NodeDefinitionV
  properties : List (String × Option String)

/-- A node record of the exported `workflowData`: its id and the input
names present in `input_bindings` (a binding record is always a truthy
object, so only the presence of the key matters to the validator). -/
structure ExportedNode where
  id : Nat
  input_bindings : List String

/-- Everything `validateWorkflow` reads: the exported nodes and
connections, and the live canvas node map (`this.canvas.nodes`). -/
structure ValidationInput where
  wnodes : List ExportedNode
  wconns : List (Nat × Nat)
  canvasNodes : List (Nat × CanvasNodeV)

/-- The distinct error messages `validateWorkflow` can push, one
constructor per template: `Workflow must contain at least one node`;
`Node <id>: Required property <p> is missing`;
`Node <id>: Input <i> is not connected`;
`Workflow contains circular dependencies`. -/
inductive WError where
  | emptyWorkflow : WError
  | missingProperty : Nat → String → WError
  | inputNotConnected : Nat → String → WError
  | circularDependencies : WError
  deriving DecidableEq

/-- `node.properties[propName] === undefined || === null || === ''`. -/
def propValueMissing (props : List (String × Option String)) (name : String) :
    Bool :=
  match mapGet props name with
  | none => true
  | some none => true
  | some (some s) => decide (s = "")

/-- The two per-node error passes of `validateWorkflow`
(workflow-execution.js:274-299): required properties first, then input
bindings, each in declaration order; an id absent from the canvas map
contributes nothing, and an absent definition skips both passes (the
source guards with `node.definition && ...`). -/
def nodeErrors (canvasNodes : List (Nat × CanvasNodeV)) (nd : ExportedNode) :
    List WError :=
  match mapGet canvasNodes nd.id with
  | none => []
  | some cn =>
    (match cn.definition with
     | none => []
     | some d =>
       d.properties.filterMap (fun pd =>
         if pd.2 && propValueMissing cn.properties pd.1 then
           some (WError.missingProperty nd.id pd.1)
         else none)) ++
    (match cn.definition with
     | none => []
     | some d =>
       d.inputs.filterMap (fun idf =>
         if !isOptionalInput idf && !(nd.input_bindings.contains idf.name)
         then some (WError.inputNotConnected nd.id idf.name)
         else none))

/-- `validateWorkflow` (workflow-execution.js:246-332) restricted to its
`errors` and `valid` outputs.  The `warnings` array (disconnected nodes,
connection type mismatches) is computed independently in the source and
never feeds `errors` or `valid`, so it is not modelled.  The error order
matches the source: the empty-workflow check, the per-node checks in node
order, then the circular-dependency check; `valid` is
`errors.length === 0`. -/
def validateWorkflow (inp : ValidationInput) : Bool × List WError :=
  let errs :=
    (if inp.wnodes.isEmpty then [WError.emptyWorkflow] else []) ++
    inp.wnodes.flatMap (nodeErrors inp.canvasNodes) ++
    (if hasCircularDependencies
        ⟨inp.wnodes.map ExportedNode.id, inp.wconns⟩ then
      [WError.circularDependencies]
    else [])
  (errs.isEmpty, errs)

/-- The three ways the guard section of `executeWorkflow`
(workflow-execution.js:23-43) can resolve: refuse because a run is active,
return the failure record (`message: 'Workflow validation failed'` with the
validation errors attached) without executing, or proceed to execute. -/
inductive ExecOutcome where
  | alreadyRunning : ExecOutcome
  | validationFailed : List WError → ExecOutcome
  | started : ExecOutcome
  deriving DecidableEq

/-- The guard section of `executeWorkflow`: when not already running it
validates the exported workflow and rejects (without executing) exactly
when `validation.valid` is false. -/
def executeWorkflowGate (running : Bool) (inp : ValidationInput) :
    ExecOutcome :=
  if running then ExecOutcome.alreadyRunning
  else
    let v := validateWorkflow inp
    if v.1 then ExecOutcome.started else ExecOutcome.validationFailed v.2

/-- The edge relation of a connection list. -/
def edgeRel (E : List (Nat × Nat)) (a b : Nat) : Prop := (a, b) ∈ E

/-- Number of connections into `v` whose source is not in `done`. -/
def inCnt (E : List (Nat × Nat)) (done : List Nat) (v : Nat) : Nat :=
  (E.filter (fun c => decide (c.2 = v ∧ c.1 ∉ done))).length

/-- Index of the first occurrence of `x` in `l` (`l.length` when absent). -/
def posIn (l : List Nat) (x : Nat) : Nat :=
  match l with
  | [] => 0
  | a :: rest => if a = x then 0 else posIn rest x + 1

/-- Loop invariant of `computeExecutionOrder`'s queue: the in-degree map
holds, for every snapshot node, the number of connections into it whose
source has not yet been appended to `order`; a node has been seen (output
or queued) exactly when that count is zero; the seen nodes are distinct
snapshot nodes; and sources precede targets within `order`. -/
structure KahnInv (N : List Nat) (E : List (Nat × Nat))
    (ind : List (Nat × Int)) (pending order : List Nat) : Prop where
  count : ∀ v, mapGet ind v
    = if v ∈ N then some ((inCnt E order v : Nat) : Int) else none
  seenNodup : (order ++ pending).Nodup
  seenSub : ∀ x ∈ order ++ pending, x ∈ N
  seenIff : ∀ v ∈ N, (v ∈ order ++ pending ↔ inCnt E order v = 0)
  prec : ∀ e ∈ E, e.2 ∈ order →
    e.1 ∈ order ∧ posIn order e.1 < posIn order e.2

/-- Per-frame bookkeeping of the `hasCycle` machine: every outgoing
connection of each frame's node is accounted for — those already followed
(`pre`) lead to visited targets that are either off the recursion stack or
belong to a frame strictly above this one. -/
def framesOk (E : List (Nat × Nat)) (visited rstack : List Nat) :
    List Nat → List (Nat × List (Nat × Nat)) → Prop
  | _, [] => True
  | above, (u, cs) :: rest =>
    (∃ pre, E.filter (fun e => decide (e.1 = u)) = pre ++ cs ∧
      ∀ c ∈ pre, c.2 ∈ visited ∧ (c.2 ∉ rstack ∨ c.2 ∈ above)) ∧
    framesOk E visited rstack (above ++ [u]) rest

/-- Invariant of the `hasCycle` machine: the frames are consistent
(`framesOk`), the recursion stack is an edge path of the snapshot, stack
nodes are visited and distinct, and the fully explored (black) nodes are
closed under outgoing connections and lie on no cycle. -/
structure DfsInv (E : List (Nat × Nat))
    (stack : List (Nat × List (Nat × Nat))) (visited : List Nat) : Prop where
  frames : framesOk E visited (stack.map Prod.fst) [] stack
  chain : List.Pairwise
    (fun a b => Relation.ReflTransGen (edgeRel E) b.1 a.1) stack
  grayVis : ∀ x ∈ stack.map Prod.fst, x ∈ visited
  grayNodup : (stack.map Prod.fst).Nodup
  closedBlack : ∀ u ∈ visited, u ∉ stack.map Prod.fst →
    ∀ e ∈ E, e.1 = u → e.2 ∈ visited ∧ e.2 ∉ stack.map Prod.fst
  noBlackCycle : ∀ b ∈ visited, b ∉ stack.map Prod.fst →
    ¬ Relation.TransGen (edgeRel E) b b

/-- Number of universe ids not yet visited; part of the step measure of
the `hasCycle` machine. -/
def unvis (uni visited : List Nat) : Nat :=
  (uni.dedup.filter (fun x => decide (x ∉ visited))).length

/-- Remaining per-frame steps (one per pending connection, one to pop). -/
def framesWeight (stack : List (Nat × List (Nat × Nat))) : Nat :=
  (stack.map (fun f => f.2.length + 1)).sum

/-- The 4-node diamond of the spec: `A→B`, `A→C`, `B→D`, `C→D` with
`A,B,C,D = 1,2,3,4`. -/
def diamondW : WorkflowData :=
  { nodes := [1, 2, 3, 4]
    connections := [(1, 2), (1, 3), (2, 4), (3, 4)] }

/-- The 3-cycle of the spec: `A→B→C→A` with `A,B,C = 1,2,3`. -/
def triangleW : WorkflowData :=
  { nodes := [1, 2, 3]
    connections := [(1, 2), (2, 3), (3, 1)] }

/-- An export of the triangle with no canvas-side property or input
requirements, used to run the validation gate. -/
def triangleInput : ValidationInput :=
  { wnodes := [⟨1, []⟩, ⟨2, []⟩, ⟨3, []⟩]
    wconns := [(1, 2), (2, 3), (3, 1)]
    canvasNodes := [] }

/-- A 2-node chain used to evaluate the agreement of the two cycle checks
on an acyclic snapshot. -/
def chainW : WorkflowData :=
  { nodes := [1, 2]
    connections := [(1, 2)] }

end NodeEditor

namespace NodeEditor

/-! ### Theorems for the coordinate system -/

/-- C7: `clampToWorld` keeps the occupied rectangle inside the world: the
result is componentwise nonnegative; when the node fits (`width ≤ worldSize`)
the x-coordinate is at most `worldSize − width` (same for y); when the node is
at least as large as the world the coordinate collapses to `0`; inputs already
satisfying the bounds are returned unchanged; and the two concrete examples
from the specification evaluate as stated. -/
theorem clampToWorld_spec (x y w h : Rat) :
    (0 ≤ (clampToWorld x y w h).1 ∧ 0 ≤ (clampToWorld x y w h).2)
    ∧ (w ≤ worldSize → (clampToWorld x y w h).1 ≤ worldSize - w)
    ∧ (h ≤ worldSize → (clampToWorld x y w h).2 ≤ worldSize - h)
    ∧ (worldSize ≤ w → (clampToWorld x y w h).1 = 0)
    ∧ (worldSize ≤ h → (clampToWorld x y w h).2 = 0)
    ∧ (0 ≤ x → x ≤ worldSize - w → 0 ≤ y → y ≤ worldSize - h →
        clampToWorld x y w h = (x, y))
    ∧ clampToWorld (-50) (-50) 160 80 = (0, 0)
    ∧ clampToWorld 99990 50 160 80 = (99840, 50) := by
  have hfix : useFixedWorld ≠ false := by decide
  refine ⟨⟨?_, ?_⟩, ?_, ?_, ?_, ?_, ?_, ?_, ?_⟩
  · simp [clampToWorld, hfix]
  · simp [clampToWorld, hfix]
  · intro hw
    have h1 : max (0 : Rat) (worldSize - w) = worldSize - w :=
      max_eq_right (by linarith)
    simp only [clampToWorld, hfix, if_neg (by decide : ¬useFixedWorld = false)]
    simp only [h1]
    exact max_le (by linarith) (min_le_right _ _)
  · intro hh
    have h1 : max (0 : Rat) (worldSize - h) = worldSize - h :=
      max_eq_right (by linarith)
    simp only [clampToWorld, hfix, if_neg (by decide : ¬useFixedWorld = false)]
    simp only [h1]
    exact max_le (by linarith) (min_le_right _ _)
  · intro hw
    have h1 : max (0 : Rat) (worldSize - w) = 0 := max_eq_left (by linarith)
    simp only [clampToWorld, if_neg (by decide : ¬useFixedWorld = false)]
    simp only [h1]
    have h2 : min x (0 : Rat) ≤ 0 := min_le_right _ _
    exact max_eq_left h2
  · intro hh
    have h1 : max (0 : Rat) (worldSize - h) = 0 := max_eq_left (by linarith)
    simp only [clampToWorld, if_neg (by decide : ¬useFixedWorld = false)]
    simp only [h1]
    have h2 : min y (0 : Rat) ≤ 0 := min_le_right _ _
    exact max_eq_left h2
  · intro hx1 hx2 hy1 hy2
    have hwx : max (0 : Rat) (worldSize - w) = worldSize - w :=
      max_eq_right (by linarith)
    have hwy : max (0 : Rat) (worldSize - h) = worldSize - h :=
      max_eq_right (by linarith)
    simp only [clampToWorld, if_neg (by decide : ¬useFixedWorld = false)]
    simp only [hwx, hwy, min_eq_left hx2, min_eq_left hy2,
      max_eq_right hx1, max_eq_right hy1]
  · norm_num [clampToWorld, worldSize, useFixedWorld]
  · norm_num [clampToWorld, worldSize, useFixedWorld]

/-- C8: zoom is anchor-stable.  Whenever the clamped new scale differs from
the current scale (so `handleWheel` actually rescales), the world point under
the viewport-centre anchor (computed through `viewportToCanvas`) is the same
before and after the wheel event, and the resulting scale is the clamped one. -/
theorem handleWheel_anchor_stable (t : CanvasTransform) (rect : ClientRect)
    (deltaY : Rat) (hscale : t.scale ≠ 0)
    (hchange :
      max (1/10) (min 3 (t.scale + (if 0 < deltaY then -(1/10) else (1/10))))
        ≠ t.scale) :
    viewportToCanvas (handleWheel t rect deltaY) rect
        (rect.left + rect.width / 2) (rect.top + rect.height / 2)
      = viewportToCanvas t rect
          (rect.left + rect.width / 2) (rect.top + rect.height / 2)
    ∧ (handleWheel t rect deltaY).scale
      = max (1/10) (min 3
          (t.scale + (if 0 < deltaY then -(1/10) else (1/10)))) := by
  have hS : (0 : Rat) < max (1/10)
      (min 3 (t.scale + (if 0 < deltaY then -(1/10) else (1/10)))) :=
    lt_of_lt_of_le (by norm_num) (le_max_left _ _)
  have hSne : max (1/10)
      (min 3 (t.scale + (if 0 < deltaY then -(1/10) else (1/10)))) ≠ 0 :=
    ne_of_gt hS
  constructor
  · simp only [handleWheel, viewportToCanvas, if_neg hchange, Prod.mk.injEq]
    constructor
    · field_simp
      ring
    · field_simp
      ring
  · simp only [handleWheel, if_neg hchange]

/-! ### Association-list lemmas -/

theorem mapGet_mapSet_self {α β : Type} [DecidableEq α]
    (m : List (α × β)) (k : α) (v : β) : mapGet (mapSet m k v) k = some v := by
  induction m with
  | nil => simp [mapSet, mapGet]
  | cons p rest ih =>
    by_cases h : p.1 = k
    · simp [mapSet, mapGet, h]
    · simp [mapSet, mapGet, h, ih]

theorem mapGet_mapSet_ne {α β : Type} [DecidableEq α]
    (m : List (α × β)) (k k2 : α) (v : β) (h : k ≠ k2) :
    mapGet (mapSet m k v) k2 = mapGet m k2 := by
  induction m with
  | nil => simp [mapSet, mapGet, h]
  | cons p rest ih =>
    by_cases hp : p.1 = k
    · simp [mapSet, mapGet, hp, h]
    · have h2 : ¬ k2 = k := fun hh => h hh.symm
      by_cases hp2 : p.1 = k2
      · simp [mapSet, mapGet, hp, hp2, h2]
      · simp [mapSet, mapGet, hp, hp2, ih]

theorem mapGet_eq_some_mem {α β : Type} [DecidableEq α]
    {m : List (α × β)} {k : α} {v : β} (h : mapGet m k = some v) :
    (k, v) ∈ m := by
  induction m with
  | nil => simp [mapGet] at h
  | cons p rest ih =>
    by_cases hp : p.1 = k
    · simp only [mapGet, if_pos hp] at h
      injection h with h
      subst h
      exact List.mem_cons.mpr (Or.inl (by rw [← hp]))
    · simp only [mapGet, if_neg hp] at h
      exact List.mem_cons_of_mem _ (ih h)

theorem mem_mapDelete {α β : Type} [DecidableEq α]
    {m : List (α × β)} {k : α} {p : α × β} (h : p ∈ mapDelete m k) :
    p ∈ m := by
  induction m with
  | nil => simp [mapDelete] at h
  | cons q rest ih =>
    by_cases hq : q.1 = k
    · simp only [mapDelete, if_pos hq] at h
      exact List.mem_cons_of_mem _ h
    · simp only [mapDelete, if_neg hq] at h
      rcases List.mem_cons.mp h with h1 | h1
      · exact h1 ▸ List.mem_cons_self _ _
      · exact List.mem_cons_of_mem _ (ih h1)

theorem mem_mapSet {α β : Type} [DecidableEq α]
    {m : List (α × β)} {k : α} {v : β} {p : α × β} (h : p ∈ mapSet m k v) :
    p = (k, v) ∨ p ∈ m := by
  induction m with
  | nil => simpa [mapSet] using h
  | cons q rest ih =>
    by_cases hq : q.1 = k
    · simp only [mapSet, if_pos hq] at h
      rcases List.mem_cons.mp h with h1 | h1
      · exact Or.inl h1
      · exact Or.inr (List.mem_cons_of_mem _ h1)
    · simp only [mapSet, if_neg hq] at h
      rcases List.mem_cons.mp h with h1 | h1
      · exact Or.inr (h1 ▸ List.mem_cons_self _ _)
      · rcases ih h1 with h2 | h2
        · exact Or.inl h2
        · exact Or.inr (List.mem_cons_of_mem _ h2)

theorem mapGet_eq_none {α β : Type} [DecidableEq α]
    {m : List (α × β)} {k : α} (h : mapGet m k = none) :
    ∀ p ∈ m, p.1 ≠ k := by
  induction m with
  | nil => intro p hp; simp at hp
  | cons q rest ih =>
    by_cases hq : q.1 = k
    · simp [mapGet, hq] at h
    · simp only [mapGet, if_neg hq] at h
      intro p hp
      rcases List.mem_cons.mp hp with h1 | h1
      · exact h1 ▸ hq
      · exact ih h p h1

theorem mapDelete_sublist {α β : Type} [DecidableEq α]
    (m : List (α × β)) (k : α) : List.Sublist (mapDelete m k) m := by
  induction m with
  | nil => simp [mapDelete]
  | cons q rest ih =>
    by_cases hq : q.1 = k
    · simp only [mapDelete, if_pos hq]
      exact List.sublist_cons_self q rest
    · simp only [mapDelete, if_neg hq]
      exact List.Sublist.cons₂ q ih

theorem mapSet_keys_of_get_some {α β : Type} [DecidableEq α]
    {m : List (α × β)} {k : α} {w : β} (h : mapGet m k = some w) (v : β) :
    (mapSet m k v).map Prod.fst = m.map Prod.fst := by
  induction m with
  | nil => simp [mapGet] at h
  | cons q rest ih =>
    by_cases hq : q.1 = k
    · simp [mapSet, hq]
    · simp only [mapGet, if_neg hq] at h
      simp [mapSet, hq, ih h]

theorem mapGet_mapDelete_ne {α β : Type} [DecidableEq α]
    (m : List (α × β)) (k k2 : α) (h : k ≠ k2) :
    mapGet (mapDelete m k) k2 = mapGet m k2 := by
  induction m with
  | nil => simp [mapDelete]
  | cons q rest ih =>
    have h2 : ¬ k2 = k := fun hh => h hh.symm
    by_cases hq : q.1 = k
    · have hq2 : ¬ q.1 = k2 := by rw [hq]; exact h
      simp [mapDelete, mapGet, hq, hq2, h]
    · by_cases hq2 : q.1 = k2
      · simp [mapDelete, mapGet, hq, hq2, h2]
      · simp [mapDelete, mapGet, hq, hq2, ih]

theorem mapGet_eq_none_of_not_mem {α β : Type} [DecidableEq α]
    {m : List (α × β)} {k : α} (h : k ∉ m.map Prod.fst) :
    mapGet m k = none := by
  induction m with
  | nil => rfl
  | cons q rest ih =>
    simp only [List.map_cons, List.mem_cons] at h
    push_neg at h
    have hne : ¬ q.1 = k := fun hh => h.1 hh.symm
    simp only [mapGet, if_neg hne]
    exact ih h.2

theorem mapGet_mapDelete_self {α β : Type} [DecidableEq α]
    {m : List (α × β)} {k : α} (hnd : (m.map Prod.fst).Nodup) :
    mapGet (mapDelete m k) k = none := by
  induction m with
  | nil => rfl
  | cons q rest ih =>
    simp only [List.map_cons, List.nodup_cons] at hnd
    by_cases hq : q.1 = k
    · simp only [mapDelete, if_pos hq]
      exact mapGet_eq_none_of_not_mem (hq ▸ hnd.1)
    · simp only [mapDelete, if_neg hq, mapGet, if_neg hq]
      exact ih hnd.2

theorem mem_mapDelete_of_keyne {α β : Type} [DecidableEq α]
    {m : List (α × β)} {k : α} {q : α × β} (hq : q ∈ m) (hne : q.1 ≠ k) :
    q ∈ mapDelete m k := by
  induction m with
  | nil => simp at hq
  | cons p rest ih =>
    rcases List.mem_cons.mp hq with h1 | h1
    · subst h1
      simp only [mapDelete, if_neg hne]
      exact List.mem_cons_self _ _
    · by_cases hp : p.1 = k
      · simp only [mapDelete, if_pos hp]
        exact h1
      · simp only [mapDelete, if_neg hp]
        exact List.mem_cons_of_mem _ (ih h1)

theorem keyne_of_mem_mapDelete {α β : Type} [DecidableEq α]
    {m : List (α × β)} {k : α} {q : α × β}
    (hnd : (m.map Prod.fst).Nodup) (hq : q ∈ mapDelete m k) : q.1 ≠ k := by
  induction m with
  | nil => simp [mapDelete] at hq
  | cons p rest ih =>
    simp only [List.map_cons, List.nodup_cons] at hnd
    by_cases hp : p.1 = k
    · simp only [mapDelete, if_pos hp] at hq
      intro hk
      apply hnd.1
      rw [hp, ← hk]
      exact List.mem_map_of_mem Prod.fst hq
    · simp only [mapDelete, if_neg hp] at hq
      rcases List.mem_cons.mp hq with h1 | h1
      · subst h1
        exact hp
      · exact ih hnd.2 h1

theorem mem_mapGet_of_nodup {α β : Type} [DecidableEq α]
    {m : List (α × β)} {q : α × β}
    (hnd : (m.map Prod.fst).Nodup) (hq : q ∈ m) :
    mapGet m q.1 = some q.2 := by
  induction m with
  | nil => simp at hq
  | cons p rest ih =>
    simp only [List.map_cons, List.nodup_cons] at hnd
    rcases List.mem_cons.mp hq with h1 | h1
    · subst h1
      simp [mapGet]
    · have hne : ¬ p.1 = q.1 := by
        intro hh
        exact hnd.1 (hh ▸ List.mem_map_of_mem Prod.fst h1)
      simp only [mapGet, if_neg hne]
      exact ih hnd.2 h1

theorem nodup_key_unique {α β : Type} [DecidableEq α]
    {m : List (α × β)} {k : α} {a b : β}
    (hnd : (m.map Prod.fst).Nodup) (ha : (k, a) ∈ m) (hb : (k, b) ∈ m) :
    a = b := by
  have h1 := mem_mapGet_of_nodup hnd ha
  have h2 := mem_mapGet_of_nodup hnd hb
  rw [h1] at h2
  exact Option.some.inj h2

theorem mem_mapSet_nodup {α β : Type} [DecidableEq α]
    {m : List (α × β)} {k : α} {v : β} {p : α × β}
    (hnd : (m.map Prod.fst).Nodup) (hp : p ∈ mapSet m k v) :
    p = (k, v) ∨ (p ∈ m ∧ p.1 ≠ k) := by
  induction m with
  | nil => simpa [mapSet] using hp
  | cons q rest ih =>
    simp only [List.map_cons, List.nodup_cons] at hnd
    by_cases hq : q.1 = k
    · simp only [mapSet, if_pos hq] at hp
      rcases List.mem_cons.mp hp with h1 | h1
      · exact Or.inl h1
      · refine Or.inr ⟨List.mem_cons_of_mem _ h1, ?_⟩
        intro hk
        apply hnd.1
        rw [hq, ← hk]
        exact List.mem_map_of_mem Prod.fst h1
    · simp only [mapSet, if_neg hq] at hp
      rcases List.mem_cons.mp hp with h1 | h1
      · exact Or.inr ⟨h1 ▸ List.mem_cons_self _ _, h1 ▸ hq⟩
      · rcases ih hnd.2 h1 with h2 | h2
        · exact Or.inl h2
        · exact Or.inr ⟨List.mem_cons_of_mem _ h2.1, h2.2⟩

/-! ### Theorems for the graph store -/

theorem unregister_connections (s : CanvasState) (c : ConnRef) :
    (unregisterConnectionFromIndex s c).connections = s.connections := rfl

theorem unregister_nodes (s : CanvasState) (c : ConnRef) :
    (unregisterConnectionFromIndex s c).nodes = s.nodes := rfl

/-- The incoming side of `_unregisterConnectionFromIndex`: either the index
is unchanged (and no entry was found at the connection's target with its id),
or the entry at the target was removed (dropping the node key when its inner
map became empty). -/
theorem unregister_incoming_cases (s : CanvasState) (c : ConnRef) :
    ((unregisterConnectionFromIndex s c).incoming = s.incoming
      ∧ (mapGet s.incoming c.target.nodeId = none
        ∨ (∃ inner, mapGet s.incoming c.target.nodeId = some inner
            ∧ mapGet inner c.target.name = none)
        ∨ (∃ inner stored, mapGet s.incoming c.target.nodeId = some inner
            ∧ mapGet inner c.target.name = some stored ∧ stored.id ≠ c.id)))
    ∨ (∃ inner stored,
        mapGet s.incoming c.target.nodeId = some inner
        ∧ mapGet inner c.target.name = some stored
        ∧ stored.id = c.id
        ∧ ((unregisterConnectionFromIndex s c).incoming
             = mapDelete s.incoming c.target.nodeId
           ∨ (unregisterConnectionFromIndex s c).incoming
             = mapSet s.incoming c.target.nodeId
                 (mapDelete inner c.target.name))) := by
  unfold unregisterConnectionFromIndex
  cases h1 : mapGet s.incoming c.target.nodeId with
  | none => exact Or.inl ⟨rfl, Or.inl rfl⟩
  | some inner =>
    cases h2 : mapGet inner c.target.name with
    | none =>
      refine Or.inl ⟨?_, Or.inr (Or.inl ⟨inner, rfl, h2⟩)⟩
      simp [h2]
    | some stored =>
      by_cases h3 : stored.id = c.id
      · by_cases h4 : (mapDelete inner c.target.name).isEmpty
        · refine Or.inr ⟨inner, stored, rfl, h2, h3, Or.inl ?_⟩
          simp [h2, h3, h4]
        · refine Or.inr ⟨inner, stored, rfl, h2, h3, Or.inr ?_⟩
          simp [h2, h3, h4]
      · refine Or.inl ⟨?_, Or.inr (Or.inr ⟨inner, stored, rfl, h2, h3⟩)⟩
        simp [h2, h3]

/-- The outgoing side of `_unregisterConnectionFromIndex`: either the index
is unchanged (no set at the connection's source), or the id is erased from
the set at the source, with empty inner maps / node keys dropped. -/
theorem unregister_outgoing_cases (s : CanvasState) (c : ConnRef) :
    ((unregisterConnectionFromIndex s c).outgoing = s.outgoing
      ∧ (mapGet s.outgoing c.source.nodeId = none
        ∨ (∃ om, mapGet s.outgoing c.source.nodeId = some om
            ∧ mapGet om c.source.name = none)))
    ∨ (∃ om ids inner,
        mapGet s.outgoing c.source.nodeId = some om
        ∧ mapGet om c.source.name = some ids
        ∧ (inner = mapDelete om c.source.name
           ∨ inner = mapSet om c.source.name (ids.erase c.id))
        ∧ ((unregisterConnectionFromIndex s c).outgoing
             = mapDelete s.outgoing c.source.nodeId
           ∨ (unregisterConnectionFromIndex s c).outgoing
             = mapSet s.outgoing c.source.nodeId inner)) := by
  unfold unregisterConnectionFromIndex
  cases h1 : mapGet s.outgoing c.source.nodeId with
  | none => exact Or.inl ⟨rfl, Or.inl rfl⟩
  | some om =>
    cases h2 : mapGet om c.source.name with
    | none =>
      refine Or.inl ⟨?_, Or.inr ⟨om, rfl, h2⟩⟩
      simp [h2]
    | some ids =>
      by_cases h3 : (ids.erase c.id).isEmpty
      · by_cases h4 : (mapDelete om c.source.name).isEmpty
        · refine Or.inr ⟨om, ids, mapDelete om c.source.name, rfl, h2,
            Or.inl rfl, Or.inl ?_⟩
          simp [h2, h3, h4]
        · refine Or.inr ⟨om, ids, mapDelete om c.source.name, rfl, h2,
            Or.inl rfl, Or.inr ?_⟩
          simp [h2, h3, h4]
      · by_cases h4 : (mapSet om c.source.name (ids.erase c.id)).isEmpty
        · refine Or.inr ⟨om, ids, mapSet om c.source.name (ids.erase c.id),
            rfl, h2, Or.inr rfl, Or.inl ?_⟩
          simp [h2, h3, h4]
        · refine Or.inr ⟨om, ids, mapSet om c.source.name (ids.erase c.id),
            rfl, h2, Or.inr rfl, Or.inr ?_⟩
          simp [h2, h3, h4]

/-- In a sound state, an incoming-index entry referencing a connection id
sits exactly at that connection's target node and port. -/
theorem incoming_ref_loc (s : CanvasState) (h : IndexSound s)
    (connection : Connection) (cid : Nat)
    (hget : mapGet s.connections cid = some connection) :
    ∀ p ∈ s.incoming, ∀ q ∈ p.2, q.2.id = cid →
      p.1 = connection.target.nodeId ∧ q.1 = connection.target.name := by
  intro p hp q hq hqid
  obtain ⟨ht1, ht2, r, hr, hr1, hr2, hr3, hr4⟩ := h.incomingSound p hp q hq
  have hrc : (cid, connection) ∈ s.connections := mapGet_eq_some_mem hget
  have hrkey : r.1 = cid := by rw [hr1, hqid]
  have hr' : (cid, r.2) ∈ s.connections := by
    rw [← hrkey]
    simpa using hr
  have hconn : r.2 = connection := nodup_key_unique h.connsNodup hr' hrc
  constructor
  · rw [← ht1, ← hr4, hconn]
  · rw [← ht2, ← hr4, hconn]

/-- In a sound state, an outgoing-index set containing a connection id sits
exactly at that connection's source node and port. -/
theorem outgoing_ref_loc (s : CanvasState) (h : IndexSound s)
    (connection : Connection) (cid : Nat)
    (hget : mapGet s.connections cid = some connection) :
    ∀ p ∈ s.outgoing, ∀ q ∈ p.2, cid ∈ q.2 →
      p.1 = connection.source.nodeId ∧ q.1 = connection.source.name := by
  intro p hp q hq hcid
  obtain ⟨r, hr, hr1, hr2, hr3, hr4⟩ := h.outgoingSound p hp q hq cid hcid
  have hrc : (cid, connection) ∈ s.connections := mapGet_eq_some_mem hget
  have hr' : (cid, r.2) ∈ s.connections := by
    rw [← hr1]
    simpa using hr
  have hconn : r.2 = connection := nodup_key_unique h.connsNodup hr' hrc
  constructor
  · rw [← hr3, hconn]
  · rw [← hr4, hconn]

/-- After unregistering a connection, no incoming-index entry references its
id any more. -/
theorem unregister_incoming_no_ref (s : CanvasState) (h : IndexSound s)
    (connection : Connection) (cid : Nat)
    (hget : mapGet s.connections cid = some connection)
    (hid : connection.id = cid) :
    ∀ p ∈ (unregisterConnectionFromIndex s
        ⟨connection.id, connection.source, connection.target⟩).incoming,
      ∀ q ∈ p.2, q.2.id ≠ cid := by
  intro p hp q hq hqid
  rcases unregister_incoming_cases s
      ⟨connection.id, connection.source, connection.target⟩ with
    ⟨heq, hreason⟩ | ⟨inner, stored, h1, h2, h3, hres⟩
  · rw [heq] at hp
    obtain ⟨hp1, hq1⟩ := incoming_ref_loc s h connection cid hget p hp q hq
      hqid
    rcases hreason with hr0 | ⟨inner, hi1, hi2⟩ | ⟨inner, stored, hi1, hi2, hi3⟩
    · exact mapGet_eq_none hr0 p hp hp1
    · have hpu : mapGet s.incoming p.1 = some p.2 :=
        mem_mapGet_of_nodup h.incomingOuterNodup hp
      rw [hp1] at hpu
      have hpin : p.2 = inner := Option.some.inj (hpu.symm.trans hi1)
      exact mapGet_eq_none hi2 q (hpin ▸ hq) hq1
    · have hpu : mapGet s.incoming p.1 = some p.2 :=
        mem_mapGet_of_nodup h.incomingOuterNodup hp
      rw [hp1] at hpu
      have hpin : p.2 = inner := Option.some.inj (hpu.symm.trans hi1)
      have hqu : mapGet p.2 q.1 = some q.2 :=
        mem_mapGet_of_nodup (h.incomingInnerNodup p hp) hq
      rw [hpin, hq1] at hqu
      have hqs : q.2 = stored := Option.some.inj (hqu.symm.trans hi2)
      apply hi3
      rw [← hqs, hqid, ← hid]
  · rcases hres with hres | hres
    · rw [hres] at hp
      have hne := keyne_of_mem_mapDelete h.incomingOuterNodup hp
      obtain ⟨hp1, _⟩ := incoming_ref_loc s h connection cid hget p
        (mem_mapDelete hp) q hq hqid
      exact hne hp1
    · rw [hres] at hp
      rcases mem_mapSet_nodup h.incomingOuterNodup hp with hnew | ⟨hold, hne⟩
      · have hqdel : q ∈ mapDelete inner connection.target.name := by
          rw [hnew] at hq
          exact hq
        have hinmem : (connection.target.nodeId, inner) ∈ s.incoming :=
          mapGet_eq_some_mem h1
        have hkeyne := keyne_of_mem_mapDelete
          (h.incomingInnerNodup _ hinmem) hqdel
        obtain ⟨_, hq1⟩ := incoming_ref_loc s h connection cid hget
          (connection.target.nodeId, inner) hinmem q (mem_mapDelete hqdel)
          hqid
        exact hkeyne hq1
      · obtain ⟨hp1, _⟩ := incoming_ref_loc s h connection cid hget p hold q
          hq hqid
        exact hne hp1

/-- After unregistering a connection, no outgoing-index set contains its id
any more. -/
theorem unregister_outgoing_no_ref (s : CanvasState) (h : IndexSound s)
    (connection : Connection) (cid : Nat)
    (hget : mapGet s.connections cid = some connection)
    (hid : connection.id = cid) :
    ∀ p ∈ (unregisterConnectionFromIndex s
        ⟨connection.id, connection.source, connection.target⟩).outgoing,
      ∀ q ∈ p.2, cid ∉ q.2 := by
  intro p hp q hq hcid
  rcases unregister_outgoing_cases s
      ⟨connection.id, connection.source, connection.target⟩ with
    ⟨heq, hreason⟩ | ⟨om, ids, inner, h1, h2, hinner, hres⟩
  · rw [heq] at hp
    obtain ⟨hp1, hq1⟩ := outgoing_ref_loc s h connection cid hget p hp q hq
      hcid
    rcases hreason with hr0 | ⟨om, ho1, ho2⟩
    · exact mapGet_eq_none hr0 p hp hp1
    · have hpu : mapGet s.outgoing p.1 = some p.2 :=
        mem_mapGet_of_nodup h.outgoingOuterNodup hp
      rw [hp1] at hpu
      have hpin : p.2 = om := Option.some.inj (hpu.symm.trans ho1)
      exact mapGet_eq_none ho2 q (hpin ▸ hq) hq1
  · have homem : (connection.source.nodeId, om) ∈ s.outgoing :=
      mapGet_eq_some_mem h1
    have hidsmem : (connection.source.name, ids) ∈ om :=
      mapGet_eq_some_mem h2
    rcases hres with hres | hres
    · rw [hres] at hp
      have hne := keyne_of_mem_mapDelete h.outgoingOuterNodup hp
      obtain ⟨hp1, _⟩ := outgoing_ref_loc s h connection cid hget p
        (mem_mapDelete hp) q hq hcid
      exact hne hp1
    · rw [hres] at hp
      rcases mem_mapSet_nodup h.outgoingOuterNodup hp with hnew | ⟨hold, hne⟩
      · have hqin : q ∈ inner := by
          rw [hnew] at hq
          exact hq
        rcases hinner with hin | hin
        · rw [hin] at hqin
          have hkeyne := keyne_of_mem_mapDelete
            (h.outgoingInnerNodup _ homem) hqin
          obtain ⟨_, hq1⟩ := outgoing_ref_loc s h connection cid hget
            (connection.source.nodeId, om) homem q (mem_mapDelete hqin) hcid
          exact hkeyne hq1
        · rw [hin] at hqin
          rcases mem_mapSet_nodup (h.outgoingInnerNodup _ homem) hqin with
            hqnew | ⟨hqold, hqne⟩
          · have hnodup : ids.Nodup :=
              h.outgoingSetsNodup _ homem _ hidsmem
            have : cid ∈ ids.erase connection.id := by
              rw [hqnew] at hcid
              exact hcid
            rw [hid] at this
            exact ((List.Nodup.mem_erase_iff hnodup).mp this).1 rfl
          · obtain ⟨_, hq1⟩ := outgoing_ref_loc s h connection cid hget
              (connection.source.nodeId, om) homem q hqold hcid
            exact hqne hq1
      · obtain ⟨hp1, _⟩ := outgoing_ref_loc s h connection cid hget p hold q
          hq hcid
        exact hne hp1

/-- Every post-unregister incoming entry shrinks an original entry. -/
theorem unregister_incoming_sub (s : CanvasState) (c : ConnRef)
    (h : IndexSound s) :
    ∀ p ∈ (unregisterConnectionFromIndex s c).incoming,
      ∃ p0 ∈ s.incoming, p.1 = p0.1 ∧ List.Sublist p.2 p0.2 := by
  intro p hp
  rcases unregister_incoming_cases s c with ⟨heq, _⟩ |
    ⟨inner, stored, h1, h2, h3, hres⟩
  · rw [heq] at hp
    exact ⟨p, hp, rfl, List.Sublist.refl _⟩
  · rcases hres with hres | hres
    · rw [hres] at hp
      exact ⟨p, mem_mapDelete hp, rfl, List.Sublist.refl _⟩
    · rw [hres] at hp
      rcases mem_mapSet_nodup h.incomingOuterNodup hp with hnew | ⟨hold, _⟩
      · refine ⟨(c.target.nodeId, inner), mapGet_eq_some_mem h1, ?_, ?_⟩
        · rw [hnew]
        · rw [hnew]
          exact mapDelete_sublist _ _
      · exact ⟨p, hold, rfl, List.Sublist.refl _⟩

/-- Every post-unregister outgoing entry shrinks an original entry: same
outer key, inner keys a sublist, and each id set a sublist of the original
set at the same port. -/
theorem unregister_outgoing_sub (s : CanvasState) (c : ConnRef)
    (h : IndexSound s) :
    ∀ p ∈ (unregisterConnectionFromIndex s c).outgoing,
      ∃ p0 ∈ s.outgoing, p.1 = p0.1
        ∧ List.Sublist (p.2.map Prod.fst) (p0.2.map Prod.fst)
        ∧ ∀ q ∈ p.2, ∃ q0 ∈ p0.2, q.1 = q0.1 ∧ List.Sublist q.2 q0.2 := by
  intro p hp
  rcases unregister_outgoing_cases s c with ⟨heq, _⟩ |
    ⟨om, ids, inner, h1, h2, hinner, hres⟩
  · rw [heq] at hp
    exact ⟨p, hp, rfl, List.Sublist.refl _,
      fun q hq => ⟨q, hq, rfl, List.Sublist.refl _⟩⟩
  · have homem : (c.source.nodeId, om) ∈ s.outgoing := mapGet_eq_some_mem h1
    have hinner_sub : List.Sublist (inner.map Prod.fst) (om.map Prod.fst)
        ∧ ∀ q ∈ inner, ∃ q0 ∈ om, q.1 = q0.1 ∧ List.Sublist q.2 q0.2 := by
      rcases hinner with hin | hin
      · subst hin
        exact ⟨List.Sublist.map _ (mapDelete_sublist _ _),
          fun q hq => ⟨q, mem_mapDelete hq, rfl, List.Sublist.refl _⟩⟩
      · subst hin
        constructor
        · rw [mapSet_keys_of_get_some h2]
        · intro q hq
          rcases mem_mapSet_nodup (h.outgoingInnerNodup _ homem) hq with
            hqnew | ⟨hqold, _⟩
          · refine ⟨(c.source.name, ids), mapGet_eq_some_mem h2, ?_, ?_⟩
            · rw [hqnew]
            · rw [hqnew]
              exact List.erase_sublist _ _
          · exact ⟨q, hqold, rfl, List.Sublist.refl _⟩
    rcases hres with hres | hres
    · rw [hres] at hp
      exact ⟨p, mem_mapDelete hp, rfl, List.Sublist.refl _,
        fun q hq => ⟨q, hq, rfl, List.Sublist.refl _⟩⟩
    · rw [hres] at hp
      rcases mem_mapSet_nodup h.outgoingOuterNodup hp with hnew | ⟨hold, _⟩
      · refine ⟨(c.source.nodeId, om), homem, by rw [hnew], ?_, ?_⟩
        · rw [hnew]
          exact hinner_sub.1
        · rw [hnew]
          exact hinner_sub.2
      · exact ⟨p, hold, rfl, List.Sublist.refl _,
          fun q hq => ⟨q, hq, rfl, List.Sublist.refl _⟩⟩

/-- The outer incoming keys never grow under unregistering. -/
theorem unregister_incoming_keys (s : CanvasState) (c : ConnRef) :
    List.Sublist ((unregisterConnectionFromIndex s c).incoming.map Prod.fst)
      (s.incoming.map Prod.fst) := by
  rcases unregister_incoming_cases s c with ⟨heq, _⟩ |
    ⟨inner, stored, h1, h2, h3, hres⟩
  · rw [heq]
  · rcases hres with hres | hres
    · rw [hres]
      exact List.Sublist.map _ (mapDelete_sublist _ _)
    · rw [hres, mapSet_keys_of_get_some h1]

/-- The outer outgoing keys never grow under unregistering. -/
theorem unregister_outgoing_keys (s : CanvasState) (c : ConnRef) :
    List.Sublist ((unregisterConnectionFromIndex s c).outgoing.map Prod.fst)
      (s.outgoing.map Prod.fst) := by
  rcases unregister_outgoing_cases s c with ⟨heq, _⟩ |
    ⟨om, ids, inner, h1, h2, hinner, hres⟩
  · rw [heq]
  · rcases hres with hres | hres
    · rw [hres]
      exact List.Sublist.map _ (mapDelete_sublist _ _)
    · rw [hres, mapSet_keys_of_get_some h1]

theorem deleteConnection_eq_none (s : CanvasState) (cid : Nat)
    (h : mapGet s.connections cid = none) :
    deleteConnection s cid = (s, false) := by
  unfold deleteConnection
  rw [h]

theorem deleteConnection_eq_locked (s : CanvasState) (cid : Nat)
    (connection : Connection)
    (hget : mapGet s.connections cid = some connection)
    (hb : (nodeLocked s connection.source.nodeId
        && nodeLocked s connection.target.nodeId) = true) :
    deleteConnection s cid = (s, true) := by
  unfold deleteConnection
  rw [hget]
  simp [hb]

theorem deleteConnection_eq_success (s : CanvasState) (cid : Nat)
    (connection : Connection)
    (hget : mapGet s.connections cid = some connection)
    (hb : (nodeLocked s connection.source.nodeId
        && nodeLocked s connection.target.nodeId) = false) :
    deleteConnection s cid =
      ({ unregisterConnectionFromIndex s
          ⟨connection.id, connection.source, connection.target⟩ with
        connections := mapDelete s.connections cid }, false) := by
  unfold deleteConnection
  rw [hget]
  simp [hb, unregister_connections]

/-- `deleteConnection` preserves index soundness. -/
theorem deleteConnection_sound (s : CanvasState) (cid : Nat)
    (h : IndexSound s) : IndexSound (deleteConnection s cid).1 := by
  cases hget : mapGet s.connections cid with
  | none =>
    rw [deleteConnection_eq_none s cid hget]
    exact h
  | some connection =>
    cases hb : (nodeLocked s connection.source.nodeId
        && nodeLocked s connection.target.nodeId) with
    | true =>
      rw [deleteConnection_eq_locked s cid connection hget hb]
      exact h
    | false =>
      rw [deleteConnection_eq_success s cid connection hget hb]
      have hid : connection.id = cid :=
        h.connsId _ (mapGet_eq_some_mem hget)
      have hnoin := unregister_incoming_no_ref s h connection cid hget hid
      have hnoout := unregister_outgoing_no_ref s h connection cid hget hid
      refine ⟨h.nodesNodup, ?_, ?_, ?_, ?_, ?_, ?_, ?_, ?_, ?_⟩
      · exact List.Nodup.sublist
          (List.Sublist.map _ (mapDelete_sublist _ _)) h.connsNodup
      · intro r hr
        exact h.connsId r (mem_mapDelete hr)
      · exact List.Nodup.sublist (unregister_incoming_keys s _)
          h.incomingOuterNodup
      · intro p hp
        obtain ⟨p0, hp0, _, hsub⟩ := unregister_incoming_sub s _ h p hp
        exact List.Nodup.sublist (List.Sublist.map _ hsub)
          (h.incomingInnerNodup p0 hp0)
      · intro p hp q hq
        obtain ⟨p0, hp0, hkey, hsub⟩ := unregister_incoming_sub s _ h p hp
        have hq0 : q ∈ p0.2 := hsub.subset hq
        obtain ⟨ht1, ht2, r, hr, hr1, hr2, hr3, hr4⟩ :=
          h.incomingSound p0 hp0 q hq0
        refine ⟨by rw [ht1, hkey], ht2, r, ?_, hr1, hr2, hr3, hr4⟩
        refine mem_mapDelete_of_keyne hr ?_
        rw [hr1]
        exact hnoin p hp q hq
      · exact List.Nodup.sublist (unregister_outgoing_keys s _)
          h.outgoingOuterNodup
      · intro p hp
        obtain ⟨p0, hp0, _, hkeys, _⟩ := unregister_outgoing_sub s _ h p hp
        exact List.Nodup.sublist hkeys (h.outgoingInnerNodup p0 hp0)
      · intro p hp q hq
        obtain ⟨p0, hp0, _, _, hinner⟩ := unregister_outgoing_sub s _ h p hp
        obtain ⟨q0, hq0, _, hsub⟩ := hinner q hq
        exact List.Nodup.sublist hsub (h.outgoingSetsNodup p0 hp0 q0 hq0)
      · intro p hp q hq cid2 hcid2
        obtain ⟨p0, hp0, hkey, _, hinner⟩ := unregister_outgoing_sub s _ h p
          hp
        obtain ⟨q0, hq0, hqkey, hsub⟩ := hinner q hq
        obtain ⟨r, hr, hr1, hr2, hr3, hr4⟩ :=
          h.outgoingSound p0 hp0 q0 hq0 cid2 (hsub.subset hcid2)
        refine ⟨r, ?_, hr1, hr2, by rw [hr3, hkey], by rw [hr4, hqkey]⟩
        refine mem_mapDelete_of_keyne hr ?_
        rw [hr1]
        intro hc
        exact hnoout p hp q hq (hc ▸ hcid2)

theorem deleteNode_eq_locked (s : CanvasState) (nodeId : Nat)
    (node : NodeData) (hnode : mapGet s.nodes nodeId = some node)
    (hlocked : node.locked = true) : deleteNode s nodeId = (s, true) := by
  unfold deleteNode
  rw [hnode]
  simp [hlocked]

theorem deleteNode_eq_unlocked (s : CanvasState) (nodeId : Nat)
    (node : NodeData) (hnode : mapGet s.nodes nodeId = some node)
    (hunlocked : node.locked = false) :
    deleteNode s nodeId =
      ({ ((s.connections.filter fun p =>
            p.2.source.nodeId = nodeId ∨ p.2.target.nodeId = nodeId).map
            Prod.fst).foldl (fun acc cid => (deleteConnection acc cid).1) s
          with
        nodes := mapDelete (((s.connections.filter fun p =>
            p.2.source.nodeId = nodeId ∨ p.2.target.nodeId = nodeId).map
            Prod.fst).foldl
            (fun acc cid => (deleteConnection acc cid).1) s).nodes nodeId },
        false) := by
  unfold deleteNode
  rw [hnode]
  simp [hunlocked]

/-- Folding `deleteConnection` over a duplicate-free list of ids of
connections incident to an unlocked node removes exactly those connections,
keeps the nodes, and preserves index soundness. -/
theorem cascade_delete (nodeId : Nat) (node : NodeData) (L : List Nat) :
    ∀ s : CanvasState, IndexSound s → L.Nodup →
      (∀ cid ∈ L, ∃ conn, mapGet s.connections cid = some conn
        ∧ (conn.source.nodeId = nodeId ∨ conn.target.nodeId = nodeId)) →
      mapGet s.nodes nodeId = some node → node.locked = false →
      IndexSound (L.foldl (fun acc cid => (deleteConnection acc cid).1) s)
      ∧ (L.foldl (fun acc cid => (deleteConnection acc cid).1) s).nodes
          = s.nodes
      ∧ (∀ k, mapGet (L.foldl
            (fun acc cid => (deleteConnection acc cid).1) s).connections k
          = if k ∈ L then none else mapGet s.connections k) := by
  induction L with
  | nil =>
    intro s hs _ _ _ _
    exact ⟨hs, rfl, fun k => by simp⟩
  | cons cid rest ih =>
    intro s hs hnd hL hnode hunlocked
    obtain ⟨conn, hconn, hinc⟩ := hL cid (List.mem_cons_self _ _)
    have hb : (nodeLocked s conn.source.nodeId
        && nodeLocked s conn.target.nodeId) = false := by
      rcases hinc with hinc | hinc
      · have hf : nodeLocked s conn.source.nodeId = false := by
          unfold nodeLocked
          rw [hinc, hnode]
          exact hunlocked
        rw [hf, Bool.false_and]
      · have hf : nodeLocked s conn.target.nodeId = false := by
          unfold nodeLocked
          rw [hinc, hnode]
          exact hunlocked
        rw [hf, Bool.and_false]
    have heq := deleteConnection_eq_success s cid conn hconn hb
    simp only [List.foldl_cons]
    have hs1 : IndexSound (deleteConnection s cid).1 :=
      deleteConnection_sound s cid hs
    have hnodes1 : (deleteConnection s cid).1.nodes = s.nodes := by
      rw [heq]
      rfl
    have hconns1 : (deleteConnection s cid).1.connections
        = mapDelete s.connections cid := by
      rw [heq]
    obtain ⟨hndcid, hndrest⟩ := List.nodup_cons.mp hnd
    have hL1 : ∀ cid2 ∈ rest, ∃ conn2,
        mapGet (deleteConnection s cid).1.connections cid2 = some conn2
        ∧ (conn2.source.nodeId = nodeId ∨ conn2.target.nodeId = nodeId) := by
      intro cid2 hcid2
      obtain ⟨conn2, hc2, hi2⟩ := hL cid2 (List.mem_cons_of_mem _ hcid2)
      refine ⟨conn2, ?_, hi2⟩
      rw [hconns1,
        mapGet_mapDelete_ne _ _ _ (fun hcc => hndcid
          (by rw [hcc]; exact hcid2))]
      exact hc2
    have hnode1 : mapGet (deleteConnection s cid).1.nodes nodeId
        = some node := by
      rw [hnodes1]
      exact hnode
    obtain ⟨ihs, ihn, ihc⟩ := ih (deleteConnection s cid).1 hs1 hndrest hL1
      hnode1 hunlocked
    refine ⟨ihs, by rw [ihn, hnodes1], ?_⟩
    intro k
    rw [ihc k]
    by_cases hk : k ∈ rest
    · rw [if_pos hk, if_pos (List.mem_cons_of_mem _ hk)]
    · rw [if_neg hk]
      by_cases hk2 : k = cid
      · subst hk2
        rw [if_pos (List.mem_cons_self _ _), hconns1,
          mapGet_mapDelete_self hs.connsNodup]
      · rw [if_neg (by simp [hk, hk2]), hconns1,
          mapGet_mapDelete_ne _ _ _ (fun hcc => hk2 hcc.symm)]

/-- C2: `deleteNode(nodeId)` on a locked node leaves the state unchanged and
emits the warning; on an unlocked node it removes every connection whose
source or target is the node and then the node itself, after which the
incoming and outgoing index projections for the node are empty and the index
is still sound (in particular no index entry references a deleted connection
id). -/
theorem deleteNode_spec (s : CanvasState) (nodeId : Nat)
    (hsound : IndexSound s) :
    (∀ node, mapGet s.nodes nodeId = some node → node.locked = true →
      deleteNode s nodeId = (s, true))
    ∧ (∀ node, mapGet s.nodes nodeId = some node → node.locked = false →
        getIncomingConnections (deleteNode s nodeId).1 nodeId = []
        ∧ getOutgoingConnections (deleteNode s nodeId).1 nodeId = []
        ∧ mapGet (deleteNode s nodeId).1.nodes nodeId = none
        ∧ (∀ p ∈ s.connections,
            (p.2.source.nodeId = nodeId ∨ p.2.target.nodeId = nodeId) →
            mapGet (deleteNode s nodeId).1.connections p.1 = none)
        ∧ IndexSound (deleteNode s nodeId).1
        ∧ (deleteNode s nodeId).2 = false) := by
  constructor
  · intro node hnode hlocked
    exact deleteNode_eq_locked s nodeId node hnode hlocked
  · intro node hnode hunlocked
    have heq := deleteNode_eq_unlocked s nodeId node hnode hunlocked
    have hLnd : (((s.connections.filter fun p =>
        p.2.source.nodeId = nodeId ∨ p.2.target.nodeId = nodeId).map
        Prod.fst)).Nodup :=
      List.Nodup.sublist
        (List.Sublist.map _ (List.filter_sublist _)) hsound.connsNodup
    have hLmem : ∀ cid ∈ ((s.connections.filter fun p =>
        p.2.source.nodeId = nodeId ∨ p.2.target.nodeId = nodeId).map
        Prod.fst), ∃ conn, mapGet s.connections cid = some conn
        ∧ (conn.source.nodeId = nodeId ∨ conn.target.nodeId = nodeId) := by
      intro cid hcid
      obtain ⟨p, hpf, hpc⟩ := List.mem_map.mp hcid
      obtain ⟨hpmem, hpred⟩ := List.mem_filter.mp hpf
      refine ⟨p.2, ?_, of_decide_eq_true hpred⟩
      rw [← hpc]
      exact mem_mapGet_of_nodup hsound.connsNodup hpmem
    obtain ⟨ihs, ihn, ihc⟩ := cascade_delete nodeId node _ s hsound hLnd
      hLmem hnode hunlocked
    have hnone : ∀ (k : Nat) (conn : Connection),
        mapGet (((s.connections.filter fun p =>
          p.2.source.nodeId = nodeId ∨ p.2.target.nodeId = nodeId).map
          Prod.fst).foldl
          (fun acc cid => (deleteConnection acc cid).1) s).connections k
          = some conn →
        conn.source.nodeId ≠ nodeId ∧ conn.target.nodeId ≠ nodeId := by
      intro k conn hk
      by_cases hkL : k ∈ ((s.connections.filter fun p =>
          p.2.source.nodeId = nodeId ∨ p.2.target.nodeId = nodeId).map
          Prod.fst)
      · rw [ihc k, if_pos hkL] at hk
        exact absurd hk (by simp)
      · rw [ihc k, if_neg hkL] at hk
        constructor <;> intro hinc <;> apply hkL
        · refine List.mem_map.mpr ⟨(k, conn), List.mem_filter.mpr
            ⟨mapGet_eq_some_mem hk, decide_eq_true (Or.inl hinc)⟩, rfl⟩
        · refine List.mem_map.mpr ⟨(k, conn), List.mem_filter.mpr
            ⟨mapGet_eq_some_mem hk, decide_eq_true (Or.inr hinc)⟩, rfl⟩
    rw [heq]
    refine ⟨?_, ?_, ?_, ?_, ?_, rfl⟩
    · refine List.eq_nil_iff_forall_not_mem.mpr fun e he => ?_
      unfold getIncomingConnections at he
      revert he
      cases hm : mapGet (((s.connections.filter fun p =>
          p.2.source.nodeId = nodeId ∨ p.2.target.nodeId = nodeId).map
          Prod.fst).foldl
          (fun acc cid => (deleteConnection acc cid).1) s).incoming nodeId
        with
      | none => simp
      | some inner =>
        intro he
        obtain ⟨q, hq, _⟩ := List.mem_map.mp he
        obtain ⟨ht1, _, r, hr, hr1, _, _, hr4⟩ :=
          ihs.incomingSound _ (mapGet_eq_some_mem hm) q hq
        have hrget := mem_mapGet_of_nodup ihs.connsNodup hr
        have := (hnone r.1 r.2 hrget).2
        apply this
        rw [hr4, ht1]
    · refine List.eq_nil_iff_forall_not_mem.mpr fun e he => ?_
      unfold getOutgoingConnections at he
      revert he
      cases hm : mapGet (((s.connections.filter fun p =>
          p.2.source.nodeId = nodeId ∨ p.2.target.nodeId = nodeId).map
          Prod.fst).foldl
          (fun acc cid => (deleteConnection acc cid).1) s).outgoing nodeId
        with
      | none => simp
      | some om =>
        intro he
        obtain ⟨q, hq, he2⟩ := List.mem_flatMap.mp he
        obtain ⟨cid, hcid, he3⟩ := List.mem_filterMap.mp he2
        obtain ⟨r, hr, hr1, _, hr3, _⟩ :=
          ihs.outgoingSound _ (mapGet_eq_some_mem hm) q hq cid hcid
        have hrget := mem_mapGet_of_nodup ihs.connsNodup hr
        have := (hnone r.1 r.2 hrget).1
        apply this
        rw [hr3]
    · exact mapGet_mapDelete_self (by rw [ihn]; exact hsound.nodesNodup)
    · intro p hp hpinc
      have hpL : p.1 ∈ ((s.connections.filter fun q =>
          q.2.source.nodeId = nodeId ∨ q.2.target.nodeId = nodeId).map
          Prod.fst) :=
        List.mem_map.mpr ⟨p, List.mem_filter.mpr
          ⟨hp, decide_eq_true hpinc⟩, rfl⟩
      rw [ihc p.1, if_pos hpL]
    · exact ⟨List.Nodup.sublist (List.Sublist.map _ (mapDelete_sublist _ _))
          (by rw [ihn]; exact hsound.nodesNodup),
        ihs.connsNodup, ihs.connsId, ihs.incomingOuterNodup,
        ihs.incomingInnerNodup, ihs.incomingSound, ihs.outgoingOuterNodup,
        ihs.outgoingInnerNodup, ihs.outgoingSetsNodup, ihs.outgoingSound⟩

/-- Witness for C2: deleting the (unlocked) node 2 of `colorWitnessBase`
cascades the removal of both of its incident connections and clears its
index projections. -/
theorem deleteNode_spec_witness :
    getIncomingConnections (deleteNode colorWitnessBase 2).1 2 = []
    ∧ getOutgoingConnections (deleteNode colorWitnessBase 2).1 2 = []
    ∧ mapGet (deleteNode colorWitnessBase 2).1.nodes 2 = none := by
  have h := deleteNode_spec colorWitnessBase 2
    ⟨by decide, by decide, by decide, by decide, by decide, by decide,
     by decide, by decide, by decide, by decide⟩
  have h2 := h.2 ⟨2, ["in"], ["out"], (0, 0), false, none⟩ (by decide) rfl
  exact ⟨h2.1, h2.2.1, h2.2.2.1⟩

/-! ### Id freshness over operation traces -/

theorem deleteConnection_counters (s : CanvasState) (cid : Nat) :
    (deleteConnection s cid).1.nodeCounter = s.nodeCounter
    ∧ (deleteConnection s cid).1.connectionCounter = s.connectionCounter := by
  cases hget : mapGet s.connections cid with
  | none =>
    rw [deleteConnection_eq_none s cid hget]
    exact ⟨rfl, rfl⟩
  | some connection =>
    cases hb : (nodeLocked s connection.source.nodeId
        && nodeLocked s connection.target.nodeId) with
    | true =>
      rw [deleteConnection_eq_locked s cid connection hget hb]
      exact ⟨rfl, rfl⟩
    | false =>
      rw [deleteConnection_eq_success s cid connection hget hb]
      exact ⟨rfl, rfl⟩

theorem foldDelete_counters (L : List Nat) :
    ∀ s : CanvasState,
      (L.foldl (fun acc cid => (deleteConnection acc cid).1) s).nodeCounter
        = s.nodeCounter
      ∧ (L.foldl
          (fun acc cid => (deleteConnection acc cid).1) s).connectionCounter
        = s.connectionCounter := by
  induction L with
  | nil => intro s; exact ⟨rfl, rfl⟩
  | cons cid rest ih =>
    intro s
    simp only [List.foldl_cons]
    obtain ⟨h1, h2⟩ := ih (deleteConnection s cid).1
    obtain ⟨h3, h4⟩ := deleteConnection_counters s cid
    exact ⟨h1.trans h3, h2.trans h4⟩

theorem deleteNode_counters (s : CanvasState) (nodeId : Nat) :
    (deleteNode s nodeId).1.nodeCounter = s.nodeCounter
    ∧ (deleteNode s nodeId).1.connectionCounter = s.connectionCounter := by
  unfold deleteNode
  cases hn : mapGet s.nodes nodeId with
  | none => exact ⟨rfl, rfl⟩
  | some node =>
    cases hl : node.locked with
    | true => simp [hl]
    | false =>
      simp only [hl, Bool.false_eq_true, if_false]
      exact foldDelete_counters _ s

theorem createConnection_cases (s : CanvasState) (a b : PortSel) :
    ((createConnection s a b).1 = none ∧ (createConnection s a b).2 = s)
    ∨ ((createConnection s a b).1 = some (s.connectionCounter + 1)
        ∧ (createConnection s a b).2.nodeCounter = s.nodeCounter
        ∧ (createConnection s a b).2.connectionCounter
          = s.connectionCounter + 1) := by
  unfold createConnection
  by_cases h1 : a.nodeId = b.nodeId
  · rw [if_pos h1]
    exact Or.inl ⟨rfl, rfl⟩
  · rw [if_neg h1]
    by_cases h2 : a.role = b.role
    · rw [if_pos h2]
      exact Or.inl ⟨rfl, rfl⟩
    · rw [if_neg h2]
      dsimp only
      cases h3 : mapGet s.nodes (if a.role = PortRole.input then b else a).nodeId
        with
      | none =>
        cases h4 : mapGet s.nodes
            (if a.role = PortRole.input then a else b).nodeId with
        | none => exact Or.inl ⟨rfl, rfl⟩
        | some tn => exact Or.inl ⟨rfl, rfl⟩
      | some sn =>
        cases h4 : mapGet s.nodes
            (if a.role = PortRole.input then a else b).nodeId with
        | none => exact Or.inl ⟨rfl, rfl⟩
        | some tn =>
          dsimp only
          by_cases h5 : (if a.role = PortRole.input then b else a).name
              ∈ sn.outputs
            ∧ (if a.role = PortRole.input then a else b).name ∈ tn.inputs
          · rw [if_pos h5]
            cases h6 : getInputBinding s
                (if a.role = PortRole.input then a else b).nodeId
                (if a.role = PortRole.input then a else b).name with
            | none =>
              refine Or.inr ⟨rfl, rfl, rfl⟩
            | some eb =>
              obtain ⟨hc1, hc2⟩ := deleteConnection_counters s eb.connectionId
              refine Or.inr ⟨by rw [hc2], ?_, ?_⟩
              · show (registerConnectionInIndex _ _).nodeCounter
                  = s.nodeCounter
                simp only [registerConnectionInIndex]
                exact hc1
              · show (registerConnectionInIndex _ _).connectionCounter
                  = s.connectionCounter + 1
                simp only [registerConnectionInIndex]
                rw [← hc2]
          · rw [if_neg h5]
            exact Or.inl ⟨rfl, rfl⟩

theorem applyOp_spec (s : CanvasState) (op : Op) :
    s.nodeCounter ≤ (applyOp s op).1.nodeCounter
    ∧ s.connectionCounter ≤ (applyOp s op).1.connectionCounter
    ∧ (applyOp s op).2.Nodup
    ∧ (∀ g ∈ (applyOp s op).2,
        (∀ n, g = Sum.inl n →
          s.nodeCounter < n ∧ n ≤ (applyOp s op).1.nodeCounter)
        ∧ (∀ m, g = Sum.inr m →
          s.connectionCounter < m
          ∧ m ≤ (applyOp s op).1.connectionCounter)) := by
  cases op with
  | createNode defn x y w h =>
    refine ⟨Nat.le_succ _, Nat.le_refl _, List.nodup_singleton _, ?_⟩
    intro g hg
    rcases List.mem_singleton.mp hg with rfl
    constructor
    · intro n hn
      injection hn with hn
      subst hn
      exact ⟨Nat.lt_succ_self _, Nat.le_refl _⟩
    · intro m hm
      exact absurd hm (by simp)
  | createConnection a b =>
    rcases createConnection_cases s a b with ⟨hres, hst⟩ | ⟨hres, hn, hc⟩
    · simp only [applyOp, hres, hst]
      exact ⟨Nat.le_refl _, Nat.le_refl _, List.nodup_nil, by simp⟩
    · simp only [applyOp, hres, hn, hc]
      refine ⟨Nat.le_refl _, Nat.le_succ _, List.nodup_singleton _, ?_⟩
      intro g hg
      rcases List.mem_singleton.mp hg with rfl
      constructor
      · intro n hn
        exact absurd hn (by simp)
      · intro m hm
        injection hm with hm
        subst hm
        exact ⟨Nat.lt_succ_self _, Nat.le_refl _⟩
  | deleteNode nodeId =>
    obtain ⟨h1, h2⟩ := deleteNode_counters s nodeId
    exact ⟨h1.ge, h2.ge, List.nodup_nil, by simp [applyOp]⟩
  | deleteConnection cid =>
    obtain ⟨h1, h2⟩ := deleteConnection_counters s cid
    exact ⟨h1.ge, h2.ge, List.nodup_nil, by simp [applyOp]⟩
  | clearCanvas =>
    exact ⟨Nat.le_refl _, Nat.le_refl _, List.nodup_nil, by simp [applyOp]⟩

theorem runOps_spec (ops : List Op) : ∀ s : CanvasState,
    s.nodeCounter ≤ (runOps s ops).1.nodeCounter
    ∧ s.connectionCounter ≤ (runOps s ops).1.connectionCounter
    ∧ (∀ g ∈ (runOps s ops).2,
        (∀ n, g = Sum.inl n →
          s.nodeCounter < n ∧ n ≤ (runOps s ops).1.nodeCounter)
        ∧ (∀ m, g = Sum.inr m →
          s.connectionCounter < m
          ∧ m ≤ (runOps s ops).1.connectionCounter))
    ∧ (runOps s ops).2.Nodup := by
  induction ops with
  | nil =>
    intro s
    exact ⟨Nat.le_refl _, Nat.le_refl _, by simp [runOps], List.nodup_nil⟩
  | cons op rest ih =>
    intro s
    obtain ⟨ha1, ha2, hand, hab⟩ := applyOp_spec s op
    obtain ⟨hr1, hr2, hrb, hrnd⟩ := ih (applyOp s op).1
    have hfin1 : s.nodeCounter ≤ (runOps s (op :: rest)).1.nodeCounter := by
      simp only [runOps]
      exact ha1.trans hr1
    have hfin2 : s.connectionCounter
        ≤ (runOps s (op :: rest)).1.connectionCounter := by
      simp only [runOps]
      exact ha2.trans hr2
    refine ⟨hfin1, hfin2, ?_, ?_⟩
    · intro g hg
      simp only [runOps, List.mem_append] at hg
      rcases hg with hg | hg
      · obtain ⟨hgl, hgr⟩ := hab g hg
        constructor
        · intro n hn
          obtain ⟨hlt, hle⟩ := hgl n hn
          exact ⟨hlt, by simp only [runOps]; exact hle.trans hr1⟩
        · intro m hm
          obtain ⟨hlt, hle⟩ := hgr m hm
          exact ⟨hlt, by simp only [runOps]; exact hle.trans hr2⟩
      · obtain ⟨hgl, hgr⟩ := hrb g hg
        constructor
        · intro n hn
          obtain ⟨hlt, hle⟩ := hgl n hn
          exact ⟨lt_of_le_of_lt ha1 hlt, by simp only [runOps]; exact hle⟩
        · intro m hm
          obtain ⟨hlt, hle⟩ := hgr m hm
          exact ⟨lt_of_le_of_lt ha2 hlt, by simp only [runOps]; exact hle⟩
    · simp only [runOps]
      refine List.Nodup.append hand hrnd ?_
      intro g hg1 hg2
      cases g with
      | inl n =>
        obtain ⟨hlt, _⟩ := (hrb _ hg2).1 n rfl
        obtain ⟨_, hle⟩ := (hab _ hg1).1 n rfl
        exact absurd hlt (not_lt.mpr hle)
      | inr m =>
        obtain ⟨hlt, _⟩ := (hrb _ hg2).2 m rfl
        obtain ⟨_, hle⟩ := (hab _ hg1).2 m rfl
        exact absurd hlt (not_lt.mpr hle)

/-- C9: node and connection ids are never reused.  Along any sequence of
`createNode`, `createConnection`, `deleteNode`, `deleteConnection` and
`clearCanvas` operations from a fresh canvas, the list of ids handed back to
callers (node ids in the left summand, connection ids in the right, matching
the disjoint `node_`/`connection_` JS prefixes) has no duplicates — the
counters are never reset or decremented, even by `clearCanvas`. -/
theorem runOps_ids_nodup (ops : List Op) :
    ((runOps initialState ops).2).Nodup :=
  (runOps_spec ops initialState).2.2.2

/-- C1 (counter-evidence, code bug): in `lockedReplacementScenario` the input
port `(2, "in")` was already bound by connection 1 whose two endpoint nodes
are locked; creating connection 2 to the same port leaves **two** connections
terminating at that port in the collection — the old connection id 1 still
exists — while `getInputBinding` reports only the new one.  The code thereby
contradicts both the specification's single-binding invariant and its own
inline comment *"Enforce single inbound connection per input port: replace
existing binding if present"*. -/
theorem createConnection_replacement_violated :
    (lockedReplacementScenario.connections.filter
      (fun p => p.2.target = ⟨2, "in"⟩)).length = 2
    ∧ mapGet lockedReplacementScenario.connections 1
      = some ⟨1, ⟨1, "out"⟩, ⟨2, "in"⟩, none⟩
    ∧ getInputBinding lockedReplacementScenario 2 "in"
      = some ⟨2, 3, "out"⟩ := by
  decide

/-- C10: when `createConnection` targets an input whose existing binding `b`
is a connection `oc` with both endpoint nodes locked, the replacement
deletion refuses, yet the new connection is still allocated and indexed:
afterwards the collection holds both `oc` and the new connection (both
terminating at the target input port) while `getInputBinding` reports only
the new one. -/
theorem createConnection_locked_binding (s : CanvasState)
    (source target : PortSel) (b : Binding) (oc : Connection)
    (sn tn n1 n2 : NodeData)
    (hne : source.nodeId ≠ target.nodeId)
    (hsr : source.role = PortRole.output)
    (htr : target.role = PortRole.input)
    (hsn : mapGet s.nodes source.nodeId = some sn)
    (htn : mapGet s.nodes target.nodeId = some tn)
    (hsp : source.name ∈ sn.outputs)
    (htp : target.name ∈ tn.inputs)
    (hbind : getInputBinding s target.nodeId target.name = some b)
    (hold : mapGet s.connections b.connectionId = some oc)
    (holdTarget : oc.target = ⟨target.nodeId, target.name⟩)
    (h1 : mapGet s.nodes oc.source.nodeId = some n1) (h1l : n1.locked = true)
    (h2 : mapGet s.nodes oc.target.nodeId = some n2) (h2l : n2.locked = true)
    (hfresh : b.connectionId ≠ s.connectionCounter + 1) :
    (createConnection s source target).1 = some (s.connectionCounter + 1)
    ∧ mapGet (createConnection s source target).2.connections b.connectionId
        = some oc
    ∧ oc.target = ⟨target.nodeId, target.name⟩
    ∧ (∃ nc, mapGet (createConnection s source target).2.connections
          (s.connectionCounter + 1) = some nc
        ∧ nc.source = ⟨source.nodeId, source.name⟩
        ∧ nc.target = ⟨target.nodeId, target.name⟩)
    ∧ getInputBinding (createConnection s source target).2 target.nodeId
        target.name
      = some ⟨s.connectionCounter + 1, source.nodeId, source.name⟩ := by
  have hdel : deleteConnection s b.connectionId = (s, true) := by
    simp only [deleteConnection, nodeLocked, hold, h1, h2, h1l, h2l,
      Bool.and_self, if_true]
  have hrole : ¬ source.role = target.role := by
    rw [hsr, htr]
    exact fun hh => PortRole.noConfusion hh
  have hswap : ¬ source.role = PortRole.input := by
    rw [hsr]
    exact fun hh => PortRole.noConfusion hh
  simp only [createConnection, if_neg hne, if_neg hrole, if_neg hswap,
    hsn, htn, hbind, hdel, hsp, htp, true_and, and_true, and_self, if_true]
  refine ⟨?_, holdTarget, ?_, ?_⟩
  · simp only [registerConnectionInIndex]
    rw [mapGet_mapSet_ne _ _ _ _ (Ne.symm hfresh)]
    exact hold
  · simp only [registerConnectionInIndex]
    exact ⟨_, mapGet_mapSet_self _ _ _, rfl, rfl⟩
  · simp only [registerConnectionInIndex, getInputBinding,
      mapGet_mapSet_self]

/-- Witness for C10: applying the theorem to `lockedScenarioBase` (whose
input `(2, "in")` is bound by connection 1 between the two locked nodes 1
and 2). -/
theorem createConnection_locked_binding_witness :
    (createConnection lockedScenarioBase ⟨3, PortRole.output, "out"⟩
        ⟨2, PortRole.input, "in"⟩).1 = some 2
    ∧ mapGet lockedReplacementScenario.connections 1
      = some ⟨1, ⟨1, "out"⟩, ⟨2, "in"⟩, none⟩
    ∧ getInputBinding lockedReplacementScenario 2 "in"
      = some ⟨2, 3, "out"⟩ := by
  have h := createConnection_locked_binding lockedScenarioBase
    ⟨3, PortRole.output, "out"⟩ ⟨2, PortRole.input, "in"⟩
    ⟨1, 1, "out"⟩ ⟨1, ⟨1, "out"⟩, ⟨2, "in"⟩, none⟩
    ⟨3, [], ["out"], (0, 0), false, none⟩
    ⟨2, ["in"], [], (0, 0), true, none⟩
    ⟨1, [], ["out"], (0, 0), true, none⟩
    ⟨2, ["in"], [], (0, 0), true, none⟩
    (by decide) (by decide) (by decide) (by decide) (by decide) (by decide)
    (by decide) (by decide) (by decide) (by decide) (by decide) (by decide)
    (by decide) (by decide) (by decide)
  exact ⟨h.1, h.2.1, h.2.2.2.2⟩

/-! ### Color propagation (`setSelectedNodesColor`) -/

theorem recolorConnection_nodes (s : CanvasState) (color : String)
    (cid : Nat) : (recolorConnection s color cid).nodes = s.nodes := by
  unfold recolorConnection
  split <;> rfl

theorem recolorConnection_incoming (s : CanvasState) (color : String)
    (cid : Nat) : (recolorConnection s color cid).incoming = s.incoming := by
  unfold recolorConnection
  split <;> rfl

theorem recolorConnection_outgoing (s : CanvasState) (color : String)
    (cid : Nat) : (recolorConnection s color cid).outgoing = s.outgoing := by
  unfold recolorConnection
  split <;> rfl

theorem recolorConnection_get (s : CanvasState) (color : String)
    (cid k : Nat) :
    mapGet (recolorConnection s color cid).connections k =
      if k = cid then
        (mapGet s.connections k).map (fun c => { c with color := some color })
      else mapGet s.connections k := by
  unfold recolorConnection
  cases h : mapGet s.connections cid with
  | none =>
    by_cases hk : k = cid
    · subst hk
      simp [h]
    · simp [hk]
  | some c =>
    by_cases hk : k = cid
    · subst hk
      simp only [if_pos rfl, h]
      exact mapGet_mapSet_self _ _ _
    · simp only [if_neg hk]
      exact mapGet_mapSet_ne _ _ _ _ (Ne.symm hk)

theorem colorMap_idem (color : String) (o : Option Connection) :
    (o.map (fun c => { c with color := some color })).map
        (fun c => { c with color := some color })
      = o.map (fun c => { c with color := some color }) := by
  cases o <;> rfl

/-- Characterization of a fold of `recolorConnection` over a list of
entries carrying connection ids. -/
theorem foldRecolor_get {α : Type} (es : List α) (f : α → Nat)
    (color : String) (s : CanvasState) (k : Nat) :
    mapGet ((es.foldl (fun acc e => recolorConnection acc color (f e))
        s)).connections k =
      if k ∈ es.map f then
        (mapGet s.connections k).map (fun c => { c with color := some color })
      else mapGet s.connections k := by
  induction es generalizing s with
  | nil => simp
  | cons e rest ih =>
    simp only [List.foldl_cons, List.map_cons]
    rw [ih]
    by_cases hk : k = f e
    · subst hk
      rw [recolorConnection_get, if_pos rfl,
        if_pos (List.mem_cons_self (f e) (rest.map f))]
      by_cases hmem : f e ∈ rest.map f
      · rw [if_pos hmem, colorMap_idem]
      · rw [if_neg hmem]
    · rw [recolorConnection_get, if_neg hk]
      by_cases hmem : k ∈ rest.map f
      · rw [if_pos hmem, if_pos (List.mem_cons_of_mem _ hmem)]
      · rw [if_neg hmem, if_neg (by simp [hk, hmem])]

theorem foldRecolor_nodes {α : Type} (es : List α) (f : α → Nat)
    (color : String) (s : CanvasState) :
    (es.foldl (fun acc e => recolorConnection acc color (f e)) s).nodes
      = s.nodes := by
  induction es generalizing s with
  | nil => rfl
  | cons e rest ih => simp [List.foldl_cons, ih, recolorConnection_nodes]

theorem foldRecolor_incoming {α : Type} (es : List α) (f : α → Nat)
    (color : String) (s : CanvasState) :
    (es.foldl (fun acc e => recolorConnection acc color (f e)) s).incoming
      = s.incoming := by
  induction es generalizing s with
  | nil => rfl
  | cons e rest ih => simp [List.foldl_cons, ih, recolorConnection_incoming]

theorem foldRecolor_outgoing {α : Type} (es : List α) (f : α → Nat)
    (color : String) (s : CanvasState) :
    (es.foldl (fun acc e => recolorConnection acc color (f e)) s).outgoing
      = s.outgoing := by
  induction es generalizing s with
  | nil => rfl
  | cons e rest ih => simp [List.foldl_cons, ih, recolorConnection_outgoing]

/-- `getIncomingConnections` depends only on the incoming index. -/
theorem getIncomingConnections_congr (s s2 : CanvasState)
    (h : s2.incoming = s.incoming) (n : Nat) :
    getIncomingConnections s2 n = getIncomingConnections s n := by
  unfold getIncomingConnections
  rw [h]

/-- `getOutgoingConnections` depends only on the outgoing index and the
targets of the present connections. -/
theorem getOutgoingConnections_congr (s s2 : CanvasState)
    (h : s2.outgoing = s.outgoing)
    (hc : ∀ k, (mapGet s2.connections k).map (fun c => c.target)
      = (mapGet s.connections k).map (fun c => c.target)) (n : Nat) :
    getOutgoingConnections s2 n = getOutgoingConnections s n := by
  unfold getOutgoingConnections
  rw [h]
  cases mapGet s.outgoing n with
  | none => rfl
  | some m =>
    refine List.flatMap_congr fun p _ => ?_
    refine List.filterMap_congr fun cid _ => ?_
    have hk := hc cid
    cases h1 : mapGet s2.connections cid with
    | none =>
      cases h2 : mapGet s.connections cid with
      | none => rfl
      | some c2 =>
        rw [h1, h2] at hk
        simp at hk
    | some c1 =>
      cases h2 : mapGet s.connections cid with
      | none =>
        rw [h1, h2] at hk
        simp at hk
      | some c2 =>
        rw [h1, h2] at hk
        simp only [Option.map_some'] at hk
        injection hk with hk
        simp [hk]

theorem mapTarget_colorMap (color : String) (o : Option Connection) :
    (o.map (fun c => { c with color := some color })).map (fun c => c.target)
      = o.map (fun c => c.target) := by
  cases o <;> rfl

theorem recolorIncoming_nodes (color : String) (s : CanvasState) (n : Nat) :
    (recolorIncoming color s n).nodes = s.nodes := by
  unfold recolorIncoming
  exact foldRecolor_nodes _ _ _ _

theorem recolorIncoming_incoming (color : String) (s : CanvasState)
    (n : Nat) : (recolorIncoming color s n).incoming = s.incoming := by
  unfold recolorIncoming
  exact foldRecolor_incoming _ _ _ _

theorem recolorIncoming_outgoing (color : String) (s : CanvasState)
    (n : Nat) : (recolorIncoming color s n).outgoing = s.outgoing := by
  unfold recolorIncoming
  exact foldRecolor_outgoing _ _ _ _

theorem recolorIncoming_get (color : String) (s : CanvasState) (n k : Nat) :
    mapGet (recolorIncoming color s n).connections k =
      if k ∈ (getIncomingConnections s n).map (fun e => e.connectionId) then
        (mapGet s.connections k).map (fun c => { c with color := some color })
      else mapGet s.connections k := by
  unfold recolorIncoming
  exact foldRecolor_get _ _ _ _ _

theorem recolorOutgoing_nodes (color : String) (s : CanvasState) (n : Nat) :
    (recolorOutgoing color s n).nodes = s.nodes := by
  unfold recolorOutgoing
  exact foldRecolor_nodes _ _ _ _

theorem recolorOutgoing_incoming (color : String) (s : CanvasState)
    (n : Nat) : (recolorOutgoing color s n).incoming = s.incoming := by
  unfold recolorOutgoing
  exact foldRecolor_incoming _ _ _ _

theorem recolorOutgoing_outgoing (color : String) (s : CanvasState)
    (n : Nat) : (recolorOutgoing color s n).outgoing = s.outgoing := by
  unfold recolorOutgoing
  exact foldRecolor_outgoing _ _ _ _

theorem recolorOutgoing_get (color : String) (s : CanvasState) (n k : Nat) :
    mapGet (recolorOutgoing color s n).connections k =
      if k ∈ (getOutgoingConnections s n).map (fun e => e.connectionId) then
        (mapGet s.connections k).map (fun c => { c with color := some color })
      else mapGet s.connections k := by
  unfold recolorOutgoing
  exact foldRecolor_get _ _ _ _ _

theorem setNodeColorStep_none (color : String) (s : CanvasState) (n : Nat)
    (hn : mapGet s.nodes n = none) : setNodeColorStep color s n = s := by
  unfold setNodeColorStep
  rw [hn]

theorem setNodeColorStep_eq (color : String) (s : CanvasState) (n : Nat)
    (node : NodeData) (hn : mapGet s.nodes n = some node) :
    setNodeColorStep color s n
      = recolorOutgoing color (recolorIncoming color
          { s with nodes := mapSet s.nodes n { node with color := some color } }
          n) n := by
  unfold setNodeColorStep
  rw [hn]

theorem setNodeColorStep_incoming (color : String) (s : CanvasState)
    (n : Nat) : (setNodeColorStep color s n).incoming = s.incoming := by
  cases hn : mapGet s.nodes n with
  | none => rw [setNodeColorStep_none color s n hn]
  | some node =>
    rw [setNodeColorStep_eq color s n node hn, recolorOutgoing_incoming,
      recolorIncoming_incoming]

theorem setNodeColorStep_outgoing (color : String) (s : CanvasState)
    (n : Nat) : (setNodeColorStep color s n).outgoing = s.outgoing := by
  cases hn : mapGet s.nodes n with
  | none => rw [setNodeColorStep_none color s n hn]
  | some node =>
    rw [setNodeColorStep_eq color s n node hn, recolorOutgoing_outgoing,
      recolorIncoming_outgoing]

theorem setNodeColorStep_nodes_ne (color : String) (s : CanvasState)
    (n m : Nat) (hm : m ≠ n) :
    mapGet (setNodeColorStep color s n).nodes m = mapGet s.nodes m := by
  cases hn : mapGet s.nodes n with
  | none => rw [setNodeColorStep_none color s n hn]
  | some node =>
    rw [setNodeColorStep_eq color s n node hn, recolorOutgoing_nodes,
      recolorIncoming_nodes]
    exact mapGet_mapSet_ne _ _ _ _ (Ne.symm hm)

theorem setNodeColorStep_nodes_self (color : String) (s : CanvasState)
    (n : Nat) (nd0 : NodeData) (hn : mapGet s.nodes n = some nd0) :
    mapGet (setNodeColorStep color s n).nodes n
      = some { nd0 with color := some color } := by
  rw [setNodeColorStep_eq color s n nd0 hn, recolorOutgoing_nodes,
    recolorIncoming_nodes]
  exact mapGet_mapSet_self _ _ _

theorem setNodeColorStep_get_or (color : String) (s : CanvasState)
    (n k : Nat) :
    mapGet (setNodeColorStep color s n).connections k
      = mapGet s.connections k
    ∨ mapGet (setNodeColorStep color s n).connections k
      = (mapGet s.connections k).map
          (fun c => { c with color := some color }) := by
  cases hn : mapGet s.nodes n with
  | none =>
    rw [setNodeColorStep_none color s n hn]
    exact Or.inl rfl
  | some node =>
    rw [setNodeColorStep_eq color s n node hn, recolorOutgoing_get]
    by_cases h1 : k ∈ (getOutgoingConnections (recolorIncoming color
        { s with nodes := mapSet s.nodes n { node with color := some color } }
        n) n).map (fun e => e.connectionId)
    · rw [if_pos h1, recolorIncoming_get]
      by_cases h2 : k ∈ (getIncomingConnections
          { s with nodes := mapSet s.nodes n { node with color := some color } }
          n).map (fun e => e.connectionId)
      · rw [if_pos h2]
        exact Or.inr (colorMap_idem _ _)
      · rw [if_neg h2]
        exact Or.inr rfl
    · rw [if_neg h1, recolorIncoming_get]
      by_cases h2 : k ∈ (getIncomingConnections
          { s with nodes := mapSet s.nodes n { node with color := some color } }
          n).map (fun e => e.connectionId)
      · rw [if_pos h2]
        exact Or.inr rfl
      · rw [if_neg h2]
        exact Or.inl rfl

theorem setNodeColorStep_target (color : String) (s : CanvasState)
    (n k : Nat) :
    (mapGet (setNodeColorStep color s n).connections k).map
        (fun c => c.target)
      = (mapGet s.connections k).map (fun c => c.target) := by
  rcases setNodeColorStep_get_or color s n k with h | h
  · rw [h]
  · rw [h, mapTarget_colorMap]

theorem setNodeColorStep_get_listed (color : String) (s : CanvasState)
    (n : Nat) (node : NodeData) (hn : mapGet s.nodes n = some node) (k : Nat)
    (hk : k ∈ (getIncomingConnections s n).map (fun e => e.connectionId)
      ∨ k ∈ (getOutgoingConnections s n).map (fun e => e.connectionId)) :
    mapGet (setNodeColorStep color s n).connections k
      = (mapGet s.connections k).map
          (fun c => { c with color := some color }) := by
  have hin : getIncomingConnections
      { s with nodes := mapSet s.nodes n { node with color := some color } } n
      = getIncomingConnections s n :=
    getIncomingConnections_congr s _ rfl n
  have hout : getOutgoingConnections (recolorIncoming color
      { s with nodes := mapSet s.nodes n { node with color := some color } }
      n) n = getOutgoingConnections s n := by
    refine getOutgoingConnections_congr s _ (by rw [recolorIncoming_outgoing])
      (fun k2 => ?_) n
    rw [recolorIncoming_get]
    by_cases h2 : k2 ∈ (getIncomingConnections
        { s with nodes := mapSet s.nodes n { node with color := some color } }
        n).map (fun e => e.connectionId)
    · rw [if_pos h2, mapTarget_colorMap]
    · rw [if_neg h2]
  rw [setNodeColorStep_eq color s n node hn, recolorOutgoing_get, hout,
    recolorIncoming_get, hin]
  rcases hk with hk | hk
  · by_cases h1 : k ∈ (getOutgoingConnections s n).map
        (fun e => e.connectionId)
    · rw [if_pos h1, if_pos hk, colorMap_idem]
    · rw [if_neg h1, if_pos hk]
  · rw [if_pos hk]
    by_cases h2 : k ∈ (getIncomingConnections s n).map
        (fun e => e.connectionId)
    · rw [if_pos h2, colorMap_idem]
    · rw [if_neg h2]

theorem setNodeColorStep_isSome (color : String) (s : CanvasState)
    (n m : Nat) :
    (mapGet (setNodeColorStep color s n).nodes m).isSome
      = (mapGet s.nodes m).isSome := by
  by_cases hm : m = n
  · subst hm
    cases hn : mapGet s.nodes m with
    | none => rw [setNodeColorStep_none color s m hn, hn]
    | some node => rw [setNodeColorStep_nodes_self color s m node hn]; rfl
  · rw [setNodeColorStep_nodes_ne color s n m hm]

theorem setNodeColorStep_preserves_ConnColored (color : String)
    (s : CanvasState) (n k : Nat) (h : ConnColored s color k) :
    ConnColored (setNodeColorStep color s n) color k := by
  intro c hc
  rcases setNodeColorStep_get_or color s n k with hg | hg
  · rw [hg] at hc
    exact h c hc
  · rw [hg] at hc
    cases h0 : mapGet s.connections k with
    | none =>
      rw [h0] at hc
      simp at hc
    | some c0 =>
      rw [h0] at hc
      simp only [Option.map_some'] at hc
      injection hc with hc
      rw [← hc]

theorem setNodeColorStep_preserves_NodeColored (color : String)
    (s : CanvasState) (n m : Nat) (h : NodeColored s color m) :
    NodeColored (setNodeColorStep color s n) color m := by
  rcases h with ⟨nd, hnd, hcol⟩
  by_cases hm : m = n
  · subst hm
    exact ⟨{ nd with color := some color },
      setNodeColorStep_nodes_self color s m nd hnd, rfl⟩
  · exact ⟨nd, by rw [setNodeColorStep_nodes_ne color s n m hm]; exact hnd,
      hcol⟩

theorem foldSteps_preserves_ConnColored (color : String) (sel : List Nat) :
    ∀ (s : CanvasState) (k : Nat), ConnColored s color k →
      ConnColored (sel.foldl (setNodeColorStep color) s) color k := by
  induction sel with
  | nil => intro s k h; simpa using h
  | cons m rest ih =>
    intro s k h
    simp only [List.foldl_cons]
    exact ih _ _ (setNodeColorStep_preserves_ConnColored color s m k h)

theorem foldSteps_preserves_NodeColored (color : String) (sel : List Nat) :
    ∀ (s : CanvasState) (n : Nat), NodeColored s color n →
      NodeColored (sel.foldl (setNodeColorStep color) s) color n := by
  induction sel with
  | nil => intro s n h; simpa using h
  | cons m rest ih =>
    intro s n h
    simp only [List.foldl_cons]
    exact ih _ _ (setNodeColorStep_preserves_NodeColored color s m n h)

theorem foldSteps_incoming (color : String) (sel : List Nat) :
    ∀ s : CanvasState,
      (sel.foldl (setNodeColorStep color) s).incoming = s.incoming := by
  induction sel with
  | nil => intro s; rfl
  | cons m rest ih =>
    intro s
    simp only [List.foldl_cons]
    rw [ih, setNodeColorStep_incoming]

theorem foldSteps_outgoing (color : String) (sel : List Nat) :
    ∀ s : CanvasState,
      (sel.foldl (setNodeColorStep color) s).outgoing = s.outgoing := by
  induction sel with
  | nil => intro s; rfl
  | cons m rest ih =>
    intro s
    simp only [List.foldl_cons]
    rw [ih, setNodeColorStep_outgoing]

theorem foldSteps_target (color : String) (sel : List Nat) :
    ∀ (s : CanvasState) (k : Nat),
      (mapGet (sel.foldl (setNodeColorStep color) s).connections k).map
        (fun c => c.target)
      = (mapGet s.connections k).map (fun c => c.target) := by
  induction sel with
  | nil => intro s k; rfl
  | cons m rest ih =>
    intro s k
    simp only [List.foldl_cons]
    rw [ih, setNodeColorStep_target]

/-- Core of C6 (amended): after the fold over the selection, every selected
node that was present is colored, and so is every connection the index lists
as incident to it. -/
theorem foldSteps_goal (color : String) (sel : List Nat) :
    ∀ (s : CanvasState) (n : Nat), n ∈ sel →
      (mapGet s.nodes n).isSome = true →
      NodeColored (sel.foldl (setNodeColorStep color) s) color n
      ∧ (∀ k,
          (k ∈ (getIncomingConnections s n).map (fun e => e.connectionId)
            ∨ k ∈ (getOutgoingConnections s n).map (fun e => e.connectionId)) →
          ConnColored (sel.foldl (setNodeColorStep color) s) color k) := by
  induction sel with
  | nil =>
    intro s n hn
    simp at hn
  | cons m rest ih =>
    intro s n hn hsome
    simp only [List.foldl_cons]
    by_cases hnm : n = m
    · subst hnm
      obtain ⟨node, hnode⟩ : ∃ node, mapGet s.nodes n = some node := by
        cases h : mapGet s.nodes n with
        | none => rw [h] at hsome; simp at hsome
        | some node => exact ⟨node, rfl⟩
      constructor
      · exact foldSteps_preserves_NodeColored color rest _ n
          ⟨{ node with color := some color },
            setNodeColorStep_nodes_self color s n node hnode, rfl⟩
      · intro k hk
        have hcol : ConnColored (setNodeColorStep color s n) color k := by
          intro c hc
          rw [setNodeColorStep_get_listed color s n node hnode k hk] at hc
          cases h0 : mapGet s.connections k with
          | none => rw [h0] at hc; simp at hc
          | some c0 =>
            rw [h0] at hc
            simp only [Option.map_some'] at hc
            injection hc with hc
            rw [← hc]
        exact foldSteps_preserves_ConnColored color rest _ k hcol
    · have hnrest : n ∈ rest := by
        rcases List.mem_cons.mp hn with h | h
        · exact absurd h hnm
        · exact h
      have hsome2 :
          (mapGet (setNodeColorStep color s m).nodes n).isSome = true := by
        rw [setNodeColorStep_isSome]
        exact hsome
      have hmain := ih (setNodeColorStep color s m) n hnrest hsome2
      have hin : getIncomingConnections (setNodeColorStep color s m) n
          = getIncomingConnections s n :=
        getIncomingConnections_congr s _ (setNodeColorStep_incoming color s m) n
      have hout : getOutgoingConnections (setNodeColorStep color s m) n
          = getOutgoingConnections s n :=
        getOutgoingConnections_congr s _ (setNodeColorStep_outgoing color s m)
          (fun k2 => setNodeColorStep_target color s m k2) n
      refine ⟨hmain.1, fun k hk => hmain.2 k ?_⟩
      rw [hin, hout]
      exact hk

/-- C6 (counterexample): in `colorScenarioResult` node 2 is selected and
colored `#ff0000` while the other endpoint of its incoming connection 1
(node 1) already carries the color `#00ff00`; the claim's precedence rule
says connection 1 should take `#00ff00`, but the code sets it to the given
color `#ff0000` unconditionally. -/
theorem setSelectedNodesColor_precedence_violated :
    mapGet colorScenarioResult.nodes 1
      = some ⟨1, [], ["out"], (0, 0), false, some "#00ff00"⟩
    ∧ mapGet colorScenarioResult.connections 1
      = some ⟨1, ⟨1, "out"⟩, ⟨2, "in"⟩, some "#ff0000"⟩
    ∧ (some "#ff0000" : Option String) ≠ some "#00ff00" := by
  decide

/-- C6 (amended): `setSelectedNodesColor(color)` sets the color of every
selected (present) node to the given color and sets the color of every
connection the index lists as incident to it — incoming and outgoing — to
that same color unconditionally. -/
theorem setSelectedNodesColor_spec (s : CanvasState) (color : String)
    (hc : color.isEmpty = false) (nodeId : Nat)
    (hmem : nodeId ∈ s.selectedNodes) (nd0 : NodeData)
    (hp : mapGet s.nodes nodeId = some nd0) :
    NodeColored (setSelectedNodesColor s color) color nodeId
    ∧ (∀ e ∈ getIncomingConnections (setSelectedNodesColor s color) nodeId,
        ConnColored (setSelectedNodesColor s color) color e.connectionId)
    ∧ (∀ e ∈ getOutgoingConnections (setSelectedNodesColor s color) nodeId,
        ConnColored (setSelectedNodesColor s color) color e.connectionId) := by
  have hunfold : setSelectedNodesColor s color
      = s.selectedNodes.foldl (setNodeColorStep color) s := by
    unfold setSelectedNodesColor
    rw [hc]
    rfl
  have hgoal := foldSteps_goal color s.selectedNodes s nodeId hmem
    (by rw [hp]; rfl)
  have hin : getIncomingConnections
      (s.selectedNodes.foldl (setNodeColorStep color) s) nodeId
      = getIncomingConnections s nodeId :=
    getIncomingConnections_congr s _ (foldSteps_incoming color s.selectedNodes s)
      nodeId
  have hout : getOutgoingConnections
      (s.selectedNodes.foldl (setNodeColorStep color) s) nodeId
      = getOutgoingConnections s nodeId :=
    getOutgoingConnections_congr s _ (foldSteps_outgoing color s.selectedNodes s)
      (fun k2 => foldSteps_target color s.selectedNodes s k2) nodeId
  rw [hunfold]
  refine ⟨hgoal.1, fun e he => ?_, fun e he => ?_⟩
  · refine hgoal.2 e.connectionId (Or.inl ?_)
    rw [hin] at he
    exact List.mem_map_of_mem _ he
  · refine hgoal.2 e.connectionId (Or.inr ?_)
    rw [hout] at he
    exact List.mem_map_of_mem _ he

/-- Witness for C6 (amended) at the spec's scenario: node 2 selected with one
incoming and one outgoing connection, no endpoint colored; after
`setSelectedNodesColor('#ff0000')` the node and both incident connections
carry `#ff0000`. -/
theorem setSelectedNodesColor_spec_witness :
    NodeColored (setSelectedNodesColor colorWitnessBase "#ff0000") "#ff0000" 2
    ∧ ConnColored (setSelectedNodesColor colorWitnessBase "#ff0000")
        "#ff0000" 1
    ∧ ConnColored (setSelectedNodesColor colorWitnessBase "#ff0000")
        "#ff0000" 2 := by
  have h := setSelectedNodesColor_spec colorWitnessBase "#ff0000" (by decide)
    2 (by decide) ⟨2, ["in"], ["out"], (0, 0), false, none⟩ (by decide)
  exact ⟨h.1, h.2.1 ⟨1, "in", 1, "out"⟩ (by decide),
    h.2.2 ⟨2, "out", 3, "in"⟩ (by decide)⟩

/-- Witness for C8 at a concrete transform: scale 1, wheel up
(`deltaY = 1 > 0` gives scale delta `−0.1`, clamped new scale `0.9 ≠ 1`). -/
theorem handleWheel_anchor_stable_witness :
    viewportToCanvas
        (handleWheel ⟨5, 7, 1⟩ ⟨0, 0, 800, 600⟩ 1) ⟨0, 0, 800, 600⟩ 400 300
      = viewportToCanvas (⟨5, 7, 1⟩ : CanvasTransform) ⟨0, 0, 800, 600⟩ 400 300 := by
  have h := handleWheel_anchor_stable ⟨5, 7, 1⟩ ⟨0, 0, 800, 600⟩ 1
    (by norm_num) (by norm_num)
  have h1 : ((0 : Rat) + 800 / 2) = 400 := by norm_num
  have h2 : ((0 : Rat) + 600 / 2) = 300 := by norm_num
  have := h.1
  simp only [h1, h2] at this
  exact this

/-! ### Counting and indexing helpers for the sorter proofs -/

theorem length_filter_split {α : Type} (l : List α) (p q : α → Bool) :
    (l.filter p).length
      = (l.filter fun a => p a && q a).length
        + (l.filter fun a => p a && !(q a)).length := by
  induction l with
  | nil => simp
  | cons a t ih =>
    cases hp : p a <;> cases hq : q a <;>
      simp [List.filter_cons, hp, hq, ih] <;> omega

theorem posIn_lt_length {l : List Nat} {x : Nat} (h : x ∈ l) :
    posIn l x < l.length := by
  induction l with
  | nil => cases h
  | cons a t ih =>
    by_cases ha : a = x
    · simp [posIn, ha]
    · have hx : x ∈ t := by
        cases List.mem_cons.mp h with
        | inl hh => exact absurd hh.symm ha
        | inr hh => exact hh
      simp only [posIn, if_neg ha, List.length_cons]
      exact Nat.succ_lt_succ (ih hx)

theorem posIn_append_left {l : List Nat} {x : Nat} (h : x ∈ l)
    (l2 : List Nat) : posIn (l ++ l2) x = posIn l x := by
  induction l with
  | nil => cases h
  | cons a t ih =>
    by_cases ha : a = x
    · simp [posIn, ha]
    · have hx : x ∈ t := by
        cases List.mem_cons.mp h with
        | inl hh => exact absurd hh.symm ha
        | inr hh => exact hh
      simp [posIn, ha, ih hx]

theorem posIn_append_self {l : List Nat} {x : Nat} (h : x ∉ l) :
    posIn (l ++ [x]) x = l.length := by
  induction l with
  | nil => simp [posIn]
  | cons a t ih =>
    have ha : ¬ a = x := fun hh => h (hh ▸ List.mem_cons_self a t)
    have ht : x ∉ t := fun hh => h (List.mem_cons_of_mem _ hh)
    simp [posIn, ha, ih ht]

theorem posIn_inj {l : List Nat} {x y : Nat} (hx : x ∈ l) (hy : y ∈ l)
    (h : posIn l x = posIn l y) : x = y := by
  induction l with
  | nil => cases hx
  | cons a t ih =>
    by_cases hax : a = x <;> by_cases hay : a = y
    · exact hax.symm.trans hay
    · have h0 : posIn (a :: t) x = 0 := by simp [posIn, hax]
      have h1 : posIn (a :: t) y = posIn t y + 1 := by simp [posIn, hay]
      rw [h0, h1] at h
      exact absurd h.symm (Nat.succ_ne_zero _)
    · have h0 : posIn (a :: t) y = 0 := by simp [posIn, hay]
      have h1 : posIn (a :: t) x = posIn t x + 1 := by simp [posIn, hax]
      rw [h0, h1] at h
      exact absurd h (Nat.succ_ne_zero _)
    · have hxt : x ∈ t := by
        cases List.mem_cons.mp hx with
        | inl hh => exact absurd hh.symm hax
        | inr hh => exact hh
      have hyt : y ∈ t := by
        cases List.mem_cons.mp hy with
        | inl hh => exact absurd hh.symm hay
        | inr hh => exact hh
      have h1 : posIn (a :: t) x = posIn t x + 1 := by simp [posIn, hax]
      have h2 : posIn (a :: t) y = posIn t y + 1 := by simp [posIn, hay]
      rw [h1, h2, Nat.add_right_cancel_iff] at h
      exact ih hxt hyt h

theorem mapSet_keys_of_get_none {α β : Type} [DecidableEq α]
    {m : List (α × β)} {k : α} (h : mapGet m k = none) (v : β) :
    (mapSet m k v).map Prod.fst = m.map Prod.fst ++ [k] := by
  induction m with
  | nil => simp [mapSet]
  | cons q rest ih =>
    by_cases hq : q.1 = k
    · simp [mapGet, hq] at h
    · simp only [mapGet, if_neg hq] at h
      simp [mapSet, hq, ih h]

/-! ### Characterization of the maps `computeExecutionOrder` builds -/

theorem foldSet_get {α : Type} (x : α) :
    ∀ (N : List Nat) (m : List (Nat × α)) (v : Nat),
      mapGet ((N.map (fun i => (i, x))).foldl
          (fun m2 p => mapSet m2 p.1 p.2) m) v
        = if v ∈ N then some x else mapGet m v := by
  intro N
  induction N with
  | nil => intro m v; simp
  | cons a t ih =>
    intro m v
    simp only [List.map_cons, List.foldl_cons]
    rw [ih]
    by_cases hv : v ∈ t
    · simp [hv]
    · by_cases hva : a = v
      · subst hva
        simp [hv, mapGet_mapSet_self]
      · have hne : ¬ v ∈ a :: t := by
          intro hmem
          cases List.mem_cons.mp hmem with
          | inl hh => exact hva hh.symm
          | inr hh => exact hv hh
        simp [hv, hne, mapGet_mapSet_ne m a v x hva]

theorem buildMap_get {α : Type} (N : List Nat) (x : α) (v : Nat) :
    mapGet (buildMap (N.map (fun i => (i, x)))) v
      = if v ∈ N then some x else none := by
  unfold buildMap
  rw [foldSet_get]
  by_cases hv : v ∈ N <;> simp [hv, mapGet]

theorem foldSet_keys {α : Type} (x : α) :
    ∀ (N : List Nat) (m : List (Nat × α)),
      (∀ i ∈ N, mapGet m i = none) → N.Nodup →
      ((N.map (fun i => (i, x))).foldl
          (fun m2 p => mapSet m2 p.1 p.2) m).map Prod.fst
        = m.map Prod.fst ++ N := by
  intro N
  induction N with
  | nil => intro m _ _; simp
  | cons a t ih =>
    intro m hnone hnd
    simp only [List.map_cons, List.foldl_cons]
    have ha : mapGet m a = none := hnone a (List.mem_cons_self a t)
    have hstep : ∀ i ∈ t, mapGet (mapSet m a x) i = none := by
      intro i hi
      have hne : a ≠ i := by
        intro hh
        subst hh
        exact (List.nodup_cons.mp hnd).1 hi
      rw [mapGet_mapSet_ne m a i x hne]
      exact hnone i (List.mem_cons_of_mem _ hi)
    rw [ih (mapSet m a x) hstep (List.nodup_cons.mp hnd).2,
      mapSet_keys_of_get_none ha]
    simp

theorem buildMap_keys {α : Type} (N : List Nat) (x : α) (hnd : N.Nodup) :
    (buildMap (N.map (fun i => (i, x)))).map Prod.fst = N := by
  unfold buildMap
  rw [foldSet_keys x N [] (fun i _ => rfl) hnd]
  simp

/-- Characterization of the `connections.forEach` fold: with every endpoint
among the keys, the in-degree entry of `v` grows by the number of
connections into `v` and the adjacency entry of `u` is extended by the
targets of the connections out of `u`, in order; the key lists are
untouched. -/
theorem foldConn_spec (N : List Nat) :
    ∀ (Es : List (Nat × Nat)) (st : List (Nat × Int) × List (Nat × List Nat))
      (g : Nat → Int) (a : Nat → List Nat),
      (∀ c ∈ Es, c.1 ∈ N ∧ c.2 ∈ N) →
      (∀ v, mapGet st.1 v = if v ∈ N then some (g v) else none) →
      (∀ u, mapGet st.2 u = if u ∈ N then some (a u) else none) →
      (∀ v, mapGet (Es.foldl addConnDeg st).1 v
          = if v ∈ N then
              some (g v + ((Es.filter (fun c => decide (c.2 = v))).length : Int))
            else none)
        ∧ (∀ u, mapGet (Es.foldl addConnDeg st).2 u
          = if u ∈ N then
              some (a u ++ (Es.filter (fun c => decide (c.1 = u))).map Prod.snd)
            else none)
        ∧ (Es.foldl addConnDeg st).1.map Prod.fst = st.1.map Prod.fst
        ∧ (Es.foldl addConnDeg st).2.map Prod.fst = st.2.map Prod.fst := by
  intro Es
  induction Es with
  | nil =>
    intro st g a _ hInd hAdj
    refine ⟨fun v => ?_, fun u => ?_, rfl, rfl⟩
    · simp only [List.foldl_nil]
      rw [hInd v]
      by_cases hv : v ∈ N <;> simp [hv]
    · simp only [List.foldl_nil]
      rw [hAdj u]
      by_cases hu : u ∈ N <;> simp [hu]
  | cons c Es ih =>
    intro st g a hends hInd hAdj
    have hc1 : c.1 ∈ N := (hends c (List.mem_cons_self c Es)).1
    have hc2 : c.2 ∈ N := (hends c (List.mem_cons_self c Es)).2
    have hends2 : ∀ e ∈ Es, e.1 ∈ N ∧ e.2 ∈ N :=
      fun e he => hends e (List.mem_cons_of_mem _ he)
    have hhas : mapHas st.2 c.1 = true := by
      unfold mapHas
      rw [hAdj c.1, if_pos hc1]
      rfl
    have hind1 : (addConnDeg st c).1 = mapSet st.1 c.2 (g c.2 + 1) := by
      show mapSet st.1 c.2 (((mapGet st.1 c.2).getD 0) + 1) = _
      rw [hInd c.2, if_pos hc2]
      rfl
    have hadj1 : (addConnDeg st c).2 = mapSet st.2 c.1 (a c.1 ++ [c.2]) := by
      show mapSet (if mapHas st.2 c.1 = true then st.2 else mapSet st.2 c.1 [])
          c.1
          (((mapGet (if mapHas st.2 c.1 = true then st.2
              else mapSet st.2 c.1 []) c.1).getD []) ++ [c.2]) = _
      rw [if_pos hhas, hAdj c.1, if_pos hc1]
      rfl
    have hstep1 : ∀ v, mapGet (addConnDeg st c).1 v
        = if v ∈ N then some (if v = c.2 then g v + 1 else g v) else none := by
      intro v
      rw [hind1]
      by_cases hv : v = c.2
      · subst hv
        rw [mapGet_mapSet_self, if_pos hc2, if_pos rfl]
      · rw [mapGet_mapSet_ne st.1 c.2 v _ (fun hh => hv hh.symm), hInd v]
        by_cases hvN : v ∈ N <;> simp [hvN, hv]
    have hstep2 : ∀ u, mapGet (addConnDeg st c).2 u
        = if u ∈ N then some (if u = c.1 then a u ++ [c.2] else a u)
          else none := by
      intro u
      rw [hadj1]
      by_cases hu : u = c.1
      · subst hu
        rw [mapGet_mapSet_self, if_pos hc1, if_pos rfl]
      · rw [mapGet_mapSet_ne st.2 c.1 u _ (fun hh => hu hh.symm), hAdj u]
        by_cases huN : u ∈ N <;> simp [huN, hu]
    have hkey1 : (addConnDeg st c).1.map Prod.fst = st.1.map Prod.fst := by
      rw [hind1]
      exact mapSet_keys_of_get_some (by rw [hInd c.2, if_pos hc2]) _
    have hkey2 : (addConnDeg st c).2.map Prod.fst = st.2.map Prod.fst := by
      rw [hadj1]
      exact mapSet_keys_of_get_some (by rw [hAdj c.1, if_pos hc1]) _
    obtain ⟨ih1, ih2, ih3, ih4⟩ :=
      ih (addConnDeg st c)
        (fun v => if v = c.2 then g v + 1 else g v)
        (fun u => if u = c.1 then a u ++ [c.2] else a u)
        hends2 hstep1 hstep2
    have hfold : (c :: Es).foldl addConnDeg st = Es.foldl addConnDeg (addConnDeg st c) := rfl
    refine ⟨fun v => ?_, fun u => ?_, ?_, ?_⟩
    · rw [hfold, ih1 v]
      by_cases hvN : v ∈ N
      · by_cases hv : v = c.2
        · have hflt :
              (List.filter (fun c2 => decide (c2.2 = v)) (c :: Es)).length
                = (List.filter (fun c2 => decide (c2.2 = v)) Es).length + 1 := by
            simp [List.filter_cons, hv]
          rw [if_pos hvN, if_pos hvN, hflt, if_pos hv]
          congr 1
          push_cast
          ring
        · have hv2 : ¬ c.2 = v := fun hh => hv hh.symm
          have hflt : List.filter (fun c2 => decide (c2.2 = v)) (c :: Es)
              = List.filter (fun c2 => decide (c2.2 = v)) Es := by
            simp [List.filter_cons, hv2]
          rw [if_pos hvN, if_pos hvN, hflt, if_neg hv]
      · rw [if_neg hvN, if_neg hvN]
    · rw [hfold, ih2 u]
      by_cases huN : u ∈ N
      · by_cases hu : u = c.1
        · have hflt : List.filter (fun c2 => decide (c2.1 = u)) (c :: Es)
              = c :: List.filter (fun c2 => decide (c2.1 = u)) Es := by
            simp [List.filter_cons, hu]
          rw [if_pos huN, if_pos huN, hflt, if_pos hu]
          simp
        · have hu2 : ¬ c.1 = u := fun hh => hu hh.symm
          have hflt : List.filter (fun c2 => decide (c2.1 = u)) (c :: Es)
              = List.filter (fun c2 => decide (c2.1 = u)) Es := by
            simp [List.filter_cons, hu2]
          rw [if_pos huN, if_pos huN, hflt, if_neg hu]
      · rw [if_neg huN, if_neg huN]
    · rw [hfold, ih3, hkey1]
    · rw [hfold, ih4, hkey2]

/-! ### `processNeighbors` and the loop measure -/

theorem posSum_cons (p : Nat × Int) (m : List (Nat × Int)) :
    posSum (p :: m) = p.2.toNat + posSum m := by
  simp [posSum]

theorem posSum_mapSet (m : List (Nat × Int)) (k : Nat) (v : Int) :
    posSum (mapSet m k v) + ((mapGet m k).getD 0).toNat
      = posSum m + v.toNat := by
  induction m with
  | nil => simp [mapSet, mapGet, posSum]
  | cons p rest ih =>
    by_cases hp : p.1 = k
    · have e1 : mapSet (p :: rest) k v = (k, v) :: rest := by
        simp [mapSet, hp]
      have e2 : mapGet (p :: rest) k = some p.2 := by
        simp [mapGet, hp]
      rw [e1, e2, posSum_cons, posSum_cons]
      simp only [Option.getD_some]
      omega
    · have e1 : mapSet (p :: rest) k v = p :: mapSet rest k v := by
        simp [mapSet, hp]
      have e2 : mapGet (p :: rest) k = mapGet rest k := by
        simp [mapGet, hp]
      rw [e1, e2, posSum_cons, posSum_cons]
      omega

theorem processNeighbors_posSum (vs : List Nat) :
    ∀ ind : List (Nat × Int),
      posSum (processNeighbors ind vs).1 + (processNeighbors ind vs).2.length
        ≤ posSum ind := by
  induction vs with
  | nil => intro ind; simp [processNeighbors]
  | cons v rest ih =>
    intro ind
    have hms := posSum_mapSet ind v (((mapGet ind v).getD 0) - 1)
    have ihh := ih (mapSet ind v (((mapGet ind v).getD 0) - 1))
    simp only [processNeighbors, List.length_append]
    by_cases hd : ((mapGet ind v).getD 0) - 1 = 0
    · rw [if_pos hd]
      simp only [List.length_cons, List.length_nil]
      omega
    · rw [if_neg hd]
      simp only [List.length_nil]
      omega

theorem kahnLoopF_isSome (adj : List (Nat × List Nat)) :
    ∀ (fuel : Nat) (ind : List (Nat × Int)) (pending order : List Nat),
      posSum ind + pending.length ≤ fuel →
      (kahnLoopF adj fuel ind pending order).isSome = true := by
  intro fuel
  induction fuel with
  | zero =>
    intro ind pending order h
    have hp : pending = [] := by
      cases pending with
      | nil => rfl
      | cons a t =>
        exfalso
        simp only [List.length_cons] at h
        omega
    subst hp
    simp [kahnLoopF]
  | succ fuel ih =>
    intro ind pending order h
    cases pending with
    | nil => simp [kahnLoopF]
    | cons u rest =>
      simp only [kahnLoopF]
      apply ih
      have hpn := processNeighbors_posSum ((mapGet adj u).getD []) ind
      simp only [List.length_append]
      simp only [List.length_cons] at h
      omega

theorem processNeighbors_get (vs : List Nat) :
    ∀ ind : List (Nat × Int),
      (∀ x ∈ vs, (mapGet ind x).isSome = true) →
      ∀ y, mapGet (processNeighbors ind vs).1 y
        = (mapGet ind y).map (fun d => d - (vs.count y : Int)) := by
  induction vs with
  | nil =>
    intro ind _ y
    simp only [processNeighbors, List.count_nil, Nat.cast_zero]
    cases mapGet ind y <;> simp
  | cons v rest ih =>
    intro ind hs y
    obtain ⟨d0, hd0⟩ : ∃ d0, mapGet ind v = some d0 := by
      have hsv := hs v (List.mem_cons_self v rest)
      cases hm : mapGet ind v with
      | none => rw [hm] at hsv; simp at hsv
      | some d => exact ⟨d, rfl⟩
    have hs2 : ∀ x ∈ rest,
        (mapGet (mapSet ind v (((mapGet ind v).getD 0) - 1)) x).isSome
          = true := by
      intro x hx
      by_cases hxv : x = v
      · rw [hxv, mapGet_mapSet_self]
        rfl
      · rw [mapGet_mapSet_ne ind v x _ (fun hh => hxv hh.symm)]
        exact hs x (List.mem_cons_of_mem _ hx)
    have hrec := ih (mapSet ind v (((mapGet ind v).getD 0) - 1)) hs2 y
    simp only [processNeighbors]
    rw [hrec]
    by_cases hyv : y = v
    · rw [hyv, mapGet_mapSet_self, hd0]
      have hgd : ((some d0).getD 0 : Int) = d0 := rfl
      rw [hgd, List.count_cons_self]
      simp only [Option.map_some']
      congr 1
      push_cast
      ring
    · rw [mapGet_mapSet_ne ind v y _ (fun hh => hyv hh.symm),
        List.count_cons_of_ne (fun hh => hyv hh)]

theorem processNeighbors_mem (vs : List Nat) :
    ∀ ind : List (Nat × Int),
      (∀ x ∈ vs, (mapGet ind x).isSome = true) →
      ∀ y, (y ∈ (processNeighbors ind vs).2
        ↔ ∃ d, mapGet ind y = some d ∧ 1 ≤ d ∧ d ≤ (vs.count y : Int)) := by
  induction vs with
  | nil =>
    intro ind _ y
    simp only [processNeighbors, List.not_mem_nil, List.count_nil,
      Nat.cast_zero, false_iff]
    rintro ⟨d, _, h1, h2⟩
    omega
  | cons v rest ih =>
    intro ind hs y
    obtain ⟨d0, hd0⟩ : ∃ d0, mapGet ind v = some d0 := by
      have hsv := hs v (List.mem_cons_self v rest)
      cases hm : mapGet ind v with
      | none => rw [hm] at hsv; simp at hsv
      | some d => exact ⟨d, rfl⟩
    have hs2 : ∀ x ∈ rest,
        (mapGet (mapSet ind v (((mapGet ind v).getD 0) - 1)) x).isSome
          = true := by
      intro x hx
      by_cases hxv : x = v
      · rw [hxv, mapGet_mapSet_self]
        rfl
      · rw [mapGet_mapSet_ne ind v x _ (fun hh => hxv hh.symm)]
        exact hs x (List.mem_cons_of_mem _ hx)
    have hrec := ih (mapSet ind v (((mapGet ind v).getD 0) - 1)) hs2 y
    have hA : ((mapGet ind v).getD 0) = d0 := by rw [hd0]; rfl
    simp only [processNeighbors, List.mem_append]
    constructor
    · intro hmem
      cases hmem with
      | inl hin =>
        by_cases hd : ((mapGet ind v).getD 0) - 1 = 0
        · rw [if_pos hd] at hin
          have hyv : y = v := by simpa using hin
          refine ⟨d0, by rw [hyv]; exact hd0, by omega, ?_⟩
          rw [hyv, List.count_cons_self]
          push_cast
          omega
        · rw [if_neg hd] at hin
          simp at hin
      | inr hin =>
        obtain ⟨d2, hd2, h1, h2⟩ := hrec.mp hin
        by_cases hyv : y = v
        · rw [hyv, mapGet_mapSet_self] at hd2
          have hd2e : d2 = d0 - 1 := by
            have hinj := Option.some.inj hd2
            omega
          rw [hyv] at h2
          refine ⟨d0, by rw [hyv]; exact hd0, by omega, ?_⟩
          rw [hyv, List.count_cons_self]
          push_cast
          omega
        · rw [mapGet_mapSet_ne ind v y _ (fun hh => hyv hh.symm)] at hd2
          refine ⟨d2, hd2, h1, ?_⟩
          rw [List.count_cons_of_ne (fun hh => hyv hh)]
          exact h2
    · rintro ⟨d, hd, h1, h2⟩
      by_cases hyv : y = v
      · have hdd : d = d0 := by
          rw [hyv, hd0] at hd
          exact (Option.some.inj hd).symm
        rw [hdd] at h1 h2
        rw [hyv, List.count_cons_self] at h2
        push_cast at h2
        by_cases hone : d0 = 1
        · left
          have hz : ((mapGet ind v).getD 0) - 1 = 0 := by omega
          rw [if_pos hz, hyv]
          simp
        · right
          rw [hyv] at hrec ⊢
          apply hrec.mpr
          refine ⟨d0 - 1, ?_, by omega, by omega⟩
          rw [mapGet_mapSet_self, hA]
      · right
        apply hrec.mpr
        refine ⟨d, ?_, h1, ?_⟩
        · rw [mapGet_mapSet_ne ind v y _ (fun hh => hyv hh.symm)]
          exact hd
        · rw [List.count_cons_of_ne (fun hh => hyv hh)] at h2
          exact h2

theorem processNeighbors_nodup (vs : List Nat) :
    ∀ ind : List (Nat × Int),
      (∀ x ∈ vs, (mapGet ind x).isSome = true) →
      (processNeighbors ind vs).2.Nodup := by
  induction vs with
  | nil => intro ind _; simp [processNeighbors]
  | cons v rest ih =>
    intro ind hs
    have hs2 : ∀ x ∈ rest,
        (mapGet (mapSet ind v (((mapGet ind v).getD 0) - 1)) x).isSome
          = true := by
      intro x hx
      by_cases hxv : x = v
      · rw [hxv, mapGet_mapSet_self]
        rfl
      · rw [mapGet_mapSet_ne ind v x _ (fun hh => hxv hh.symm)]
        exact hs x (List.mem_cons_of_mem _ hx)
    have hnd := ih (mapSet ind v (((mapGet ind v).getD 0) - 1)) hs2
    simp only [processNeighbors]
    by_cases hd : ((mapGet ind v).getD 0) - 1 = 0
    · rw [if_pos hd]
      simp only [List.singleton_append, List.nodup_cons]
      refine ⟨?_, hnd⟩
      intro hv
      obtain ⟨d2, hd2, h1, _⟩ :=
        (processNeighbors_mem rest _ hs2 v).mp hv
      rw [mapGet_mapSet_self] at hd2
      have := Option.some.inj hd2
      omega
    · rw [if_neg hd]
      simpa using hnd

theorem processNeighbors_sub (vs : List Nat) (ind : List (Nat × Int))
    (hs : ∀ x ∈ vs, (mapGet ind x).isSome = true) :
    ∀ y ∈ (processNeighbors ind vs).2, y ∈ vs := by
  intro y hy
  obtain ⟨d, _, h1, h2⟩ := (processNeighbors_mem vs ind hs y).mp hy
  have hc : 0 < vs.count y := by omega
  exact List.count_pos_iff.mp hc

/-! ### The Kahn loop invariant -/

theorem inCnt_le_append (E : List (Nat × Nat)) (done extra : List Nat)
    (v : Nat) : inCnt E (done ++ extra) v ≤ inCnt E done v := by
  unfold inCnt
  rw [← List.countP_eq_length_filter, ← List.countP_eq_length_filter]
  apply List.countP_mono_left
  intro c _ hc
  simp only [decide_eq_true_eq] at hc ⊢
  exact ⟨hc.1, fun hmem => hc.2 (List.mem_append.mpr (Or.inl hmem))⟩

theorem inCnt_append_single (E : List (Nat × Nat)) (done : List Nat)
    (u v : Nat) (hu : u ∉ done) :
    inCnt E done v
      = inCnt E (done ++ [u]) v
        + (E.filter (fun c => decide (c.1 = u ∧ c.2 = v))).length := by
  have hsplit := length_filter_split E
    (fun c => decide (c.2 = v ∧ c.1 ∉ done)) (fun c => decide (c.1 = u))
  have h1 : E.filter (fun c =>
        decide (c.2 = v ∧ c.1 ∉ done) && decide (c.1 = u))
      = E.filter (fun c => decide (c.1 = u ∧ c.2 = v)) := by
    apply List.filter_congr
    intro c _
    by_cases h2 : c.2 = v <;> by_cases h4 : c.1 = u <;>
      simp [h2, h4, hu]
  have h2 : E.filter (fun c =>
        decide (c.2 = v ∧ c.1 ∉ done) && !(decide (c.1 = u)))
      = E.filter (fun c => decide (c.2 = v ∧ c.1 ∉ done ++ [u])) := by
    apply List.filter_congr
    intro c _
    by_cases h3 : c.2 = v <;> by_cases h4 : c.1 ∈ done <;>
      by_cases h5 : c.1 = u <;> simp [h3, h4, h5, List.mem_append]
  unfold inCnt
  rw [hsplit, h1, h2]
  omega

theorem inCnt_zero_source (E : List (Nat × Nat)) {done : List Nat} {v : Nat}
    (h : inCnt E done v = 0) :
    ∀ e ∈ E, e.2 = v → e.1 ∈ done := by
  intro e he h2
  by_contra hnot
  have hmem : e ∈ E.filter (fun c => decide (c.2 = v ∧ c.1 ∉ done)) :=
    List.mem_filter.mpr ⟨he, by simp [h2, hnot]⟩
  unfold inCnt at h
  rw [List.length_eq_zero] at h
  rw [h] at hmem
  cases hmem

theorem count_targets (E : List (Nat × Nat)) (u v : Nat) :
    ((E.filter (fun c => decide (c.1 = u))).map Prod.snd).count v
      = (E.filter (fun c => decide (c.1 = u ∧ c.2 = v))).length := by
  induction E with
  | nil => simp
  | cons c Es ih =>
    by_cases h1 : c.1 = u
    · by_cases h2 : c.2 = v
      · simp only [List.filter_cons, h1, h2, decide_True, and_self,
          if_true, List.map_cons, decide_eq_true_eq]
        rw [List.count_cons_self, List.length_cons, ih]
      · simp only [List.filter_cons]
        rw [if_pos (by simp [h1]), if_neg (by simp [h2])]
        simp only [List.map_cons]
        rw [List.count_cons_of_ne (fun hh => h2 (hh.symm)), ih]
    · simp only [List.filter_cons]
      rw [if_neg (by simp [h1]), if_neg (by simp [h1]), ih]

theorem kahnLoopF_inv (N : List Nat) (E : List (Nat × Nat))
    (adj : List (Nat × List Nat))
    (hadj : ∀ u, mapGet adj u = if u ∈ N then
        some ((E.filter (fun c => decide (c.1 = u))).map Prod.snd) else none)
    (hE : ∀ c ∈ E, c.1 ∈ N ∧ c.2 ∈ N) :
    ∀ (fuel : Nat) (ind : List (Nat × Int)) (pending order res : List Nat),
      KahnInv N E ind pending order →
      kahnLoopF adj fuel ind pending order = some res →
      ∃ indF, KahnInv N E indF [] res := by
  intro fuel
  induction fuel with
  | zero =>
    intro ind pending order res hinv hrun
    cases pending with
    | nil =>
      simp only [kahnLoopF, List.isEmpty_nil, if_true] at hrun
      obtain rfl : order = res := Option.some.inj hrun
      exact ⟨ind, hinv⟩
    | cons a t =>
      simp [kahnLoopF] at hrun
  | succ fuel ih =>
    intro ind pending order res hinv hrun
    cases pending with
    | nil =>
      simp only [kahnLoopF] at hrun
      obtain rfl : order = res := Option.some.inj hrun
      exact ⟨ind, hinv⟩
    | cons u rest =>
      simp only [kahnLoopF] at hrun
      obtain ⟨hcnt, hnd, hsub, hiff, hprec⟩ := hinv
      have huseen : u ∈ order ++ u :: rest := by simp
      have huN : u ∈ N := hsub u huseen
      have hns : (mapGet adj u).getD []
          = (E.filter (fun c => decide (c.1 = u))).map Prod.snd := by
        rw [hadj u, if_pos huN]
        rfl
      have hnsN : ∀ v ∈ (mapGet adj u).getD [], v ∈ N := by
        rw [hns]
        intro v hv
        obtain ⟨c, hc, hcv⟩ := List.mem_map.mp hv
        have hcE := (List.mem_filter.mp hc).1
        exact hcv ▸ (hE c hcE).2
      have hkeys : ∀ x ∈ (mapGet adj u).getD [],
          (mapGet ind x).isSome = true := by
        intro x hx
        rw [hcnt x, if_pos (hnsN x hx)]
        rfl
      have hunotord : u ∉ order := by
        intro hmem
        rw [List.nodup_append] at hnd
        exact hnd.2.2 hmem (List.mem_cons_self u rest)
      have hiu : inCnt E order u = 0 := (hiff u huN).mp huseen
      have hCNT : ∀ v, inCnt E order v
          = inCnt E (order ++ [u]) v
            + (E.filter (fun c => decide (c.1 = u ∧ c.2 = v))).length :=
        fun v => inCnt_append_single E order u v hunotord
      have hcount : ∀ v, ((mapGet adj u).getD []).count v
          = (E.filter (fun c => decide (c.1 = u ∧ c.2 = v))).length := by
        intro v
        rw [hns]
        exact count_targets E u v
      have hget := processNeighbors_get ((mapGet adj u).getD []) ind hkeys
      have hcnt2 : ∀ v,
          mapGet (processNeighbors ind ((mapGet adj u).getD [])).1 v
            = if v ∈ N then some ((inCnt E (order ++ [u]) v : Int))
              else none := by
        intro v
        rw [hget v, hcnt v]
        by_cases hvN : v ∈ N
        · rw [if_pos hvN, if_pos hvN]
          simp only [Option.map_some']
          congr 1
          have e1 := hCNT v
          have e2 := hcount v
          omega
        · rw [if_neg hvN, if_neg hvN]
          rfl
      have hmem := processNeighbors_mem ((mapGet adj u).getD []) ind hkeys
      have hprmem : ∀ y,
          (y ∈ (processNeighbors ind ((mapGet adj u).getD [])).2
            ↔ (y ∈ N ∧ inCnt E order y ≠ 0
                ∧ inCnt E (order ++ [u]) y = 0)) := by
        intro y
        rw [hmem y]
        constructor
        · rintro ⟨d, hd, h1, h2⟩
          by_cases hyN : y ∈ N
          · rw [hcnt y, if_pos hyN] at hd
            have hde : d = (inCnt E order y : Int) := (Option.some.inj hd).symm
            have e1 := hCNT y
            have e2 := hcount y
            refine ⟨hyN, by omega, by omega⟩
          · rw [hcnt y, if_neg hyN] at hd
            cases hd
        · rintro ⟨hyN, hne, hzero⟩
          have e1 := hCNT y
          have e2 := hcount y
          exact ⟨(inCnt E order y : Int), by rw [hcnt y, if_pos hyN],
            by omega, by omega⟩
      have hprnd := processNeighbors_nodup ((mapGet adj u).getD []) ind hkeys
      have hnd2 : ((order ++ [u])
          ++ (rest ++ (processNeighbors ind ((mapGet adj u).getD [])).2)).Nodup := by
        have hre : (order ++ [u])
            ++ (rest ++ (processNeighbors ind ((mapGet adj u).getD [])).2)
            = (order ++ u :: rest)
              ++ (processNeighbors ind ((mapGet adj u).getD [])).2 := by
          simp
        rw [hre, List.nodup_append]
        refine ⟨hnd, hprnd, ?_⟩
        intro a ha hapr
        obtain ⟨haN, hane, _⟩ := (hprmem a).mp hapr
        exact hane ((hiff a haN).mp ha)
      have hsub2 : ∀ x ∈ (order ++ [u])
          ++ (rest ++ (processNeighbors ind ((mapGet adj u).getD [])).2),
          x ∈ N := by
        intro x hx
        rcases List.mem_append.mp hx with hx1 | hx2
        · rcases List.mem_append.mp hx1 with h | h
          · exact hsub x (List.mem_append.mpr (Or.inl h))
          · have hxu : x = u := by simpa using h
            exact hxu ▸ huN
        · rcases List.mem_append.mp hx2 with h | h
          · exact hsub x (List.mem_append.mpr
              (Or.inr (List.mem_cons_of_mem _ h)))
          · exact ((hprmem x).mp h).1
      have hiff2 : ∀ v ∈ N, (v ∈ (order ++ [u])
          ++ (rest ++ (processNeighbors ind ((mapGet adj u).getD [])).2)
          ↔ inCnt E (order ++ [u]) v = 0) := by
        intro v hvN
        constructor
        · intro hv
          have hcases : v ∈ order ++ u :: rest
              ∨ v ∈ (processNeighbors ind ((mapGet adj u).getD [])).2 := by
            rcases List.mem_append.mp hv with h1 | h2
            · rcases List.mem_append.mp h1 with h | h
              · exact Or.inl (List.mem_append.mpr (Or.inl h))
              · have hvu : v = u := by simpa using h
                exact Or.inl (List.mem_append.mpr
                  (Or.inr (hvu ▸ List.mem_cons_self u rest)))
            · rcases List.mem_append.mp h2 with h | h
              · exact Or.inl (List.mem_append.mpr
                  (Or.inr (List.mem_cons_of_mem _ h)))
              · exact Or.inr h
          cases hcases with
          | inl h =>
            have h0 : inCnt E order v = 0 := (hiff v hvN).mp h
            have hle := inCnt_le_append E order [u] v
            omega
          | inr h => exact ((hprmem v).mp h).2.2
        · intro h0
          by_cases hold : inCnt E order v = 0
          · have hv : v ∈ order ++ u :: rest := (hiff v hvN).mpr hold
            rcases List.mem_append.mp hv with h | h
            · exact List.mem_append.mpr
                (Or.inl (List.mem_append.mpr (Or.inl h)))
            · rcases List.mem_cons.mp h with h | h
              · exact List.mem_append.mpr
                  (Or.inl (List.mem_append.mpr (Or.inr (by simp [h]))))
              · exact List.mem_append.mpr
                  (Or.inr (List.mem_append.mpr (Or.inl h)))
          · have hvpr := (hprmem v).mpr ⟨hvN, hold, h0⟩
            exact List.mem_append.mpr
              (Or.inr (List.mem_append.mpr (Or.inr hvpr)))
      have hprec2 : ∀ e ∈ E, e.2 ∈ order ++ [u] →
          e.1 ∈ order ++ [u]
            ∧ posIn (order ++ [u]) e.1 < posIn (order ++ [u]) e.2 := by
        intro e he hmem2
        rcases List.mem_append.mp hmem2 with h | h
        · obtain ⟨h1, h2⟩ := hprec e he h
          refine ⟨List.mem_append.mpr (Or.inl h1), ?_⟩
          rw [posIn_append_left h1, posIn_append_left h]
          exact h2
        · have heu : e.2 = u := by simpa using h
          have hsrc : e.1 ∈ order := inCnt_zero_source E (heu ▸ hiu) e he heu
          refine ⟨List.mem_append.mpr (Or.inl hsrc), ?_⟩
          rw [posIn_append_left hsrc, heu, posIn_append_self hunotord]
          exact posIn_lt_length hsrc
      exact ih _ _ _ res ⟨hcnt2, hnd2, hsub2, hiff2, hprec2⟩ hrun

/-! ### The initial state of the sorter and its overall contract -/

theorem filterMap_queue_nodup {β : Type} (P : β → Prop) [DecidablePred P]
    (m : List (Nat × β)) (h : (m.map Prod.fst).Nodup) :
    (m.filterMap (fun p => if P p.2 then some p.1 else none)).Nodup := by
  induction m with
  | nil => simp
  | cons p rest ih =>
    simp only [List.map_cons, List.nodup_cons] at h
    by_cases hf : P p.2
    · have he : List.filterMap
          (fun q => if P q.2 then some q.1 else none) (p :: rest)
          = p.1 :: List.filterMap
              (fun q => if P q.2 then some q.1 else none) rest := by
        rw [List.filterMap_cons]
        simp [hf]
      rw [he, List.nodup_cons]
      refine ⟨?_, ih h.2⟩
      intro hmem
      obtain ⟨q, hq, hq2⟩ := List.mem_filterMap.mp hmem
      by_cases hfq : P q.2
      · rw [if_pos hfq] at hq2
        exact h.1 ((Option.some.inj hq2) ▸ List.mem_map_of_mem Prod.fst hq)
      · rw [if_neg hfq] at hq2
        cases hq2
    · have he : List.filterMap
          (fun q => if P q.2 then some q.1 else none) (p :: rest)
          = List.filterMap
              (fun q => if P q.2 then some q.1 else none) rest := by
        rw [List.filterMap_cons]
        simp [hf]
      rw [he]
      exact ih h.2

theorem filterMap_queue_sub {β : Type} (P : β → Prop) [DecidablePred P]
    (m : List (Nat × β)) :
    ∀ x ∈ m.filterMap (fun p => if P p.2 then some p.1 else none),
      x ∈ m.map Prod.fst := by
  intro x hx
  obtain ⟨q, hq, hq2⟩ := List.mem_filterMap.mp hx
  by_cases hfq : P q.2
  · rw [if_pos hfq] at hq2
    exact (Option.some.inj hq2) ▸ List.mem_map_of_mem Prod.fst hq
  · rw [if_neg hfq] at hq2
    cases hq2

theorem filterMap_queue_mem {β : Type} (P : β → Prop) [DecidablePred P]
    (m : List (Nat × β)) (hnd : (m.map Prod.fst).Nodup) (v : Nat) :
    (v ∈ m.filterMap (fun p => if P p.2 then some p.1 else none)
      ↔ ∃ b, mapGet m v = some b ∧ P b) := by
  constructor
  · intro hx
    obtain ⟨q, hq, hq2⟩ := List.mem_filterMap.mp hx
    by_cases hfq : P q.2
    · rw [if_pos hfq] at hq2
      have hv : q.1 = v := Option.some.inj hq2
      have hget := mem_mapGet_of_nodup hnd hq
      rw [hv] at hget
      exact ⟨q.2, hget, hfq⟩
    · rw [if_neg hfq] at hq2
      cases hq2
  · rintro ⟨b, hb, hf⟩
    apply List.mem_filterMap.mpr
    exact ⟨(v, b), mapGet_eq_some_mem hb, by simp [hf]⟩

/-- Contract of `computeExecutionOrder` on a well-formed snapshot (distinct
node ids, connection endpoints among the nodes): the returned order lists
distinct snapshot nodes, a node is listed exactly when all connections into
it come from listed sources, and sources precede targets in the order. -/
theorem computeExecutionOrder_spec (w : WorkflowData)
    (hN : w.nodes.Nodup)
    (hE : ∀ c ∈ w.connections, c.1 ∈ w.nodes ∧ c.2 ∈ w.nodes) :
    (computeExecutionOrder w).Nodup
    ∧ (∀ x ∈ computeExecutionOrder w, x ∈ w.nodes)
    ∧ (∀ v ∈ w.nodes, (v ∈ computeExecutionOrder w
        ↔ inCnt w.connections (computeExecutionOrder w) v = 0))
    ∧ (∀ e ∈ w.connections, e.2 ∈ computeExecutionOrder w →
        e.1 ∈ computeExecutionOrder w
        ∧ posIn (computeExecutionOrder w) e.1
            < posIn (computeExecutionOrder w) e.2) := by
  set ind0 : List (Nat × Int)
    := buildMap (w.nodes.map (fun id => (id, (0 : Int)))) with hind0def
  set adj0 : List (Nat × List Nat)
    := buildMap (w.nodes.map (fun id => (id, ([] : List Nat)))) with hadj0def
  set built := w.connections.foldl addConnDeg (ind0, adj0) with hbuiltdef
  set queue
    := built.1.filterMap (fun p => if p.2 = 0 then some p.1 else none)
    with hqdef
  have hg0 : ∀ v, mapGet (ind0, adj0).1 v
      = if v ∈ w.nodes then some ((fun _ => (0 : Int)) v) else none :=
    fun v => buildMap_get w.nodes (0 : Int) v
  have ha0 : ∀ u, mapGet (ind0, adj0).2 u
      = if u ∈ w.nodes then some ((fun _ => ([] : List Nat)) u) else none :=
    fun u => buildMap_get w.nodes ([] : List Nat) u
  obtain ⟨hbi, hba, hbk1, hbk2⟩ := foldConn_spec w.nodes w.connections
    (ind0, adj0) (fun _ => 0) (fun _ => []) hE hg0 ha0
  have hcnt0 : ∀ v, mapGet built.1 v
      = if v ∈ w.nodes then some ((inCnt w.connections [] v : Int))
        else none := by
    intro v
    rw [hbuiltdef, hbi v]
    by_cases hv : v ∈ w.nodes
    · rw [if_pos hv, if_pos hv]
      have hf : inCnt w.connections [] v
          = (w.connections.filter (fun c => decide (c.2 = v))).length := by
        unfold inCnt
        congr 1
        apply List.filter_congr
        intro c _
        simp
      rw [hf]
      simp
    · rw [if_neg hv, if_neg hv]
  have hadjF : ∀ u, mapGet built.2 u = if u ∈ w.nodes then
      some ((w.connections.filter (fun c => decide (c.1 = u))).map Prod.snd)
      else none := by
    intro u
    rw [hbuiltdef, hba u]
    by_cases hu : u ∈ w.nodes <;> simp [hu]
  have hkeys1 : built.1.map Prod.fst = w.nodes := by
    rw [hbuiltdef, hbk1]
    exact buildMap_keys w.nodes (0 : Int) hN
  have hqnd : queue.Nodup := by
    rw [hqdef]
    exact filterMap_queue_nodup (fun d : Int => d = 0) built.1
      (by rw [hkeys1]; exact hN)
  have hqsub : ∀ x ∈ queue, x ∈ w.nodes := by
    intro x hx
    rw [hqdef] at hx
    have := filterMap_queue_sub (fun d : Int => d = 0) built.1 x hx
    rwa [hkeys1] at this
  have hqmem : ∀ v, (v ∈ queue ↔ ∃ b, mapGet built.1 v = some b ∧ b = 0) := by
    intro v
    rw [hqdef]
    exact filterMap_queue_mem (fun d : Int => d = 0) built.1
      (by rw [hkeys1]; exact hN) v
  have hinv0 : KahnInv w.nodes w.connections built.1 queue [] := by
    refine ⟨hcnt0, by simpa using hqnd, ?_, ?_, ?_⟩
    · intro x hx
      exact hqsub x (by simpa using hx)
    · intro v hvN
      constructor
      · intro hv
        obtain ⟨b, hb, hb0⟩ := (hqmem v).mp (by simpa using hv)
        rw [hcnt0 v, if_pos hvN] at hb
        have hbe : (inCnt w.connections [] v : Int) = b :=
          Option.some.inj hb
        omega
      · intro h0
        have hq : v ∈ queue := by
          apply (hqmem v).mpr
          refine ⟨(inCnt w.connections [] v : Int),
            by rw [hcnt0 v, if_pos hvN], ?_⟩
          omega
        simpa using hq
    · intro e _ hmem
      simp at hmem
  obtain ⟨res, hres⟩ := Option.isSome_iff_exists.mp
    (kahnLoopF_isSome built.2 (posSum built.1 + queue.length)
      built.1 queue [] (le_refl _))
  obtain ⟨indF, hinvF⟩ := kahnLoopF_inv w.nodes w.connections built.2
    hadjF hE _ built.1 queue [] res hinv0 hres
  have horder : computeExecutionOrder w = res := by
    have hco : computeExecutionOrder w
        = (kahnLoopF built.2 (posSum built.1 + queue.length)
            built.1 queue []).getD [] := rfl
    rw [hco, hres]
    rfl
  obtain ⟨hcF, hndF, hsubF, hiffF, hprecF⟩ := hinvF
  rw [horder]
  refine ⟨by simpa using hndF, ?_, ?_, ?_⟩
  · intro x hx
    exact hsubF x (by simpa using hx)
  · intro v hv
    simpa using hiffF v hv
  · exact hprecF

/-! ### From the sorter contract to acyclicity facts -/

theorem acyclic_of_rank {E : List (Nat × Nat)} (f : Nat → Nat)
    (h : ∀ c ∈ E, f c.1 < f c.2) :
    ∀ u, ¬ Relation.TransGen (edgeRel E) u u := by
  have hmono : ∀ a b, Relation.TransGen (edgeRel E) a b → f a < f b := by
    intro a b hab
    induction hab with
    | single hr => exact h _ hr
    | tail _ hr ih => exact lt_trans ih (h _ hr)
  intro u hu
  exact lt_irrefl _ (hmono u u hu)

theorem transGen_posIn_lt {E : List (Nat × Nat)} {N res : List Nat}
    (hE : ∀ c ∈ E, c.1 ∈ N ∧ c.2 ∈ N)
    (hcover : ∀ x ∈ N, x ∈ res)
    (hprec : ∀ e ∈ E, e.2 ∈ res →
      e.1 ∈ res ∧ posIn res e.1 < posIn res e.2) :
    ∀ a b, Relation.TransGen (edgeRel E) a b → posIn res a < posIn res b := by
  intro a b hab
  induction hab with
  | single hr => exact (hprec _ hr (hcover _ (hE _ hr).2)).2
  | tail _ hr ih => exact lt_trans ih (hprec _ hr (hcover _ (hE _ hr).2)).2

theorem exists_cycle_of_all_pred {rel : Nat → Nat → Prop} {M : List Nat}
    (hne : M ≠ [])
    (hpred : ∀ v ∈ M, ∃ u, u ∈ M ∧ rel u v) :
    ∃ w, Relation.TransGen rel w w := by
  have hf : ∀ x : {v // v ∈ M}, ∃ y : {v // v ∈ M}, rel y.1 x.1 := by
    rintro ⟨v, hv⟩
    obtain ⟨u, hu, hr⟩ := hpred v hv
    exact ⟨⟨u, hu⟩, hr⟩
  choose f hfr using hf
  obtain ⟨v0, hv0⟩ : ∃ v, v ∈ M := by
    cases M with
    | nil => exact absurd rfl hne
    | cons a t => exact ⟨a, List.mem_cons_self a t⟩
  have hstep : ∀ n, rel ((f^[n + 1]) ⟨v0, hv0⟩).1 ((f^[n]) ⟨v0, hv0⟩).1 := by
    intro n
    rw [Function.iterate_succ_apply' f n _]
    exact hfr ((f^[n]) ⟨v0, hv0⟩)
  have htg : ∀ i j, i < j →
      Relation.TransGen rel ((f^[j]) ⟨v0, hv0⟩).1 ((f^[i]) ⟨v0, hv0⟩).1 := by
    intro i j hij
    induction j, hij using Nat.le_induction with
    | base => exact Relation.TransGen.single (hstep i)
    | succ j _ ih => exact Relation.TransGen.head (hstep j) ih
  have hmaps : ∀ n : Fin (M.length + 1),
      posIn M ((f^[n.1]) ⟨v0, hv0⟩).1 < M.length :=
    fun n => posIn_lt_length ((f^[n.1]) ⟨v0, hv0⟩).2
  have hcard : Fintype.card (Fin M.length)
      < Fintype.card (Fin (M.length + 1)) := by simp
  obtain ⟨i, j, hij, hpos⟩ := Fintype.exists_ne_map_eq_of_card_lt
    (fun n : Fin (M.length + 1) =>
      (⟨posIn M ((f^[n.1]) ⟨v0, hv0⟩).1, hmaps n⟩ : Fin M.length)) hcard
  have heq : ((f^[i.1]) ⟨v0, hv0⟩).1 = ((f^[j.1]) ⟨v0, hv0⟩).1 := by
    apply posIn_inj ((f^[i.1]) ⟨v0, hv0⟩).2 ((f^[j.1]) ⟨v0, hv0⟩).2
    exact congrArg Fin.val hpos
  have hij2 : i.1 ≠ j.1 := fun hh => hij (Fin.ext hh)
  rcases Nat.lt_or_ge i.1 j.1 with hlt | hge
  · refine ⟨((f^[j.1]) ⟨v0, hv0⟩).1, ?_⟩
    have h := htg i.1 j.1 hlt
    rwa [heq] at h
  · have hlt : j.1 < i.1 := lt_of_le_of_ne hge (fun hh => hij2 hh.symm)
    refine ⟨((f^[i.1]) ⟨v0, hv0⟩).1, ?_⟩
    have h := htg j.1 i.1 hlt
    rwa [← heq] at h

theorem computeExecutionOrder_acyclic_perm (w : WorkflowData)
    (hN : w.nodes.Nodup)
    (hE : ∀ c ∈ w.connections, c.1 ∈ w.nodes ∧ c.2 ∈ w.nodes)
    (hA : ∀ u, ¬ Relation.TransGen (edgeRel w.connections) u u) :
    (computeExecutionOrder w).Perm w.nodes := by
  obtain ⟨hnd, hsub, hiff, _⟩ := computeExecutionOrder_spec w hN hE
  have hcover : ∀ x ∈ w.nodes, x ∈ computeExecutionOrder w := by
    by_contra hmiss
    push_neg at hmiss
    obtain ⟨v0, hv0N, hv0no⟩ := hmiss
    have hv0M : v0 ∈ w.nodes.filter
        (fun x => decide (x ∉ computeExecutionOrder w)) :=
      List.mem_filter.mpr ⟨hv0N, by simp [hv0no]⟩
    have hMne : w.nodes.filter
        (fun x => decide (x ∉ computeExecutionOrder w)) ≠ [] :=
      fun hh => by rw [hh] at hv0M; cases hv0M
    have hpredM : ∀ v ∈ w.nodes.filter
        (fun x => decide (x ∉ computeExecutionOrder w)),
        ∃ u, u ∈ w.nodes.filter
          (fun x => decide (x ∉ computeExecutionOrder w))
          ∧ edgeRel w.connections u v := by
      intro v hv
      have hv2 := List.mem_filter.mp hv
      have hvN : v ∈ w.nodes := hv2.1
      have hvno : v ∉ computeExecutionOrder w := by simpa using hv2.2
      have hcnt : inCnt w.connections (computeExecutionOrder w) v ≠ 0 := by
        intro h0
        exact hvno ((hiff v hvN).mpr h0)
      have hlen : w.connections.filter
          (fun c => decide (c.2 = v ∧ c.1 ∉ computeExecutionOrder w))
          ≠ [] := by
        intro hh
        apply hcnt
        unfold inCnt
        rw [hh]
        rfl
      obtain ⟨e, he⟩ := List.exists_mem_of_ne_nil _ hlen
      have heE := (List.mem_filter.mp he).1
      have hep := (List.mem_filter.mp he).2
      simp only [decide_eq_true_eq] at hep
      obtain ⟨he2, he1no⟩ := hep
      have he1N : e.1 ∈ w.nodes := (hE e heE).1
      refine ⟨e.1, List.mem_filter.mpr ⟨he1N, by simp [he1no]⟩, ?_⟩
      show (e.1, v) ∈ w.connections
      rw [← he2]
      exact heE
    obtain ⟨ww, hww⟩ := exists_cycle_of_all_pred hMne hpredM
    exact hA ww hww
  have h1 : (computeExecutionOrder w).Subperm w.nodes :=
    List.subperm_of_subset hnd (fun x hx => hsub x hx)
  have h2 : w.nodes.Subperm (computeExecutionOrder w) :=
    List.subperm_of_subset hN (fun x hx => hcover x hx)
  exact h1.antisymm h2

theorem computeExecutionOrder_cycle_short (w : WorkflowData)
    (hN : w.nodes.Nodup)
    (hE : ∀ c ∈ w.connections, c.1 ∈ w.nodes ∧ c.2 ∈ w.nodes)
    (hC : ∃ u, Relation.TransGen (edgeRel w.connections) u u) :
    (computeExecutionOrder w).length < w.nodes.length := by
  obtain ⟨hnd, hsub, _, hprec⟩ := computeExecutionOrder_spec w hN hE
  have h1 : (computeExecutionOrder w).Subperm w.nodes :=
    List.subperm_of_subset hnd (fun x hx => hsub x hx)
  rcases Nat.lt_or_ge (computeExecutionOrder w).length w.nodes.length
    with h | h
  · exact h
  · exfalso
    have hperm : (computeExecutionOrder w).Perm w.nodes :=
      h1.perm_of_length_le h
    have hcover : ∀ x ∈ w.nodes, x ∈ computeExecutionOrder w :=
      fun x hx => hperm.symm.subset hx
    obtain ⟨u, hu⟩ := hC
    exact lt_irrefl _ (transGen_posIn_lt hE hcover hprec u u hu)

/-! ### The `hasCycle` machine: invariant preservation -/

theorem framesOk_mono_visited (E : List (Nat × Nat))
    {visited visited2 rstack : List Nat}
    (hvv : ∀ x ∈ visited, x ∈ visited2) :
    ∀ (above : List Nat) (st : List (Nat × List (Nat × Nat))),
      framesOk E visited rstack above st →
      framesOk E visited2 rstack above st := by
  intro above st
  induction st generalizing above with
  | nil => intro h; exact h
  | cons fr rest ih =>
    obtain ⟨u, cs⟩ := fr
    intro h
    simp only [framesOk] at h ⊢
    obtain ⟨⟨pre, hpre, hcond⟩, htail⟩ := h
    exact ⟨⟨pre, hpre,
      fun c hc => ⟨hvv _ (hcond c hc).1, (hcond c hc).2⟩⟩, ih _ htail⟩

theorem framesOk_mono_stack (E : List (Nat × Nat))
    {visited rstack rstack2 : List Nat} :
    ∀ (above above2 : List Nat) (st : List (Nat × List (Nat × Nat))),
      (∀ x ext, x ∈ visited → (x ∉ rstack ∨ x ∈ above ++ ext) →
        (x ∉ rstack2 ∨ x ∈ above2 ++ ext)) →
      framesOk E visited rstack above st →
      framesOk E visited rstack2 above2 st := by
  intro above above2 st
  induction st generalizing above above2 with
  | nil => intro _ h; exact h
  | cons fr rest ih =>
    obtain ⟨u, cs⟩ := fr
    intro H h
    simp only [framesOk] at h ⊢
    obtain ⟨⟨pre, hpre, hcond⟩, htail⟩ := h
    refine ⟨⟨pre, hpre, ?_⟩, ?_⟩
    · intro c hc
      refine ⟨(hcond c hc).1, ?_⟩
      have h3 : c.2 ∉ rstack ∨ c.2 ∈ above ++ [] := by
        simpa using (hcond c hc).2
      have h4 := H c.2 [] (hcond c hc).1 h3
      simpa using h4
    · apply ih (above ++ [u]) (above2 ++ [u]) ?_ htail
      intro x ext hx hmem
      have h5 : x ∉ rstack ∨ x ∈ above ++ ([u] ++ ext) := by
        rcases hmem with h | h
        · exact Or.inl h
        · right
          simpa [List.append_assoc] using h
      have h6 := H x ([u] ++ ext) hx h5
      rcases h6 with h | h
      · exact Or.inl h
      · right
        simpa [List.append_assoc] using h

theorem rtg_stays_black {E : List (Nat × Nat)} {visited grays : List Nat}
    (hcl : ∀ u ∈ visited, u ∉ grays →
      ∀ e ∈ E, e.1 = u → e.2 ∈ visited ∧ e.2 ∉ grays) :
    ∀ {b x}, b ∈ visited → b ∉ grays →
      Relation.ReflTransGen (edgeRel E) b x → x ∈ visited ∧ x ∉ grays := by
  intro b x hbv hbg hrtg
  induction hrtg with
  | refl => exact ⟨hbv, hbg⟩
  | tail _ hr ih => exact hcl _ ih.1 ih.2 _ hr rfl

theorem chain_rtg {E : List (Nat × Nat)} {fr : Nat × List (Nat × Nat)}
    {stack : List (Nat × List (Nat × Nat))}
    (hch : List.Pairwise
      (fun a b => Relation.ReflTransGen (edgeRel E) b.1 a.1) (fr :: stack)) :
    ∀ x ∈ (fr :: stack).map Prod.fst,
      Relation.ReflTransGen (edgeRel E) x fr.1 := by
  intro x hx
  rcases List.mem_map.mp hx with ⟨g, hg, hgx⟩
  rcases List.mem_cons.mp hg with h | h
  · rw [← hgx, h]
  · rw [← hgx]
    exact (List.pairwise_cons.mp hch).1 g h

theorem dfsRun_main (E : List (Nat × Nat)) :
    ∀ (fuel : Nat) (stack : List (Nat × List (Nat × Nat)))
      (visited : List Nat) (res : Bool × List Nat),
      DfsInv E stack visited →
      dfsRun E fuel stack visited = some res →
      (res.1 = true → ∃ w, Relation.TransGen (edgeRel E) w w)
      ∧ (res.1 = false →
          (∀ x ∈ visited, x ∈ res.2) ∧ DfsInv E [] res.2) := by
  intro fuel
  induction fuel with
  | zero =>
    intro stack visited res _ hrun
    simp [dfsRun] at hrun
  | succ fuel ih =>
    intro stack visited res hinv hrun
    obtain ⟨hfr, hch, hgv, hgn, hcb, hnbc⟩ := hinv
    cases stack with
    | nil =>
      simp only [dfsRun] at hrun
      obtain rfl : ((false, visited) : Bool × List Nat) = res :=
        Option.some.inj hrun
      constructor
      · intro h
        simp at h
      · intro _
        exact ⟨fun x hx => hx, ⟨hfr, hch, hgv, hgn, hcb, hnbc⟩⟩
    | cons fr rest =>
      obtain ⟨u, cs⟩ := fr
      cases cs with
      | nil =>
        simp only [dfsRun] at hrun
        simp only [framesOk] at hfr
        obtain ⟨⟨pre, hpre, hcond⟩, htail⟩ := hfr
        have hmap : ((u, ([] : List (Nat × Nat))) :: rest).map Prod.fst
            = u :: rest.map Prod.fst := rfl
        rw [hmap] at hgv hgn hcb hnbc hcond
        have hunotrest : u ∉ rest.map Prod.fst := (List.nodup_cons.mp hgn).1
        have hsucc : ∀ m, edgeRel E u m →
            m ∈ visited ∧ m ∉ u :: rest.map Prod.fst := by
          intro m hm
          have hfilter : (u, m) ∈ E.filter (fun e => decide (e.1 = u)) :=
            List.mem_filter.mpr ⟨hm, by simp⟩
          rw [hpre] at hfilter
          have hpre2 : (u, m) ∈ pre := by simpa using hfilter
          obtain ⟨hv2, hc2⟩ := hcond _ hpre2
          rcases hc2 with h2 | h2
          · exact ⟨hv2, h2⟩
          · cases h2
        have hinv2 : DfsInv E rest visited := by
          refine ⟨?_, (List.pairwise_cons.mp hch).2,
            fun x hx => hgv x (List.mem_cons_of_mem _ hx),
            (List.nodup_cons.mp hgn).2, ?_, ?_⟩
          · have htail2 : framesOk E visited (u :: rest.map Prod.fst)
                [u] rest := by
              have hab : ([] : List Nat) ++ [u] = [u] := rfl
              rw [hmap, hab] at htail
              exact htail
            refine @framesOk_mono_stack E visited (u :: rest.map Prod.fst)
              (rest.map Prod.fst) [u] [] rest ?_ htail2
            intro x ext hx hmem
            rcases hmem with h | h
            · exact Or.inl (fun hh => h (List.mem_cons_of_mem _ hh))
            · rcases List.mem_cons.mp h with h1 | h2
              · rw [h1]
                exact Or.inl hunotrest
              · exact Or.inr (by simpa using h2)
          · intro x hxv hxg e he h1
            by_cases hxu : x = u
            · have hxsucc := hsucc e.2 (by
                show (u, e.2) ∈ E
                rw [← hxu, ← h1]
                exact he)
              exact ⟨hxsucc.1, fun hh => hxsucc.2 (List.mem_cons_of_mem _ hh)⟩
            · have hxg2 : x ∉ u :: rest.map Prod.fst := by
                intro hh
                rcases List.mem_cons.mp hh with h2 | h2
                · exact hxu h2
                · exact hxg h2
              have h3 := hcb x hxv hxg2 e he h1
              exact ⟨h3.1, fun hh => h3.2 (List.mem_cons_of_mem _ hh)⟩
          · intro b hbv hbg hcyc
            by_cases hbu : b = u
            · rw [hbu] at hcyc
              obtain ⟨m, hum, hmu⟩ := Relation.TransGen.head'_iff.mp hcyc
              have hm := hsucc m hum
              have hmb := rtg_stays_black hcb hm.1 hm.2 hmu
              exact hmb.2 (List.mem_cons_self _ _)
            · have hbg2 : b ∉ u :: rest.map Prod.fst := by
                intro hh
                rcases List.mem_cons.mp hh with h2 | h2
                · exact hbu h2
                · exact hbg h2
              exact hnbc b hbv hbg2 hcyc
        exact ih rest visited res hinv2 hrun
      | cons c cs2 =>
        simp only [dfsRun] at hrun
        simp only [framesOk] at hfr
        obtain ⟨⟨pre, hpre, hcond⟩, htail⟩ := hfr
        have hcE : c ∈ E ∧ c.1 = u := by
          have hcf : c ∈ E.filter (fun e => decide (e.1 = u)) := by
            rw [hpre]
            exact List.mem_append.mpr (Or.inr (List.mem_cons_self _ _))
          have := List.mem_filter.mp hcf
          exact ⟨this.1, by simpa using this.2⟩
        have hedge : edgeRel E u c.2 := by
          show (u, c.2) ∈ E
          rw [← hcE.2]
          exact hcE.1
        have hmap : ((u, c :: cs2) :: rest).map Prod.fst
            = u :: rest.map Prod.fst := rfl
        by_cases hgray : c.2 ∈ ((u, c :: cs2) :: rest).map Prod.fst
        · rw [if_pos hgray] at hrun
          obtain rfl : ((true, visited) : Bool × List Nat) = res :=
            Option.some.inj hrun
          constructor
          · intro _
            have hrtg := chain_rtg hch c.2 hgray
            exact ⟨c.2, Relation.TransGen.tail' hrtg hedge⟩
          · intro h
            simp at h
        · rw [if_neg hgray] at hrun
          rw [hmap] at hgv hgn hcb hnbc hcond hgray
          by_cases hvis : c.2 ∈ visited
          · rw [if_pos hvis] at hrun
            have hinv2 : DfsInv E ((u, cs2) :: rest) visited := by
              refine ⟨?_, ?_, hgv, hgn, hcb, hnbc⟩
              · simp only [framesOk]
                refine ⟨⟨pre ++ [c], by rw [hpre]; simp, ?_⟩, ?_⟩
                · intro c2 hc2
                  rcases List.mem_append.mp hc2 with h2 | h2
                  · exact hcond c2 h2
                  · have hcc : c2 = c := by simpa using h2
                    rw [hcc]
                    exact ⟨hvis, Or.inl hgray⟩
                · exact htail
              · exact List.pairwise_cons.mpr
                  ⟨(List.pairwise_cons.mp hch).1,
                    (List.pairwise_cons.mp hch).2⟩
            exact ih _ _ _ hinv2 hrun
          · rw [if_neg hvis] at hrun
            have hvnotgray : c.2 ∉ u :: rest.map Prod.fst := hgray
            have hinv2 : DfsInv E
                ((c.2, E.filter (fun e => decide (e.1 = c.2)))
                  :: (u, cs2) :: rest) (c.2 :: visited) := by
              refine ⟨?_, ?_, ?_, ?_, ?_, ?_⟩
              · simp only [framesOk]
                refine ⟨⟨[], by simp, by intro c2 hc2; cases hc2⟩, ?_, ?_⟩
                · refine ⟨pre ++ [c], by rw [hpre]; simp, ?_⟩
                  intro c2 hc2
                  rcases List.mem_append.mp hc2 with h2 | h2
                  · obtain ⟨hv2, hc3⟩ := hcond c2 h2
                    refine ⟨List.mem_cons_of_mem _ hv2, ?_⟩
                    rcases hc3 with h3 | h3
                    · left
                      intro hh
                      rcases List.mem_cons.mp hh with h4 | h4
                      · rw [h4] at hv2
                        exact hvis hv2
                      · exact h3 h4
                    · cases h3
                  · have hcc : c2 = c := by simpa using h2
                    rw [hcc]
                    exact ⟨List.mem_cons_self _ _, Or.inr (by simp)⟩
                · apply framesOk_mono_visited E
                    (fun x hx => List.mem_cons_of_mem _ hx)
                  apply framesOk_mono_stack E ([] ++ [u])
                    ((([] : List Nat) ++ [c.2]) ++ [u]) rest ?_ htail
                  intro x ext hx hmem
                  rcases hmem with h | h
                  · left
                    intro hh
                    rcases List.mem_cons.mp hh with h4 | h4
                    · rw [h4] at hx
                      exact hvis hx
                    · exact h h4
                  · right
                    rcases List.mem_cons.mp (by simpa using h) with h4 | h4
                    · simp [h4]
                    · simp [h4]
              · refine List.pairwise_cons.mpr ⟨?_, ?_⟩
                · intro b hb
                  rcases List.mem_cons.mp hb with h2 | h2
                  · rw [h2]
                    exact Relation.ReflTransGen.single hedge
                  · exact Relation.ReflTransGen.tail
                      ((List.pairwise_cons.mp hch).1 b h2) hedge
                · exact List.pairwise_cons.mpr
                    ⟨(List.pairwise_cons.mp hch).1,
                      (List.pairwise_cons.mp hch).2⟩
              · intro x hx
                rcases List.mem_cons.mp hx with h2 | h2
                · rw [h2]
                  exact List.mem_cons_self _ _
                · exact List.mem_cons_of_mem _ (hgv x h2)
              · refine List.nodup_cons.mpr ⟨?_, hgn⟩
                intro hh
                exact hvis (hgv _ hh)
              · intro x hxv hxg e he h1
                have hxne : x ≠ c.2 := by
                  intro hh
                  exact hxg (hh ▸ List.mem_cons_self _ _)
                have hxv2 : x ∈ visited := by
                  rcases List.mem_cons.mp hxv with h2 | h2
                  · exact absurd h2 hxne
                  · exact h2
                have hxg2 : x ∉ u :: rest.map Prod.fst :=
                  fun hh => hxg (List.mem_cons_of_mem _ hh)
                have h3 := hcb x hxv2 hxg2 e he h1
                refine ⟨List.mem_cons_of_mem _ h3.1, ?_⟩
                intro hh
                rcases List.mem_cons.mp hh with h4 | h4
                · rw [h4] at h3
                  exact hvis h3.1
                · exact h3.2 h4
              · intro b hbv hbg hcyc
                have hbne : b ≠ c.2 := by
                  intro hh
                  exact hbg (hh ▸ List.mem_cons_self _ _)
                have hbv2 : b ∈ visited := by
                  rcases List.mem_cons.mp hbv with h2 | h2
                  · exact absurd h2 hbne
                  · exact h2
                exact hnbc b hbv2
                  (fun hh => hbg (List.mem_cons_of_mem _ hh)) hcyc
            have hmain := ih _ _ _ hinv2 hrun
            refine ⟨hmain.1, ?_⟩
            intro hf
            obtain ⟨hsub2, hinvf⟩ := hmain.2 hf
            exact ⟨fun x hx => hsub2 x (List.mem_cons_of_mem _ hx), hinvf⟩

/-! ### Fuel sufficiency for the `hasCycle` machine -/

theorem length_filter_erase (p : Nat → Bool) (v : Nat) (hpv : p v = true) :
    ∀ l : List Nat, l.Nodup → v ∈ l →
      (l.filter fun x => p x && decide (x ≠ v)).length + 1
        = (l.filter p).length := by
  intro l
  induction l with
  | nil => intro _ hv; cases hv
  | cons a t ih =>
    intro hl hv
    obtain ⟨hat, htnd⟩ := List.nodup_cons.mp hl
    by_cases hav : a = v
    · have hvt : v ∉ t := by rw [← hav]; exact hat
      have h1 : List.filter (fun x => p x && decide (x ≠ v)) (a :: t)
          = List.filter (fun x => p x && decide (x ≠ v)) t := by
        rw [List.filter_cons, hav]
        simp
      have h3 : List.filter (fun x => p x && decide (x ≠ v)) t
          = List.filter p t := by
        apply List.filter_congr
        intro x hx
        have hxv : x ≠ v := fun hh => hvt (hh ▸ hx)
        simp [hxv]
      have h2 : List.filter p (a :: t) = a :: List.filter p t := by
        rw [List.filter_cons, hav]
        simp [hpv]
      rw [h1, h3, h2, List.length_cons]
    · have hvt : v ∈ t := by
        rcases List.mem_cons.mp hv with h | h
        · exact absurd h.symm hav
        · exact h
      by_cases hpa : p a = true
      · have h1 : List.filter (fun x => p x && decide (x ≠ v)) (a :: t)
            = a :: List.filter (fun x => p x && decide (x ≠ v)) t := by
          rw [List.filter_cons]
          simp [hpa, hav]
        have h2 : List.filter p (a :: t) = a :: List.filter p t := by
          rw [List.filter_cons]
          simp [hpa]
        rw [h1, h2, List.length_cons, List.length_cons]
        have := ih htnd hvt
        omega
      · have h1 : List.filter (fun x => p x && decide (x ≠ v)) (a :: t)
            = List.filter (fun x => p x && decide (x ≠ v)) t := by
          rw [List.filter_cons]
          simp [hpa]
        have h2 : List.filter p (a :: t) = List.filter p t := by
          rw [List.filter_cons]
          simp [hpa]
        rw [h1, h2]
        exact ih htnd hvt

theorem unvis_cons (uni visited : List Nat) {v : Nat} (hv : v ∈ uni)
    (hnv : v ∉ visited) :
    unvis uni (v :: visited) + 1 = unvis uni visited := by
  unfold unvis
  have hvd : v ∈ uni.dedup := List.mem_dedup.mpr hv
  have hnd : uni.dedup.Nodup := List.nodup_dedup uni
  have hpv : decide (v ∉ visited) = true := by simp [hnv]
  have hcongr : uni.dedup.filter (fun x => decide (x ∉ v :: visited))
      = uni.dedup.filter
          (fun x => decide (x ∉ visited) && decide (x ≠ v)) := by
    apply List.filter_congr
    intro x _
    by_cases h1 : x = v <;> by_cases h2 : x ∈ visited <;>
      simp [h1, h2, List.mem_cons]
  rw [hcongr]
  exact length_filter_erase _ v hpv uni.dedup hnd hvd

theorem unvis_le (uni visited : List Nat) :
    unvis uni visited ≤ uni.length := by
  unfold unvis
  calc (uni.dedup.filter (fun x => decide (x ∉ visited))).length
      ≤ uni.dedup.length := List.length_filter_le _ _
    _ ≤ uni.length := List.Sublist.length_le (List.dedup_sublist uni)

theorem dfsRun_isSome (E : List (Nat × Nat)) (uni : List Nat)
    (hUni : ∀ c ∈ E, c.2 ∈ uni) :
    ∀ (fuel : Nat) (stack : List (Nat × List (Nat × Nat)))
      (visited : List Nat),
      (∀ f ∈ stack, ∀ c ∈ f.2, c.2 ∈ uni) →
      unvis uni visited * (E.length + 1) + framesWeight stack < fuel →
      (dfsRun E fuel stack visited).isSome = true := by
  intro fuel
  induction fuel with
  | zero =>
    intro stack visited _ hm
    exact absurd hm (Nat.not_lt_zero _)
  | succ fuel ih =>
    intro stack visited hst hm
    cases stack with
    | nil => simp [dfsRun]
    | cons fr rest =>
      obtain ⟨u, cs⟩ := fr
      cases cs with
      | nil =>
        simp only [dfsRun]
        apply ih rest visited
          (fun f hf => hst f (List.mem_cons_of_mem _ hf))
        have hw : framesWeight ((u, ([] : List (Nat × Nat))) :: rest)
            = 1 + framesWeight rest := by
          simp [framesWeight]
        rw [hw] at hm
        omega
      | cons c cs2 =>
        simp only [dfsRun]
        by_cases hgray : c.2 ∈ ((u, c :: cs2) :: rest).map Prod.fst
        · rw [if_pos hgray]
          rfl
        · rw [if_neg hgray]
          by_cases hvis : c.2 ∈ visited
          · rw [if_pos hvis]
            apply ih ((u, cs2) :: rest) visited ?_ ?_
            · intro f hf c2 hc2
              rcases List.mem_cons.mp hf with h | h
              · apply hst (u, c :: cs2) (List.mem_cons_self _ _)
                rw [h] at hc2
                exact List.mem_cons_of_mem _ hc2
              · exact hst f (List.mem_cons_of_mem _ h) c2 hc2
            · have hw1 : framesWeight ((u, c :: cs2) :: rest)
                  = (c :: cs2).length + 1 + framesWeight rest := by
                simp [framesWeight]
              have hw2 : framesWeight ((u, cs2) :: rest)
                  = cs2.length + 1 + framesWeight rest := by
                simp [framesWeight]
              rw [hw2]
              rw [hw1] at hm
              simp only [List.length_cons] at hm
              omega
          · rw [if_neg hvis]
            apply ih ((c.2, E.filter (fun e => decide (e.1 = c.2)))
              :: (u, cs2) :: rest) (c.2 :: visited) ?_ ?_
            · intro f hf c2 hc2
              rcases List.mem_cons.mp hf with h | h
              · rw [h] at hc2
                exact hUni c2 (List.mem_filter.mp hc2).1
              · rcases List.mem_cons.mp h with h2 | h2
                · apply hst (u, c :: cs2) (List.mem_cons_self _ _)
                  rw [h2] at hc2
                  exact List.mem_cons_of_mem _ hc2
                · exact hst f (List.mem_cons_of_mem _ h2) c2 hc2
            · have hcu : c.2 ∈ uni :=
                hst (u, c :: cs2) (List.mem_cons_self _ _) c
                  (List.mem_cons_self _ _)
              have huv := unvis_cons uni visited hcu hvis
              have hw1 : framesWeight ((u, c :: cs2) :: rest)
                  = (c :: cs2).length + 1 + framesWeight rest := by
                simp [framesWeight]
              have hw2 : framesWeight
                  ((c.2, E.filter (fun e => decide (e.1 = c.2)))
                    :: (u, cs2) :: rest)
                  = (E.filter (fun e => decide (e.1 = c.2))).length + 1
                    + (cs2.length + 1 + framesWeight rest) := by
                simp [framesWeight]
              have hfl : (E.filter (fun e => decide (e.1 = c.2))).length
                  ≤ E.length := List.length_filter_le _ _
              have hmul : unvis uni (c.2 :: visited) * (E.length + 1)
                  + (E.length + 1)
                  = unvis uni visited * (E.length + 1) := by
                rw [← huv]
                ring
              rw [hw2]
              rw [hw1] at hm
              simp only [List.length_cons] at hm
              omega

theorem hcdLoop_isSome (E : List (Nat × Nat)) (uni : List Nat) (fuel : Nat)
    (hUni : ∀ c ∈ E, c.2 ∈ uni)
    (hfuel : uni.length * (E.length + 1) + E.length + 2 ≤ fuel) :
    ∀ (ns visited : List Nat), (hcdLoop E fuel visited ns).isSome = true := by
  intro ns
  induction ns with
  | nil => intro visited; simp [hcdLoop]
  | cons n rest ih =>
    intro visited
    simp only [hcdLoop]
    by_cases hn : n ∈ visited
    · rw [if_pos hn]
      exact ih visited
    · rw [if_neg hn]
      have hrun := dfsRun_isSome E uni hUni fuel
        [(n, E.filter (fun e => decide (e.1 = n)))] (n :: visited) ?_ ?_
      · obtain ⟨r, hr⟩ := Option.isSome_iff_exists.mp hrun
        rw [hr]
        obtain ⟨b, vis2⟩ := r
        cases b with
        | true => rfl
        | false => exact ih vis2
      · intro f hf c hc
        have hfe : f = (n, E.filter (fun e => decide (e.1 = n))) := by
          simpa using hf
        rw [hfe] at hc
        exact hUni c (List.mem_filter.mp hc).1
      · have h1 := unvis_le uni (n :: visited)
        have h2 : unvis uni (n :: visited) * (E.length + 1)
            ≤ uni.length * (E.length + 1) :=
          Nat.mul_le_mul_right _ h1
        have h3 := List.length_filter_le (fun e => decide (e.1 = n)) E
        have hw : framesWeight [(n, E.filter (fun e => decide (e.1 = n)))]
            = (E.filter (fun e => decide (e.1 = n))).length + 1 := by
          simp [framesWeight]
        rw [hw]
        omega

theorem hcdLoop_main (E : List (Nat × Nat)) (fuel : Nat) :
    ∀ (ns visited : List Nat) (r : Bool),
      DfsInv E [] visited →
      hcdLoop E fuel visited ns = some r →
      (r = true → ∃ w, Relation.TransGen (edgeRel E) w w)
      ∧ (r = false → ∀ w, Relation.TransGen (edgeRel E) w w →
          w ∉ ns ∧ w ∉ visited) := by
  intro ns
  induction ns with
  | nil =>
    intro visited r hinv hrun
    simp only [hcdLoop] at hrun
    obtain rfl : false = r := Option.some.inj hrun
    constructor
    · intro h
      simp at h
    · intro _ w hw
      refine ⟨List.not_mem_nil w, ?_⟩
      intro hwv
      exact hinv.noBlackCycle w hwv (by simp) hw
  | cons n rest ih =>
    intro visited r hinv hrun
    simp only [hcdLoop] at hrun
    by_cases hn : n ∈ visited
    · rw [if_pos hn] at hrun
      have hm := ih visited r hinv hrun
      refine ⟨hm.1, ?_⟩
      intro hf w hw
      obtain ⟨h1, h2⟩ := hm.2 hf w hw
      refine ⟨?_, h2⟩
      intro hh
      rcases List.mem_cons.mp hh with h3 | h3
      · exact h2 (h3 ▸ hn)
      · exact h1 h3
    · rw [if_neg hn] at hrun
      have hinv2 : DfsInv E [(n, E.filter (fun e => decide (e.1 = n)))]
          (n :: visited) := by
        refine ⟨?_, ?_, ?_, ?_, ?_, ?_⟩
        · simp only [framesOk]
          exact ⟨⟨[], by simp, by intro c hc; cases hc⟩, trivial⟩
        · exact List.pairwise_singleton _ _
        · intro x hx
          have hxn : x = n := by simpa using hx
          rw [hxn]
          exact List.mem_cons_self _ _
        · simp
        · intro x hxv hxg e he h1
          have hxn : x ≠ n := by
            intro hh
            apply hxg
            rw [hh]
            simp
          have hxv2 : x ∈ visited := by
            rcases List.mem_cons.mp hxv with h2 | h2
            · exact absurd h2 hxn
            · exact h2
          have h3 := hinv.closedBlack x hxv2 (by simp) e he h1
          refine ⟨List.mem_cons_of_mem _ h3.1, ?_⟩
          intro hh
          have he2 : e.2 = n := by simpa using hh
          rw [he2] at h3
          exact hn h3.1
        · intro b hbv hbg hcyc
          have hbn : b ≠ n := by
            intro hh
            apply hbg
            rw [hh]
            simp
          have hbv2 : b ∈ visited := by
            rcases List.mem_cons.mp hbv with h2 | h2
            · exact absurd h2 hbn
            · exact h2
          exact hinv.noBlackCycle b hbv2 (by simp) hcyc
      cases hd : dfsRun E fuel [(n, E.filter (fun e => decide (e.1 = n)))]
          (n :: visited) with
      | none =>
        rw [hd] at hrun
        simp at hrun
      | some p =>
        rw [hd] at hrun
        obtain ⟨b, vis2⟩ := p
        have hdm := dfsRun_main E fuel _ _ (b, vis2) hinv2 hd
        cases b with
        | true =>
          obtain rfl : true = r := Option.some.inj hrun
          refine ⟨fun _ => hdm.1 rfl, ?_⟩
          intro hf
          simp at hf
        | false =>
          have hdm2 := hdm.2 rfl
          have hm := ih vis2 r hdm2.2 hrun
          refine ⟨hm.1, ?_⟩
          intro hf w hw
          obtain ⟨h1, h2⟩ := hm.2 hf w hw
          have hnv : n ∈ vis2 := hdm2.1 n (List.mem_cons_self _ _)
          constructor
          · intro hh
            rcases List.mem_cons.mp hh with h3 | h3
            · rw [h3] at h2
              exact h2 hnv
            · exact h1 h3
          · intro hwv
            exact h2 (hdm2.1 w (List.mem_cons_of_mem _ hwv))

/-- The DFS check is exact on well-formed snapshots: `true` iff the
connections contain a cycle (soundness needs no hypothesis; completeness
needs the connection sources to be snapshot nodes, since the DFS starts
only from `workflowData.nodes`). -/
theorem hasCircularDependencies_iff (w : WorkflowData)
    (hSrc : ∀ c ∈ w.connections, c.1 ∈ w.nodes) :
    (hasCircularDependencies w = true
      ↔ ∃ x, Relation.TransGen (edgeRel w.connections) x x) := by
  have hUni : ∀ c ∈ w.connections,
      c.2 ∈ w.nodes ++ w.connections.map Prod.snd := by
    intro c hc
    exact List.mem_append.mpr (Or.inr (List.mem_map_of_mem Prod.snd hc))
  have hsome := hcdLoop_isSome w.connections
    (w.nodes ++ w.connections.map Prod.snd)
    ((w.nodes ++ w.connections.map Prod.snd).length
      * (w.connections.length + 1) + w.connections.length + 2)
    hUni (le_refl _) w.nodes []
  obtain ⟨r, hr⟩ := Option.isSome_iff_exists.mp hsome
  have hinv0 : DfsInv w.connections [] [] := by
    refine ⟨trivial, List.Pairwise.nil, ?_, ?_, ?_, ?_⟩
    · intro x hx
      simp at hx
    · simp
    · intro u hu
      cases hu
    · intro b hb
      cases hb
  have hmain := hcdLoop_main w.connections _ w.nodes [] r hinv0 hr
  have hco : hasCircularDependencies w = r := by
    have he : hasCircularDependencies w
        = (hcdLoop w.connections
            ((w.nodes ++ w.connections.map Prod.snd).length
              * (w.connections.length + 1) + w.connections.length + 2)
            [] w.nodes).getD false := rfl
    rw [he, hr]
    rfl
  rw [hco]
  constructor
  · intro hrt
    exact hmain.1 hrt
  · rintro ⟨x, hx⟩
    cases r with
    | true => rfl
    | false =>
      exfalso
      have hnm := hmain.2 rfl x hx
      obtain ⟨m, hxm, _⟩ := Relation.TransGen.head'_iff.mp hx
      exact hnm.1 (hSrc (x, m) hxm)

/-! ### The claim theorems for the sorter and the cycle checks -/

/-- C3: on every acyclic well-formed snapshot (distinct node ids,
connection endpoints among the nodes), `computeExecutionOrder` returns an
order that is a permutation of the nodes — each node appearing exactly
once — in which, for every connection, the source node strictly precedes
the target node; instantiated at the spec's 4-node diamond by the witness. -/
theorem computeExecutionOrder_topological (w : WorkflowData)
    (hN : w.nodes.Nodup)
    (hE : ∀ c ∈ w.connections, c.1 ∈ w.nodes ∧ c.2 ∈ w.nodes)
    (hA : ∀ u, ¬ Relation.TransGen (edgeRel w.connections) u u) :
    (computeExecutionOrder w).Perm w.nodes
    ∧ (∀ n ∈ w.nodes, (computeExecutionOrder w).count n = 1)
    ∧ ∀ c ∈ w.connections,
        posIn (computeExecutionOrder w) c.1
          < posIn (computeExecutionOrder w) c.2 := by
  have hperm := computeExecutionOrder_acyclic_perm w hN hE hA
  obtain ⟨hnd, _, _, hprec⟩ := computeExecutionOrder_spec w hN hE
  refine ⟨hperm, ?_, ?_⟩
  · intro n hn
    exact List.count_eq_one_of_mem hnd (hperm.mem_iff.mpr hn)
  · intro c hc
    have h2 : c.2 ∈ computeExecutionOrder w :=
      hperm.mem_iff.mpr (hE c hc).2
    exact (hprec c hc h2).2

/-- Witness for C3 at the spec's diamond (`1→2`, `1→3`, `2→4`, `3→4`): the
order has length 4, node `1` appears exactly once, `1` precedes `2` and
`3`, and both `2` and `3` precede `4`. -/
theorem computeExecutionOrder_topological_witness :
    (computeExecutionOrder diamondW).length = 4
    ∧ (computeExecutionOrder diamondW).count 1 = 1
    ∧ posIn (computeExecutionOrder diamondW) 1
        < posIn (computeExecutionOrder diamondW) 2
    ∧ posIn (computeExecutionOrder diamondW) 1
        < posIn (computeExecutionOrder diamondW) 3
    ∧ posIn (computeExecutionOrder diamondW) 2
        < posIn (computeExecutionOrder diamondW) 4
    ∧ posIn (computeExecutionOrder diamondW) 3
        < posIn (computeExecutionOrder diamondW) 4 := by
  have h := computeExecutionOrder_topological diamondW (by decide)
    (by decide) (acyclic_of_rank (fun n => n) (by decide))
  refine ⟨?_, ?_, ?_, ?_, ?_, ?_⟩
  · rw [h.1.length_eq]
    rfl
  · exact h.2.1 1 (by decide)
  · exact h.2.2 (1, 2) (by decide)
  · exact h.2.2 (1, 3) (by decide)
  · exact h.2.2 (2, 4) (by decide)
  · exact h.2.2 (3, 4) (by decide)

/-- C4: on every well-formed snapshot containing a cycle, the sorter (a
total function — nothing is thrown) returns a partial order strictly
shorter than the node count, the code's cycle flag
(`order.length !== nodes.length`, the condition that logs the warning) is
set, and for every export of this snapshot the `executeWorkflow` gate
rejects with the listed `Workflow contains circular dependencies`
validation error instead of proceeding. -/
theorem computeExecutionOrder_cycle (w : WorkflowData)
    (hN : w.nodes.Nodup)
    (hE : ∀ c ∈ w.connections, c.1 ∈ w.nodes ∧ c.2 ∈ w.nodes)
    (hC : ∃ u, Relation.TransGen (edgeRel w.connections) u u) :
    (computeExecutionOrder w).length < w.nodes.length
    ∧ (computeExecutionOrder w).length ≠ w.nodes.length
    ∧ ∀ inp : ValidationInput,
        inp.wnodes.map ExportedNode.id = w.nodes →
        inp.wconns = w.connections →
        executeWorkflowGate false inp
            = ExecOutcome.validationFailed (validateWorkflow inp).2
          ∧ WError.circularDependencies ∈ (validateWorkflow inp).2 := by
  have hshort := computeExecutionOrder_cycle_short w hN hE hC
  refine ⟨hshort, Nat.ne_of_lt hshort, ?_⟩
  intro inp h1 h2
  have hw : (⟨inp.wnodes.map ExportedNode.id, inp.wconns⟩ : WorkflowData)
      = w := by
    rw [h1, h2]
  have hcirc : hasCircularDependencies
      ⟨inp.wnodes.map ExportedNode.id, inp.wconns⟩ = true := by
    rw [hw]
    exact (hasCircularDependencies_iff w (fun c hc => (hE c hc).1)).mpr hC
  have herr : WError.circularDependencies ∈ (validateWorkflow inp).2 := by
    show WError.circularDependencies ∈
      (if inp.wnodes.isEmpty then [WError.emptyWorkflow] else []) ++
      inp.wnodes.flatMap (nodeErrors inp.canvasNodes) ++
      (if hasCircularDependencies
          ⟨inp.wnodes.map ExportedNode.id, inp.wconns⟩ then
        [WError.circularDependencies]
      else [])
    rw [hcirc]
    simp
  have hvalid : (validateWorkflow inp).1 = false := by
    have hv1 : (validateWorkflow inp).1
        = (validateWorkflow inp).2.isEmpty := rfl
    rw [hv1]
    cases hcase : (validateWorkflow inp).2 with
    | nil =>
      rw [hcase] at herr
      cases herr
    | cons a t => rfl
  refine ⟨?_, herr⟩
  have hg : executeWorkflowGate false inp
      = if (validateWorkflow inp).1 = true then ExecOutcome.started
        else ExecOutcome.validationFailed (validateWorkflow inp).2 := rfl
  rw [hg, hvalid]
  simp

/-- Witness for C4 at the spec's 3-cycle `1→2→3→1`: the returned order is
shorter than 3, and executing the corresponding export is rejected with
the circular-dependencies validation error. -/
theorem computeExecutionOrder_cycle_witness :
    (computeExecutionOrder triangleW).length < 3
    ∧ executeWorkflowGate false triangleInput
        = ExecOutcome.validationFailed (validateWorkflow triangleInput).2
    ∧ WError.circularDependencies ∈ (validateWorkflow triangleInput).2 := by
  have hcyc : Relation.TransGen (edgeRel triangleW.connections) 1 1 := by
    have h12 : edgeRel triangleW.connections 1 2 := by
      show ((1 : Nat), (2 : Nat)) ∈ triangleW.connections
      decide
    have h23 : edgeRel triangleW.connections 2 3 := by
      show ((2 : Nat), (3 : Nat)) ∈ triangleW.connections
      decide
    have h31 : edgeRel triangleW.connections 3 1 := by
      show ((3 : Nat), (1 : Nat)) ∈ triangleW.connections
      decide
    exact Relation.TransGen.tail
      (Relation.TransGen.tail (Relation.TransGen.single h12) h23) h31
  have h := computeExecutionOrder_cycle triangleW (by decide) (by decide)
    ⟨1, hcyc⟩
  have h2 := h.2.2 triangleInput rfl rfl
  exact ⟨h.1, h2.1, h2.2⟩

/-- C5: the two independent cycle checks agree on every well-formed
snapshot: the DFS-based `hasCircularDependencies` returns `false` exactly
when Kahn's `computeExecutionOrder` returns an order whose length equals
the node count (both report the graph acyclic), and `true` exactly when
that order is strictly shorter. -/
theorem cycleChecks_agree (w : WorkflowData)
    (hN : w.nodes.Nodup)
    (hE : ∀ c ∈ w.connections, c.1 ∈ w.nodes ∧ c.2 ∈ w.nodes) :
    (hasCircularDependencies w = false
      ↔ (computeExecutionOrder w).length = w.nodes.length)
    ∧ (hasCircularDependencies w = true
      ↔ (computeExecutionOrder w).length < w.nodes.length) := by
  have hiff := hasCircularDependencies_iff w (fun c hc => (hE c hc).1)
  by_cases hcyc : ∃ x, Relation.TransGen (edgeRel w.connections) x x
  · have htrue : hasCircularDependencies w = true := hiff.mpr hcyc
    have hshort := computeExecutionOrder_cycle_short w hN hE hcyc
    constructor
    · constructor
      · intro hfalse
        rw [htrue] at hfalse
        cases hfalse
      · intro hlen
        exact absurd hlen (by omega)
    · exact ⟨fun _ => hshort, fun _ => htrue⟩
  · push_neg at hcyc
    have hperm := computeExecutionOrder_acyclic_perm w hN hE hcyc
    have hlen := hperm.length_eq
    have hfalse : hasCircularDependencies w = false := by
      cases hb : hasCircularDependencies w with
      | false => rfl
      | true =>
        obtain ⟨x, hx⟩ := hiff.mp hb
        exact absurd hx (hcyc x)
    constructor
    · exact ⟨fun _ => hlen, fun _ => hfalse⟩
    · constructor
      · intro ht
        rw [hfalse] at ht
        cases ht
      · intro hlt
        exact absurd hlt (by omega)

/-- Witness for C5 at a concrete acyclic snapshot (`1→2` on nodes
`[1, 2]`): both equivalences hold with all hypotheses discharged. -/
theorem cycleChecks_agree_witness :
    (hasCircularDependencies chainW = false
      ↔ (computeExecutionOrder chainW).length = chainW.nodes.length)
    ∧ (hasCircularDependencies chainW = true
      ↔ (computeExecutionOrder chainW).length < chainW.nodes.length) :=
  cycleChecks_agree chainW (by decide) (by decide)

end NodeEditor
